import Mathlib

/-!
Verification of the ragged-blocks layout core against its specification.

Numbers are modelled by `ℚ` (the TypeScript source computes with IEEE
doubles, but every algorithm under consideration uses only ring
operations, `min`/`max`, absolute values and comparisons, which are
exact on the rationals).  Machine integers (indices, uids, depths) are
modelled by `ℕ`.  Fallible code (assertion failures, thrown errors) is
modelled with `Option`.
-/

namespace RB

/-! ### Geometry primitives (vector.ts, point.ts, rect.ts) -/

/-- A 2-dimensional vector (`vector.ts`). -/
structure Vec where
  dx : ℚ
  dy : ℚ
deriving DecidableEq, Repr

/-- Component-wise vector sum (`vector.ts` `add`). -/
def Vec.add (lhs rhs : Vec) : Vec := ⟨lhs.dx + rhs.dx, lhs.dy + rhs.dy⟩

/-- Magnitude of the 2d cross product (`vector.ts` `cross`). -/
def cross (a b : Vec) : ℚ := a.dx * b.dy - b.dx * a.dy

/-- A 2D point (`point.ts`). -/
structure Point where
  x : ℚ
  y : ℚ
deriving DecidableEq, Repr

/-- Translate a point by a vector (`point.ts` `addVector`). -/
def addVector (p : Point) (v : Vec) : Point := ⟨p.x + v.dx, p.y + v.dy⟩

/-- Subtract two points, giving the vector from `b` to `a`
(`point.ts` `subPoints`). -/
def subPoints (a b : Point) : Vec := ⟨a.x - b.x, a.y - b.y⟩

/-- The type of rectangles (`rect.ts`); y grows downwards. -/
structure Rect where
  left : ℚ
  right : ℚ
  top : ℚ
  bottom : ℚ
deriving DecidableEq, Repr

/-- Translate a rectangle by a vector (`rect.ts` `translate`). -/
def Rect.translate (r : Rect) (v : Vec) : Rect :=
  ⟨r.left + v.dx, r.right + v.dx, r.top + v.dy, r.bottom + v.dy⟩

/-- Width of a rectangle (`rect.ts` `width`). -/
def Rect.width (r : Rect) : ℚ := r.right - r.left

/-- Height of a rectangle (`rect.ts` `height`). -/
def Rect.height (r : Rect) : ℚ := r.bottom - r.top

/-- Inflate a rectangle by an amount on all four sides (`rect.ts` `inflate`). -/
def Rect.inflate (r : Rect) (amt : ℚ) : Rect :=
  ⟨r.left - amt, r.right + amt, r.top - amt, r.bottom + amt⟩

/-! ### Ranges and regions (rocks-layout/region.ts) -/

/-- A range of indices, `end'` exclusive (`region.ts` `Range`; the field
`end` is a Lean keyword, hence the primed names). -/
structure Range where
  begin' : ℕ
  end' : ℕ
deriving DecidableEq, Repr

/-- Construct a range covering only `index` (`region.ts` `singletonRange`). -/
def singletonRange (index : ℕ) : Range := ⟨index, index + 1⟩

/-- A region: either empty, or a range of backing indices with a depth
(`region.ts` `Region`). -/
inductive Region where
  | emptyRegion : Region
  | mk (range : Range) (depth : ℕ) : Region
deriving DecidableEq, Repr

/-- A reference to a single column at a single depth (`region.ts` `StackRef`). -/
structure StackRef where
  index : ℕ
  depth : ℕ
deriving DecidableEq, Repr

/-- Convert a `StackRef` into a `Region` (`region.ts` `regionFromStackRef`). -/
def regionFromStackRef (s : StackRef) : Region :=
  .mk (singletonRange s.index) s.depth

/-- Join two adjacent regions (`region.ts` `joinRegions`).  The source
throws an assertion error when the regions are non-empty and not
adjacent; this is modelled by returning `none`. -/
def joinRegions : Region → Region → Option Region
  | .emptyRegion, rhs => some rhs
  | lhs, .emptyRegion => some lhs
  | .mk lr ld, .mk rr rd =>
      if lr.end' = rr.begin' then
        some (.mk ⟨lr.begin', rr.end'⟩ (min ld rd))
      else
        none

/-! ### The Backing (rocks-layout/backing.ts)

The `Backing` stores placed rectangles (with their maximum padding) and
spacers in an array; each element is identified by its array index.
The source additionally maintains `chunks`, a map from vertical chunk
number to the set of indices overlapping that chunk; the chunk map is a
spatial acceleration index over the same elements and is not read by
`getByIndex`/`iterRangei`, so the embedding models the element store. -/

/-- An element of the backing: a positioned rectangle with its maximum
padding, or a spacer of a given width (`backing.ts`
`RectOrSpacerWithPadding`). -/
inductive BElt where
  | rect (r : Rect) (maxPadding : ℚ) : BElt
  | spacer (w : ℚ) : BElt
deriving DecidableEq, Repr

/-- Replace the element at position `n` of a list by its image under
`f`, leaving all other positions alone. -/
def modifyIdx (f : α → α) : ℕ → List α → List α
  | _, [] => []
  | 0, x :: xs => f x :: xs
  | n + 1, x :: xs => x :: modifyIdx f n xs

/-- Translate one backing element if it is a rectangle; spacers are
left unchanged (`backing.ts` `translateRect`, minus the chunk-map
re-indexing, which does not touch `elements`). -/
def translateElt (v : Vec) : BElt → BElt
  | .rect r mp => .rect (r.translate v) mp
  | .spacer w => .spacer w

/-- Translate every rectangle whose index lies in the range, spacers
ignored (`backing.ts` `translateRange`).  The source asserts
`range.begin >= 0 && range.end <= elements.length`; failure is
modelled by `none`. -/
def translateRange (elements : List BElt) (range : Range) (v : Vec) :
    Option (List BElt) :=
  if range.end' ≤ elements.length then
    some ((List.range' range.begin' (range.end' - range.begin')).foldl
      (fun es i => modifyIdx (translateElt v) i es) elements)
  else
    none

/-! ### Lemmas about `modifyIdx` and `translateRange` -/

theorem modifyIdx_length (f : α → α) (n : ℕ) (l : List α) :
    (modifyIdx f n l).length = l.length := by
  induction l generalizing n with
  | nil => simp [modifyIdx]
  | cons x xs ih =>
      cases n with
      | zero => simp [modifyIdx]
      | succ m => simp [modifyIdx, ih]

theorem modifyIdx_getD (f : α → α) (n : ℕ) (l : List α) (k : ℕ) (d : α) :
    (modifyIdx f n l).getD k d =
      if k = n ∧ k < l.length then f (l.getD k d) else l.getD k d := by
  induction l generalizing n k with
  | nil => simp [modifyIdx]
  | cons x xs ih =>
      cases n with
      | zero =>
          cases k with
          | zero => simp [modifyIdx]
          | succ j => simp [modifyIdx]
      | succ m =>
          cases k with
          | zero => simp [modifyIdx]
          | succ j =>
              simp only [modifyIdx, List.getD_cons_succ, ih, List.length_cons]
              by_cases h : j = m ∧ j < xs.length
              · rw [if_pos h, if_pos (by omega)]
              · rw [if_neg h, if_neg (by omega)]

theorem translateRange_foldl_getD (v : Vec) (b : ℕ) (n : ℕ) (l : List BElt)
    (k : ℕ) (d : BElt) :
    ((List.range' b n).foldl (fun es i => modifyIdx (translateElt v) i es) l).getD k d
      = if b ≤ k ∧ k < b + n ∧ k < l.length then translateElt v (l.getD k d)
        else l.getD k d := by
  induction n generalizing b l with
  | zero =>
      rw [if_neg (show ¬(b ≤ k ∧ k < b + 0 ∧ k < l.length) by omega)]
      rfl
  | succ m ih =>
      rw [List.range'_succ, List.foldl_cons, ih, modifyIdx_length, modifyIdx_getD]
      by_cases hk : k = b ∧ k < l.length
      · rw [if_pos hk,
          if_neg (show ¬(b + 1 ≤ k ∧ k < b + 1 + m ∧ k < l.length) by omega),
          if_pos (show b ≤ k ∧ k < b + (m + 1) ∧ k < l.length by omega)]
      · rw [if_neg hk]
        by_cases h2 : b + 1 ≤ k ∧ k < b + 1 + m ∧ k < l.length
        · rw [if_pos h2, if_pos (by omega)]
        · rw [if_neg h2, if_neg (by omega)]

/-! ### C9: frame conditions of `Backing.translateRange` -/

/-- C9: for every backing element list, every valid range `[i, j)` and
every vector `v`, `translateRange` translates exactly the rectangles
whose index lies in `[i, j)` by `v`; it leaves every element outside
the range unchanged, leaves every spacer unchanged (inside or outside
the range), and preserves the element count (hence the index of every
element). -/
theorem C9_translateRange_frame (elements : List BElt) (i j : ℕ) (v : Vec)
    (hvalid : j ≤ elements.length) :
    ∃ out, translateRange elements ⟨i, j⟩ v = some out ∧
      out.length = elements.length ∧
      (∀ k r mp, i ≤ k → k < j → elements.getD k (.spacer 0) = .rect r mp →
        out.getD k (.spacer 0) = .rect (r.translate v) mp) ∧
      (∀ k, k < i ∨ j ≤ k →
        out.getD k (.spacer 0) = elements.getD k (.spacer 0)) ∧
      (∀ k w, elements.getD k (.spacer 0) = .spacer w →
        out.getD k (.spacer 0) = .spacer w) := by
  refine ⟨_, by rw [translateRange, if_pos hvalid], ?_, ?_, ?_, ?_⟩
  · -- length preserved
    have : ∀ (is : List ℕ) (l : List BElt),
        (is.foldl (fun es i => modifyIdx (translateElt v) i es) l).length
          = l.length := by
      intro is
      induction is with
      | nil => intro l; rfl
      | cons a as ih => intro l; rw [List.foldl_cons, ih, modifyIdx_length]
    exact this _ _
  · intro k r mp hik hkj helt
    rw [translateRange_foldl_getD]
    have hk : i ≤ k ∧ k < i + (j - i) ∧ k < elements.length := by
      refine ⟨hik, by omega, by omega⟩
    rw [if_pos hk, helt]
    rfl
  · intro k hk
    rw [translateRange_foldl_getD]
    have : ¬(i ≤ k ∧ k < i + (j - i) ∧ k < elements.length) := by omega
    rw [if_neg this]
  · intro k w helt
    rw [translateRange_foldl_getD]
    by_cases h : i ≤ k ∧ k < i + (j - i) ∧ k < elements.length
    · rw [if_pos h, helt]; rfl
    · rw [if_neg h]; exact helt

/-- Witness for C9 at a concrete backing. -/
theorem C9_translateRange_frame_witness :
    (2 : ℕ) ≤ ([BElt.rect ⟨0, 1, 0, 1⟩ 0, BElt.spacer 5,
                 BElt.rect ⟨2, 3, 2, 3⟩ 1] : List BElt).length ∧
    ∃ out, translateRange [BElt.rect ⟨0, 1, 0, 1⟩ 0, BElt.spacer 5,
                 BElt.rect ⟨2, 3, 2, 3⟩ 1] ⟨0, 2⟩ ⟨1, 1⟩ = some out ∧
      out.length = 3 ∧
      (∀ k r mp, 0 ≤ k → k < 2 →
        ([BElt.rect ⟨0, 1, 0, 1⟩ 0, BElt.spacer 5,
          BElt.rect ⟨2, 3, 2, 3⟩ 1] : List BElt).getD k (.spacer 0) = .rect r mp →
        out.getD k (.spacer 0) = .rect (r.translate ⟨1, 1⟩) mp) := by
  refine ⟨by decide, ?_⟩
  obtain ⟨out, h1, h2, h3, _, _⟩ :=
    C9_translateRange_frame
      [BElt.rect ⟨0, 1, 0, 1⟩ 0, BElt.spacer 5, BElt.rect ⟨2, 3, 2, 3⟩ 1]
      0 2 ⟨1, 1⟩ (by decide)
  exact ⟨out, h1, h2, fun k r mp h0 hk helt => h3 k r mp h0 hk helt⟩

/-! ### C6: `joinRegions` requires adjacency -/

/-- C6: for every pair of non-empty regions, `joinRegions` fails (an
assertion failure in the source) exactly when `lhs.range.end ≠
rhs.range.begin`; when the ranges are adjacent it returns the region
covering `[lhs.range.begin, rhs.range.end)` whose depth is the minimum
of the two input depths. -/
theorem C6_joinRegions_adjacency (lr rr : Range) (ld rd : ℕ) :
    (joinRegions (.mk lr ld) (.mk rr rd) = none ↔ lr.end' ≠ rr.begin') ∧
    (lr.end' = rr.begin' →
      joinRegions (.mk lr ld) (.mk rr rd)
        = some (.mk ⟨lr.begin', rr.end'⟩ (min ld rd))) := by
  constructor
  · constructor
    · intro h hadj
      rw [joinRegions, if_pos hadj] at h
      exact Option.noConfusion h
    · intro hne
      rw [joinRegions, if_neg hne]
  · intro hadj
    rw [joinRegions, if_pos hadj]

/-- Witness for C6 at concrete regions. -/
theorem C6_joinRegions_adjacency_witness :
    (joinRegions (.mk ⟨0, 3⟩ 2) (.mk ⟨3, 5⟩ 1) = none ↔ (3 : ℕ) ≠ 3) ∧
    ((3 : ℕ) = 3 →
      joinRegions (.mk ⟨0, 3⟩ 2) (.mk ⟨3, 5⟩ 1) = some (.mk ⟨0, 5⟩ (min 2 1))) :=
  C6_joinRegions_adjacency ⟨0, 3⟩ ⟨3, 5⟩ 2 1

/-! ### Layout trees and reassociation (layout-tree.ts, reassoc/reassoc-layout-tree.ts)

The style attached to a `Node` (`sty`, a partial SVG style) is never
inspected by the layout core, only copied; it is modelled by an opaque
carrier structure. -/

/-- Opaque carrier for a node style (`SVGStyle` in the source). -/
structure Sty where
  fill : Option String
deriving DecidableEq, Repr

/-- The measured input layout tree (`layout-tree.ts` `LayoutTree` with
`WithMeasurements` annotations). -/
inductive ALayoutTree where
  | atom (text : String) (rect : Rect)
  | spacer (text : String) (width : ℚ)
  | newline
  | node (padding : ℚ) (sty : Option Sty) (children : List ALayoutTree)
deriving Repr

/-- The reassociated layout tree (`reassoc/layout-tree.ts`): a binary
tree with explicit joins and wraps, and no `Newline` constructor. -/
inductive RTree where
  | atom (text : String) (rect : Rect)
  | spacer (text : String) (width : ℚ)
  | joinH (lhs rhs : RTree)
  | joinV (lhs rhs : RTree)
  | wrap (child : RTree) (padding : ℚ) (sty : Option Sty)
deriving DecidableEq, Repr

/-- Operators in the reassociation token stream
(`reassoc-layout-tree.ts` `Op`). -/
inductive Op where
  | endOp
  | newlineOp
  | nextTo
deriving DecidableEq, Repr

/-- Operator precedence (`reassoc-layout-tree.ts` `opPrecedence`). -/
def opPrecedence : Op → ℕ
  | .endOp => 0
  | .newlineOp => 1
  | .nextTo => 2

/-- Tokens of the reassociation stream: expressions or operators
(`reassoc-layout-tree.ts` `Token`). -/
inductive Token where
  | e (layoutTree : RTree)
  | op (o : Op)
deriving DecidableEq, Repr

/-- Test whether a token is an operator. -/
def isOpTok : Token → Bool
  | .op _ => true
  | .e _ => false

/-- The precedence-climbing parser (`reassoc-layout-tree.ts` `parse`,
inner function `go`).  The source pops tokens from the end of the
reversed stream; here the stream is consumed from the front in
original order, which is the same thing.  The source's recursion
terminates because every call shrinks the stream; this is expressed
with an explicit fuel argument, and `parse` below supplies enough
fuel.  The `assert` failures of the source (malformed streams) become
`none`. -/
def parseGo : ℕ → Op → RTree → List Token → Option (RTree × List Token)
  | _, _, e1, [] => some (e1, [])
  | 0, _, _, _ => none
  | fuel + 1, op1, e1, rest =>
    match rest with
    | Token.op op2 :: Token.e e2 :: rest' =>
        if opPrecedence op2 ≤ opPrecedence op1 then
          -- Put e2 and op2 back on the stream and end the left operand.
          some (e1, Token.op op2 :: Token.e e2 :: rest')
        else
          match parseGo fuel op2 e2 rest' with
          | none => none
          | some (rhs, rest'') =>
            match op2 with
            | .nextTo => parseGo fuel op1 (.joinH e1 rhs) rest''
            | .newlineOp => parseGo fuel op1 (.joinV e1 rhs) rest''
            | .endOp => none
    | _ => none

/-- Parse a full token stream (`reassoc-layout-tree.ts` `parse`): the
first token must be an expression, and the parse must consume the
entire input. -/
def parse (tokens : List Token) : Option RTree :=
  match tokens with
  | Token.e e0 :: rest =>
      match parseGo (rest.length + 1) Op.endOp e0 rest with
      | some (res, []) => some res
      | _ => none
  | _ => none

/-- Append an expression token holding the empty sentinel
(`reassocLayoutTree`, inner `putEmpty`). -/
def putEmpty (empty : RTree) (tokens : List Token) : List Token :=
  tokens ++ [.e empty]

/-- Test whether the last token on the stream is an operator. -/
def lastIsOp (tokens : List Token) : Bool :=
  match tokens.getLast? with
  | some t => isOpTok t
  | none => false

/-- Put a Newline operator on the stream, inserting an empty sentinel
first when the stream is empty or already ends with an operator
(`reassocLayoutTree`, inner `putNewline`). -/
def putNewline (empty : RTree) (tokens : List Token) : List Token :=
  if tokens = [] then
    putEmpty empty tokens ++ [.op .newlineOp]
  else if lastIsOp tokens then
    putEmpty empty tokens ++ [.op .newlineOp]
  else
    tokens ++ [.op .newlineOp]

/-- Put an expression on the stream, preceded by a NextTo operator
unless the stream is empty or ends with an operator
(`reassocLayoutTree`, inner `putLayoutTree`). -/
def putLayoutTree (t : RTree) (tokens : List Token) : List Token :=
  if tokens = [] then
    tokens ++ [.e t]
  else if lastIsOp tokens then
    tokens ++ [.e t]
  else
    tokens ++ [.op .nextTo, .e t]

/-- Append a trailing empty sentinel when the stream ends with an
operator (the final check of `reassocLayoutTree`'s Node case). -/
def finalTokens (empty : RTree) (toks : List Token) : List Token :=
  if lastIsOp toks then putEmpty empty toks else toks

/-- Parse a nonempty stream; an empty stream yields the empty sentinel
(`reassocLayoutTree`: `tokens.length > 0 ? parse(tokens) : {...empty}`). -/
def parseOrEmpty (empty : RTree) (toks : List Token) : Option RTree :=
  if toks = [] then some empty else parse toks

mutual

/-- Convert an input layout tree into a reassociated tree
(`reassoc-layout-tree.ts` `reassocLayoutTree`).  A top-level `Newline`
is an assertion failure in the source (`none` here); the source
comment notes that case cannot arise from a recursive call. -/
def reassocLayoutTree (empty : RTree) : ALayoutTree → Option RTree
  | .atom t r => some (.atom t r)
  | .spacer t w => some (.spacer t w)
  | .newline => none
  | .node padding sty children =>
      match buildTokens empty children [] with
      | none => none
      | some toks =>
        match parseOrEmpty empty (finalTokens empty toks) with
        | none => none
        | some child => some (.wrap child padding sty)

/-- The child loop of `reassocLayoutTree`: emit tokens for each child
in order, accumulating the stream. -/
def buildTokens (empty : RTree) : List ALayoutTree → List Token → Option (List Token)
  | [], acc => some acc
  | c :: cs, acc =>
    match c with
    | .newline => buildTokens empty cs (putNewline empty acc)
    | .atom t r => buildTokens empty cs (putLayoutTree (.atom t r) acc)
    | .spacer t w => buildTokens empty cs (putLayoutTree (.spacer t w) acc)
    | .node p sty children =>
      match reassocLayoutTree empty (.node p sty children) with
      | none => none
      | some t => buildTokens empty cs (putLayoutTree t acc)

end

/-! ### Flattening observables of trees -/

/-- The `(padding, sty)` pairs of the `Wrap` nodes of a reassociated
tree, in pre-order. -/
def wrapsOf : RTree → List (ℚ × Option Sty)
  | .atom _ _ => []
  | .spacer _ _ => []
  | .joinH l r => wrapsOf l ++ wrapsOf r
  | .joinV l r => wrapsOf l ++ wrapsOf r
  | .wrap c p s => (p, s) :: wrapsOf c

/-- The texts of the `Atom` leaves of a reassociated tree, left to
right. -/
def atomTextsR : RTree → List String
  | .atom t _ => [t]
  | .spacer _ _ => []
  | .joinH l r => atomTextsR l ++ atomTextsR r
  | .joinV l r => atomTextsR l ++ atomTextsR r
  | .wrap c _ _ => atomTextsR c

mutual

/-- The `(padding, sty)` pairs of the `Node`s of an input layout tree,
in pre-order. -/
def nodesOf : ALayoutTree → List (ℚ × Option Sty)
  | .atom _ _ => []
  | .spacer _ _ => []
  | .newline => []
  | .node p s children => (p, s) :: nodesOfList children

/-- `nodesOf` over a list of children, left to right. -/
def nodesOfList : List ALayoutTree → List (ℚ × Option Sty)
  | [] => []
  | c :: cs => nodesOf c ++ nodesOfList cs

end

mutual

/-- The texts of the `Atom` leaves of an input layout tree, in the
order of a left-to-right depth-first walk. -/
def atomTexts : ALayoutTree → List String
  | .atom t _ => [t]
  | .spacer _ _ => []
  | .newline => []
  | .node _ _ children => atomTextsList children

/-- `atomTexts` over a list of children, left to right. -/
def atomTextsList : List ALayoutTree → List String
  | [] => []
  | c :: cs => atomTexts c ++ atomTextsList cs

end

/-! ### Well-formed token streams and the parser specification -/

/-- Streams of shape `(Op E)*` in which no operator is the `End`
sentinel (the child loop never emits `End`). -/
inductive OpEChain : List Token → Prop
  | nil : OpEChain []
  | cons (o : Op) (t : RTree) (rest : List Token) (ho : o ≠ Op.endOp)
      (h : OpEChain rest) : OpEChain (.op o :: .e t :: rest)

/-- A well-formed complete stream: one expression followed by `(Op E)*`. -/
def EStream (l : List Token) : Prop :=
  ∃ t rest, l = Token.e t :: rest ∧ OpEChain rest

/-- Invariant of the token accumulator during the child loop: the
stream is empty, or complete, or complete followed by one trailing
Newline operator. -/
def AccOk (l : List Token) : Prop :=
  l = [] ∨ EStream l ∨ ∃ l', EStream l' ∧ l = l' ++ [Token.op Op.newlineOp]

/-- Concatenate the images under `f` of the expression tokens of a
stream, in order; operator tokens contribute nothing. -/
def tokFlats (f : RTree → List α) (l : List Token) : List α :=
  (l.map fun tk => match tk with | .e t => f t | .op _ => []).flatten

theorem tokFlats_nil (f : RTree → List α) : tokFlats f [] = [] := rfl

theorem tokFlats_append (f : RTree → List α) (a b : List Token) :
    tokFlats f (a ++ b) = tokFlats f a ++ tokFlats f b := by
  simp [tokFlats]

theorem tokFlats_e (f : RTree → List α) (t : RTree) :
    tokFlats f [Token.e t] = f t := by
  simp [tokFlats]

theorem tokFlats_op (f : RTree → List α) (o : Op) :
    tokFlats f [Token.op o] = [] := by
  simp [tokFlats]

theorem lastIsOp_concat (l : List Token) (x : Token) :
    lastIsOp (l ++ [x]) = isOpTok x := by
  simp [lastIsOp, List.getLast?_concat]

theorem lastIsOp_cons_cons (x y : Token) (l : List Token) :
    lastIsOp (x :: y :: l) = lastIsOp (y :: l) := by
  simp [lastIsOp, List.getLast?_cons_cons]

theorem opEChain_append_pair (r : List Token) (h : OpEChain r) (o : Op)
    (ho : o ≠ Op.endOp) (t : RTree) :
    OpEChain (r ++ [Token.op o, Token.e t]) := by
  induction h with
  | nil => exact .cons o t [] ho .nil
  | cons o' t' rest ho' _ ih => exact .cons o' t' _ ho' ih

theorem eStream_lastIsOp (l : List Token) (h : EStream l) :
    lastIsOp l = false := by
  obtain ⟨t, rest, rfl, hr⟩ := h
  induction hr generalizing t with
  | nil => rfl
  | cons o t' rest' ho _ ih =>
      rw [lastIsOp_cons_cons, lastIsOp_cons_cons]
      exact ih t'

theorem eStream_ne_nil (l : List Token) (h : EStream l) : l ≠ [] := by
  obtain ⟨t, rest, rfl, _⟩ := h
  simp

/-- The specification of the precedence climber: on a well-formed
continuation stream it succeeds, consumes a prefix, leaves a
well-formed remainder that (if nonempty) starts with an operator of
precedence at most `op1`, and its output flattens (under any function
that is concatenative over the two joins) to the flattening of the
consumed tokens. -/
theorem parseGo_spec (f : RTree → List α)
    (hH : ∀ l r, f (.joinH l r) = f l ++ f r)
    (hV : ∀ l r, f (.joinV l r) = f l ++ f r) :
    ∀ fuel (rest : List Token), rest.length < fuel → OpEChain rest →
      ∀ op1 e1,
      ∃ t rem pre, parseGo fuel op1 e1 rest = some (t, rem) ∧
        rest = pre ++ rem ∧ OpEChain rem ∧
        f t = f e1 ++ tokFlats f pre ∧
        (rem = [] ∨ ∃ o t2 r', rem = Token.op o :: Token.e t2 :: r' ∧
          opPrecedence o ≤ opPrecedence op1) := by
  intro fuel
  induction fuel with
  | zero => intro rest h; omega
  | succ fuel ih =>
      intro rest hlen hchain op1 e1
      cases hchain with
      | nil =>
          exact ⟨e1, [], [], rfl, rfl, .nil, by simp [tokFlats_nil], Or.inl rfl⟩
      | cons o t2 rest' ho hchain' =>
          by_cases hprec : opPrecedence o ≤ opPrecedence op1
          · refine ⟨e1, Token.op o :: Token.e t2 :: rest', [], ?_, rfl,
              .cons o t2 rest' ho hchain', by simp [tokFlats_nil], ?_⟩
            · simp [parseGo, hprec]
            · exact Or.inr ⟨o, t2, rest', rfl, hprec⟩
          · have hlen' : rest'.length < fuel := by
              simp only [List.length_cons] at hlen; omega
            obtain ⟨rhs, rest'', pre', heq1, hsplit1, hchain'', hflat1, _⟩ :=
              ih rest' hlen' hchain' o t2
            have hlen'' : rest''.length < fuel := by
              have := congrArg List.length hsplit1
              simp only [List.length_append] at this
              omega
            -- combine with the operator, then continue on the left
            cases o with
            | endOp => exact absurd rfl ho
            | newlineOp =>
                obtain ⟨tfin, remfin, pre'', heq2, hsplit2, hchainfin, hflat2, hlast⟩ :=
                  ih rest'' hlen'' hchain'' op1 (.joinV e1 rhs)
                refine ⟨tfin, remfin, Token.op .newlineOp :: Token.e t2 :: (pre' ++ pre''),
                  ?_, ?_, hchainfin, ?_, hlast⟩
                · simp only [parseGo, heq1]
                  rw [if_neg hprec]
                  exact heq2
                · simp [hsplit1, hsplit2]
                · rw [hflat2, hV, hflat1]
                  have : (Token.op Op.newlineOp :: Token.e t2 :: (pre' ++ pre''))
                      = [Token.op Op.newlineOp] ++ [Token.e t2] ++ pre' ++ pre'' := by simp
                  rw [this, tokFlats_append, tokFlats_append, tokFlats_append,
                    tokFlats_op, tokFlats_e]
                  simp
            | nextTo =>
                obtain ⟨tfin, remfin, pre'', heq2, hsplit2, hchainfin, hflat2, hlast⟩ :=
                  ih rest'' hlen'' hchain'' op1 (.joinH e1 rhs)
                refine ⟨tfin, remfin, Token.op .nextTo :: Token.e t2 :: (pre' ++ pre''),
                  ?_, ?_, hchainfin, ?_, hlast⟩
                · simp only [parseGo, heq1]
                  rw [if_neg hprec]
                  exact heq2
                · simp [hsplit1, hsplit2]
                · rw [hflat2, hH, hflat1]
                  have : (Token.op Op.nextTo :: Token.e t2 :: (pre' ++ pre''))
                      = [Token.op Op.nextTo] ++ [Token.e t2] ++ pre' ++ pre'' := by simp
                  rw [this, tokFlats_append, tokFlats_append, tokFlats_append,
                    tokFlats_op, tokFlats_e]
                  simp

/-- The full parse of a well-formed stream succeeds and flattens to
the stream's expression tokens. -/
theorem parse_spec (f : RTree → List α)
    (hH : ∀ l r, f (.joinH l r) = f l ++ f r)
    (hV : ∀ l r, f (.joinV l r) = f l ++ f r)
    (tokens : List Token) (h : EStream tokens) :
    ∃ t, parse tokens = some t ∧ f t = tokFlats f tokens := by
  obtain ⟨t0, rest, rfl, hchain⟩ := h
  obtain ⟨t, rem, pre, heq, hsplit, hchain', hflat, hlast⟩ :=
    parseGo_spec f hH hV (rest.length + 1) rest (by omega) hchain Op.endOp t0
  have hrem : rem = [] := by
    rcases hlast with h | ⟨o, t2, r', rfl, hle⟩
    · exact h
    · cases hchain' with
      | cons o' t' rest' ho' _ =>
          cases o
          · exact absurd rfl ho'
          · simp [opPrecedence] at hle
          · simp [opPrecedence] at hle
  subst hrem
  refine ⟨t, ?_, ?_⟩
  · simp only [parse, heq]
  · rw [hflat]
    have : Token.e t0 :: rest = [Token.e t0] ++ pre := by
      simp [hsplit]
    rw [this, tokFlats_append, tokFlats_e]

/-! ### Invariants of the child-loop token accumulator -/

theorem accOk_nil : AccOk [] := Or.inl rfl

theorem accOk_of_eStream {l : List Token} (h : EStream l) : AccOk l :=
  Or.inr (Or.inl h)

theorem eStream_append_pair (l : List Token) (h : EStream l) (o : Op)
    (ho : o ≠ Op.endOp) (t : RTree) :
    EStream (l ++ [Token.op o, Token.e t]) := by
  obtain ⟨t0, r0, rfl, hch⟩ := h
  exact ⟨t0, r0 ++ [Token.op o, Token.e t], by simp,
    opEChain_append_pair r0 hch o ho t⟩

theorem accOk_putNewline (empty : RTree) (acc : List Token) (h : AccOk acc) :
    AccOk (putNewline empty acc) := by
  rcases h with rfl | hE | ⟨l', hE, rfl⟩
  · right; right
    exact ⟨[Token.e empty], ⟨empty, [], rfl, .nil⟩, by simp [putNewline, putEmpty]⟩
  · right; right
    refine ⟨acc, hE, ?_⟩
    simp [putNewline, eStream_ne_nil acc hE, eStream_lastIsOp acc hE]
  · right; right
    refine ⟨l' ++ [Token.op .newlineOp, Token.e empty],
      eStream_append_pair l' hE .newlineOp (by decide) empty, ?_⟩
    have hne : l' ++ [Token.op Op.newlineOp] ≠ [] := by simp
    have hlast : lastIsOp (l' ++ [Token.op Op.newlineOp]) = true := by
      rw [lastIsOp_concat]; rfl
    simp [putNewline, putEmpty, hne, hlast]

theorem eStream_putLayoutTree (t : RTree) (acc : List Token) (h : AccOk acc) :
    EStream (putLayoutTree t acc) := by
  rcases h with rfl | hE | ⟨l', hE, rfl⟩
  · exact ⟨t, [], rfl, .nil⟩
  · have := eStream_append_pair acc hE .nextTo (by decide) t
    simpa [putLayoutTree, eStream_ne_nil acc hE, eStream_lastIsOp acc hE]
      using this
  · have hne : l' ++ [Token.op Op.newlineOp] ≠ [] := by simp
    have hlast : lastIsOp (l' ++ [Token.op Op.newlineOp]) = true := by
      rw [lastIsOp_concat]; rfl
    have := eStream_append_pair l' hE .newlineOp (by decide) t
    simpa [putLayoutTree, hne, hlast] using this

theorem finalTokens_ok (empty : RTree) (toks : List Token) (h : AccOk toks) :
    finalTokens empty toks = [] ∨ EStream (finalTokens empty toks) := by
  rcases h with rfl | hE | ⟨l', hE, rfl⟩
  · left; rfl
  · right
    simpa [finalTokens, eStream_lastIsOp toks hE] using hE
  · right
    have hlast : lastIsOp (l' ++ [Token.op Op.newlineOp]) = true := by
      rw [lastIsOp_concat]; rfl
    have := eStream_append_pair l' hE .newlineOp (by decide) empty
    simpa [finalTokens, putEmpty, hlast] using this

theorem tokFlats_cons (f : RTree → List α) (x : Token) (l : List Token) :
    tokFlats f (x :: l)
      = (match x with | .e t => f t | .op _ => []) ++ tokFlats f l := by
  simp [tokFlats]

theorem tokFlats_putNewline (f : RTree → List α) (empty : RTree)
    (hfE : f empty = []) (acc : List Token) :
    tokFlats f (putNewline empty acc) = tokFlats f acc := by
  rw [putNewline]
  split_ifs <;>
    simp [putEmpty, tokFlats_append, tokFlats_cons, tokFlats_nil, hfE]

theorem tokFlats_putLayoutTree (f : RTree → List α) (t : RTree)
    (acc : List Token) :
    tokFlats f (putLayoutTree t acc) = tokFlats f acc ++ f t := by
  rw [putLayoutTree]
  split_ifs <;>
    simp [tokFlats_append, tokFlats_cons, tokFlats_nil]

theorem tokFlats_finalTokens (f : RTree → List α) (empty : RTree)
    (hfE : f empty = []) (toks : List Token) :
    tokFlats f (finalTokens empty toks) = tokFlats f toks := by
  rw [finalTokens]
  split_ifs <;> simp [putEmpty, tokFlats_append, tokFlats_e, hfE]

theorem finalTokens_eq_nil (empty : RTree) (toks : List Token)
    (h : finalTokens empty toks = []) : toks = [] := by
  by_cases hop : lastIsOp toks
  · rw [finalTokens, if_pos hop] at h
    simp [putEmpty] at h
  · rwa [finalTokens, if_neg hop] at h

/-! ### The main reassociation lemma -/

theorem wrapsOf_joinH (l r : RTree) :
    wrapsOf (.joinH l r) = wrapsOf l ++ wrapsOf r := rfl

theorem wrapsOf_joinV (l r : RTree) :
    wrapsOf (.joinV l r) = wrapsOf l ++ wrapsOf r := rfl

theorem atomTextsR_joinH (l r : RTree) :
    atomTextsR (.joinH l r) = atomTextsR l ++ atomTextsR r := rfl

theorem atomTextsR_joinV (l r : RTree) :
    atomTextsR (.joinV l r) = atomTextsR l ++ atomTextsR r := rfl

/-- Joint specification of `reassocLayoutTree` and its child loop,
proved by strong induction on the size of the input: the conversion
succeeds (away from a top-level Newline), the pre-order Wrap list of
the output is the pre-order Node list of the input (when the sentinel
carries no wraps), and the atom texts of the output are those of the
input (when the sentinel carries no atoms). -/
theorem reassoc_main (empty : RTree) :
    ∀ n : ℕ,
      (∀ lt : ALayoutTree, sizeOf lt ≤ n → lt ≠ .newline →
        ∃ t, reassocLayoutTree empty lt = some t ∧
          (wrapsOf empty = [] → wrapsOf t = nodesOf lt) ∧
          (atomTextsR empty = [] → atomTextsR t = atomTexts lt)) ∧
      (∀ cs : List ALayoutTree, sizeOf cs ≤ n → ∀ acc, AccOk acc →
        ∃ toks, buildTokens empty cs acc = some toks ∧ AccOk toks ∧
          (wrapsOf empty = [] →
            tokFlats wrapsOf toks = tokFlats wrapsOf acc ++ nodesOfList cs) ∧
          (atomTextsR empty = [] →
            tokFlats atomTextsR toks = tokFlats atomTextsR acc ++ atomTextsList cs)) := by
  intro n
  induction n with
  | zero =>
      constructor
      · intro lt h
        exfalso
        cases lt <;> simp_arith at h
      · intro cs h
        exfalso
        cases cs <;> simp_arith at h
  | succ n ih =>
      obtain ⟨ihT, ihL⟩ := ih
      constructor
      · intro lt hsize hne
        match lt with
        | .atom t r =>
            exact ⟨.atom t r, rfl, fun _ => by simp [wrapsOf, nodesOf],
              fun _ => by simp [atomTextsR, atomTexts]⟩
        | .spacer t w =>
            exact ⟨.spacer t w, rfl, fun _ => by simp [wrapsOf, nodesOf],
              fun _ => by simp [atomTextsR, atomTexts]⟩
        | .newline => exact absurd rfl hne
        | .node p s children =>
            have hcs : sizeOf children ≤ n := by
              simp only [ALayoutTree.node.sizeOf_spec] at hsize
              omega
            obtain ⟨toks, hbt, hacc, hWf, hAf⟩ := ihL children hcs [] accOk_nil
            rcases finalTokens_ok empty toks hacc with hnil | hE
            · -- the stream is empty: the child is the sentinel itself
              have htoksnil : toks = [] := finalTokens_eq_nil empty toks hnil
              subst htoksnil
              refine ⟨.wrap empty p s, ?_, ?_, ?_⟩
              · have hpe : parseOrEmpty empty (finalTokens empty []) = some empty := by
                  rw [parseOrEmpty, if_pos hnil]
                simp only [reassocLayoutTree, hbt, hpe]
              · intro hW
                have h1 := hWf hW
                simp only [tokFlats_nil, List.nil_append] at h1
                simp [wrapsOf, nodesOf, hW, ← h1]
              · intro hA
                have h1 := hAf hA
                simp only [tokFlats_nil, List.nil_append] at h1
                simp [atomTextsR, atomTexts, hA, ← h1]
            · -- the stream parses
              obtain ⟨child, hparse, hflatW⟩ :=
                parse_spec wrapsOf wrapsOf_joinH wrapsOf_joinV _ hE
              obtain ⟨child', hparse', hflatA⟩ :=
                parse_spec atomTextsR atomTextsR_joinH atomTextsR_joinV _ hE
              have hcc : child' = child := by
                rw [hparse] at hparse'
                exact (Option.some_inj.mp hparse').symm
              rw [hcc] at hflatA
              refine ⟨.wrap child p s, ?_, ?_, ?_⟩
              · have hpe : parseOrEmpty empty (finalTokens empty toks)
                    = some child := by
                  rw [parseOrEmpty, if_neg (eStream_ne_nil _ hE)]
                  exact hparse
                simp only [reassocLayoutTree, hbt, hpe]
              · intro hW
                have h1 := hWf hW
                simp only [tokFlats_nil, List.nil_append] at h1
                simp only [wrapsOf, nodesOf]
                rw [hflatW, tokFlats_finalTokens wrapsOf empty hW, h1]
              · intro hA
                have h1 := hAf hA
                simp only [tokFlats_nil, List.nil_append] at h1
                simp only [atomTextsR, atomTexts]
                rw [hflatA, tokFlats_finalTokens atomTextsR empty hA, h1]
      · intro cs hsize acc hacc
        match cs with
        | [] =>
            exact ⟨acc, rfl, hacc, fun _ => by simp [nodesOfList, tokFlats_nil],
              fun _ => by simp [atomTextsList, tokFlats_nil]⟩
        | c :: cs' =>
            have hcs' : sizeOf cs' ≤ n := by
              simp only [List.cons.sizeOf_spec] at hsize
              omega
            match c with
            | .newline =>
                obtain ⟨toks, hbt, hao, hW, hA⟩ :=
                  ihL cs' hcs' (putNewline empty acc)
                    (accOk_putNewline empty acc hacc)
                refine ⟨toks, ?_, hao, ?_, ?_⟩
                · simpa [buildTokens] using hbt
                · intro h
                  rw [hW h, tokFlats_putNewline wrapsOf empty h]
                  simp [nodesOfList, nodesOf]
                · intro h
                  rw [hA h, tokFlats_putNewline atomTextsR empty h]
                  simp [atomTextsList, atomTexts]
            | .atom t r =>
                obtain ⟨toks, hbt, hao, hW, hA⟩ :=
                  ihL cs' hcs' (putLayoutTree (.atom t r) acc)
                    (accOk_of_eStream (eStream_putLayoutTree _ acc hacc))
                refine ⟨toks, ?_, hao, ?_, ?_⟩
                · simpa [buildTokens] using hbt
                · intro h
                  rw [hW h, tokFlats_putLayoutTree]
                  simp [nodesOfList, nodesOf, wrapsOf]
                · intro h
                  rw [hA h, tokFlats_putLayoutTree]
                  simp [atomTextsList, atomTexts, atomTextsR]
            | .spacer t w =>
                obtain ⟨toks, hbt, hao, hW, hA⟩ :=
                  ihL cs' hcs' (putLayoutTree (.spacer t w) acc)
                    (accOk_of_eStream (eStream_putLayoutTree _ acc hacc))
                refine ⟨toks, ?_, hao, ?_, ?_⟩
                · simpa [buildTokens] using hbt
                · intro h
                  rw [hW h, tokFlats_putLayoutTree]
                  simp [nodesOfList, nodesOf, wrapsOf]
                · intro h
                  rw [hA h, tokFlats_putLayoutTree]
                  simp [atomTextsList, atomTexts, atomTextsR]
            | .node p s children =>
                have hc : sizeOf (ALayoutTree.node p s children) ≤ n := by
                  simp only [List.cons.sizeOf_spec] at hsize
                  omega
                obtain ⟨t, hre, htW, htA⟩ :=
                  ihT (.node p s children) hc (by simp)
                obtain ⟨toks, hbt, hao, hW, hA⟩ :=
                  ihL cs' hcs' (putLayoutTree t acc)
                    (accOk_of_eStream (eStream_putLayoutTree _ acc hacc))
                refine ⟨toks, ?_, hao, ?_, ?_⟩
                · simpa [buildTokens, hre] using hbt
                · intro h
                  rw [hW h, tokFlats_putLayoutTree, htW h]
                  simp [nodesOfList]
                · intro h
                  rw [hA h, tokFlats_putLayoutTree, htA h]
                  simp [atomTextsList]

/-! ### C5: properties of reassociation -/

theorem chain'_noTwoOps_of_opEChain (rest : List Token) (h : OpEChain rest) :
    ∀ t, List.Chain' (fun a b => isOpTok a = false ∨ isOpTok b = false)
      (Token.e t :: rest) := by
  induction h with
  | nil => intro t; simp
  | cons o t' rest' ho _ ih =>
      intro t
      exact List.Chain'.cons (Or.inl rfl) (List.Chain'.cons (Or.inr rfl) (ih t'))

/-- C5: for every input layout tree (excluding the top-level bare
Newline, which the source itself treats as an unreachable assertion
failure) and every wrap-free empty sentinel, `reassocLayoutTree`
succeeds and produces a tree of type `RTree` — which has no Newline
constructor — whose pre-order list of `(padding, sty)` Wrap attributes
is exactly the pre-order list of `(padding, sty)` Node attributes of
the input: each original Node becomes exactly one Wrap with padding
and style preserved.  Moreover, for every children list, the emitted
token stream (after the trailing-operator fix) never has two adjacent
operator tokens: an empty sentinel is inserted between consecutive
Newlines and after a trailing operator. -/
theorem C5_reassoc_wraps_and_alternation (empty : RTree)
    (hW : wrapsOf empty = []) :
    (∀ lt : ALayoutTree, lt ≠ .newline →
      ∃ t, reassocLayoutTree empty lt = some t ∧ wrapsOf t = nodesOf lt) ∧
    (∀ (cs : List ALayoutTree) (toks : List Token),
      buildTokens empty cs [] = some toks →
      List.Chain' (fun a b => isOpTok a = false ∨ isOpTok b = false)
        (finalTokens empty toks)) := by
  constructor
  · intro lt hne
    obtain ⟨t, h1, h2, _⟩ :=
      (reassoc_main empty (sizeOf lt)).1 lt (le_refl _) hne
    exact ⟨t, h1, h2 hW⟩
  · intro cs toks hbt
    obtain ⟨toks', hbt', hacc, _, _⟩ :=
      (reassoc_main empty (sizeOf cs)).2 cs (le_refl _) [] accOk_nil
    rw [hbt] at hbt'
    have : toks' = toks := (Option.some_inj.mp hbt'.symm)
    subst this
    rcases finalTokens_ok empty toks' hacc with hnil | hE
    · rw [hnil]
      exact List.chain'_nil
    · obtain ⟨t, rest, heq, hchain⟩ := hE
      rw [heq]
      exact chain'_noTwoOps_of_opEChain rest hchain t

/-- Witness for C5: a concrete sentinel and a concrete tree with
nested nodes and consecutive newlines. -/
theorem C5_reassoc_wraps_and_alternation_witness :
    wrapsOf (RTree.spacer "" 0) = [] ∧
    (ALayoutTree.node 3 none
        [.atom "a" ⟨0, 1, 0, 1⟩, .newline, .newline,
         .node 2 (some ⟨some "red"⟩) [.atom "b" ⟨0, 1, 0, 1⟩]]
      ≠ .newline) ∧
    ∃ t, reassocLayoutTree (RTree.spacer "" 0)
        (ALayoutTree.node 3 none
          [.atom "a" ⟨0, 1, 0, 1⟩, .newline, .newline,
           .node 2 (some ⟨some "red"⟩) [.atom "b" ⟨0, 1, 0, 1⟩]]) = some t ∧
      wrapsOf t = nodesOf (ALayoutTree.node 3 none
          [.atom "a" ⟨0, 1, 0, 1⟩, .newline, .newline,
           .node 2 (some ⟨some "red"⟩) [.atom "b" ⟨0, 1, 0, 1⟩]]) :=
  ⟨rfl, by simp,
    (C5_reassoc_wraps_and_alternation (RTree.spacer "" 0) rfl).1 _ (by simp)⟩

/-! ### The Timetable (rocks-layout/timetable.ts) -/

/-- A timetable cell: the uid of the wrap at this depth, and the
cumulative padding from depth 0 up to and including this depth
(`timetable.ts` `Cell`). -/
structure Cell where
  uid : ℕ
  padding : ℚ
deriving DecidableEq, Repr

/-- The cell implicitly at the base of every column (`timetable.ts`
`BASE_CELL`). -/
def BASE_CELL : Cell := ⟨0, 0⟩

/-- A column of cells; index `k` of the list is depth `k + 1`. -/
abbrev Column := List Cell

/-- The topmost element of a column, `BASE_CELL` when empty
(`timetable.ts` `topOfColumn`). -/
def topOfColumn (column : Column) : Cell := column.getLastD BASE_CELL

/-- Fill a column up to `depth` by repeating its topmost element
(`timetable.ts` `fillColumn`). -/
def fillColumn (column : Column) (depth : ℕ) : Column :=
  column ++ List.replicate (depth - column.length) (topOfColumn column)

/-- Push a new cell of the given uid whose cumulative padding adds
`padding` to the top (`timetable.ts` `wrapColumn`). -/
def wrapColumn (column : Column) (padding : ℚ) (uid : ℕ) : Column :=
  column ++ [⟨uid, padding + (topOfColumn column).padding⟩]

/-- The reassociated tree annotated with regions, stack refs and wrap
uids (`timetable.ts` `LayoutTree<WithRegions>`). -/
inductive RTreeR where
  | atom (text : String) (rect : Rect) (stackRef : StackRef)
  | spacer (text : String) (width : ℚ) (stackRef : StackRef)
  | joinH (lhs rhs : RTreeR) (region : Region)
  | joinV (lhs rhs : RTreeR) (region : Region)
  | wrap (child : RTreeR) (padding : ℚ) (sty : Option Sty) (uid : ℕ)
      (region : Region)
deriving Repr

/-- Apply `fillColumn · d` to the non-spacer columns whose index lies
in `[b, e)`; `i` is the index of the head of the list (the `for` loop
in `fromLayoutTree`'s JoinH/JoinV case, as a guarded map). -/
def fillRangeGo (b e d : ℕ) : ℕ → List (Option Column) → List (Option Column)
  | _, [] => []
  | i, c :: cs =>
      (if b ≤ i ∧ i < e then c.map (fun col => fillColumn col d) else c)
        :: fillRangeGo b e d (i + 1) cs

/-- Fill then wrap the non-spacer columns whose index lies in `[b, e)`
(the `for` loop in `fromLayoutTree`'s Wrap case). -/
def wrapRangeGo (b e : ℕ) (p : ℚ) (uid d : ℕ) :
    ℕ → List (Option Column) → List (Option Column)
  | _, [] => []
  | i, c :: cs =>
      (if b ≤ i ∧ i < e then
          c.map (fun col => wrapColumn (fillColumn col d) p uid)
        else c)
        :: wrapRangeGo b e p uid d (i + 1) cs

/-- The result of the recursive walk `go` inside
`Timetable.fromLayoutTree`: the subtree depth, the uid counter, the
column store and the annotated tree (the latter two are mutable
closure state in the source). -/
structure TTRes where
  depth : ℕ
  nextId : ℕ
  columns : List (Option Column)
  tree : RTreeR

/-- The recursive walk of `Timetable.fromLayoutTree` (`timetable.ts`,
inner function `go`): spacers get a `none` column, atoms an empty
column; joins equalise the heights of the columns beneath them; a wrap
draws a fresh uid before recursing, then fills and wraps every
non-spacer column in its range. -/
def ttGo : RTree → ℕ → List (Option Column) → TTRes
  | .spacer t w, n, cols =>
      ⟨0, n, cols ++ [none], .spacer t w ⟨cols.length, 0⟩⟩
  | .atom t r, n, cols =>
      ⟨0, n, cols ++ [some []], .atom t r ⟨cols.length, 0⟩⟩
  | .joinH l r, n, cols =>
      let b := cols.length
      let rl := ttGo l n cols
      let rr := ttGo r rl.nextId rl.columns
      let e := rr.columns.length
      let d := max rl.depth rr.depth
      ⟨d, rr.nextId, fillRangeGo b e d 0 rr.columns,
        .joinH rl.tree rr.tree (.mk ⟨b, e⟩ d)⟩
  | .joinV l r, n, cols =>
      let b := cols.length
      let rl := ttGo l n cols
      let rr := ttGo r rl.nextId rl.columns
      let e := rr.columns.length
      let d := max rl.depth rr.depth
      ⟨d, rr.nextId, fillRangeGo b e d 0 rr.columns,
        .joinV rl.tree rr.tree (.mk ⟨b, e⟩ d)⟩
  | .wrap c p s, n, cols =>
      let uid := n
      let b := cols.length
      let rc := ttGo c (n + 1) cols
      let e := rc.columns.length
      ⟨rc.depth + 1, rc.nextId, wrapRangeGo b e p uid rc.depth 0 rc.columns,
        .wrap rc.tree p s uid (.mk ⟨b, e⟩ (rc.depth + 1))⟩

/-- The timetable: one (possibly spacer) column per fragment, all of
height `maxDepth` (`timetable.ts` `Timetable`). -/
structure Timetable where
  columns : List (Option Column)
  maxDepth : ℕ
deriving Repr

/-- Build a `Timetable` and an annotated tree from a reassociated
tree (`timetable.ts` `Timetable.fromLayoutTree`): run the recursive
walk with the uid counter starting at 1, then fill every column up to
the global depth. -/
def Timetable.fromLayoutTree (t : RTree) : Timetable × RTreeR :=
  let r := ttGo t 1 []
  (⟨r.columns.map (Option.map (fun col => fillColumn col r.depth)), r.depth⟩,
    r.tree)

/-- The cell of a column at a given depth; depth 0 is `BASE_CELL`.
The source (`getCell`) asserts that the column exists, is not a
spacer, and that the depth is within its height; on the inputs
quantified over by the theorems below these assertions hold, and the
out-of-range default `BASE_CELL` is never observed. -/
def cellAt (col : Column) (d : ℕ) : Cell :=
  if d = 0 then BASE_CELL else col.getD (d - 1) BASE_CELL

/-- The uid at a depth of a column (`timetable.ts` `getUid`). -/
def uidAt (col : Column) (d : ℕ) : ℕ := (cellAt col d).uid

/-- The cumulative padding at a depth of a column (`timetable.ts`
`getPadding`). -/
def padAt (col : Column) (d : ℕ) : ℚ := (cellAt col d).padding

/-- Look up a column of the timetable (spacers are `none`). -/
def Timetable.col (tt : Timetable) (index : ℕ) : Option Column :=
  tt.columns.getD index none

/-- Test if an index points to a spacer (`timetable.ts` `isSpacer`). -/
def Timetable.isSpacer (tt : Timetable) (ref : StackRef) : Bool :=
  (tt.col ref.index).isNone

/-- The cell at a `StackRef` (`timetable.ts` `getCell`). -/
def Timetable.getCell (tt : Timetable) (ref : StackRef) : Cell :=
  cellAt ((tt.col ref.index).getD []) ref.depth

/-- The uid at a `StackRef` (`timetable.ts` `getUid`). -/
def Timetable.getUid (tt : Timetable) (ref : StackRef) : ℕ :=
  (tt.getCell ref).uid

/-- The cumulative padding at a `StackRef` (`timetable.ts`
`getPadding`). -/
def Timetable.getPadding (tt : Timetable) (ref : StackRef) : ℚ :=
  (tt.getCell ref).padding

/-- The maximum padding applicable to the element at an index
(`timetable.ts` `getMaxPadding`). -/
def Timetable.getMaxPadding (tt : Timetable) (index : ℕ) : ℚ :=
  tt.getPadding ⟨index, tt.maxDepth⟩

/-- One pass of the `while` loop of `spaceBetween`, iterated on fuel.
The loop state is the two stack depths and the two tracked uids
(`aUid`/`bUid` in the source); the three `if` branches below mirror
the source exactly, including the asymmetric second branch (which
compares `bUid` with `aNextUid`) and the fact that the third branch
reuses the `aNext`/`bNext`/`aNextUid`/`bNextUid` values computed at
the top of the iteration.  The source loop terminates because every
iteration that is not stuck decreases `a.depth + b.depth`, which is at
most `2 * maxDepth`; `spaceBetween` supplies that much fuel. -/
def sbLoop (tt : Timetable) (aIdx bIdx : ℕ) :
    ℕ → ℕ → ℕ → ℕ → ℕ → ℕ × ℕ
  | 0, aD, bD, _, _ => (aD, bD)
  | fuel + 1, aD, bD, aU, bU =>
      if 0 < aD ∧ 0 < bD then
        let aNU := tt.getUid ⟨aIdx, aD - 1⟩
        let bNU := tt.getUid ⟨bIdx, bD - 1⟩
        let s1 : ℕ × ℕ × Bool :=
          if aU = aNU then (aNU, aD - 1, false) else (aU, aD, true)
        let s2 : ℕ × ℕ × Bool :=
          if bU = aNU then (bNU, bD - 1, false) else (bU, bD, s1.2.2)
        let s3 : ℕ × ℕ × ℕ × ℕ × Bool :=
          if s1.1 = s2.1 then (aNU, aD - 1, bNU, bD - 1, false)
          else (s1.1, s1.2.1, s2.1, s2.2.1, s2.2.2)
        if s3.2.2.2.2 then (s3.2.1, s3.2.2.2.1)
        else sbLoop tt aIdx bIdx fuel s3.2.1 s3.2.2.2.1 s3.1 s3.2.2.1
      else (aD, bD)

/-- Find the required padding pair around two fragments
(`timetable.ts` `spaceBetween`): `(0, 0)` when either is a spacer,
otherwise the paddings at the cells where the descending loop stops. -/
def Timetable.spaceBetween (tt : Timetable) (aIdx bIdx : ℕ) : ℚ × ℚ :=
  if tt.isSpacer ⟨aIdx, tt.maxDepth⟩ || tt.isSpacer ⟨bIdx, tt.maxDepth⟩ then
    (0, 0)
  else
    let aU := tt.getUid ⟨aIdx, tt.maxDepth⟩
    let bU := tt.getUid ⟨bIdx, tt.maxDepth⟩
    let r := sbLoop tt aIdx bIdx (2 * tt.maxDepth) tt.maxDepth tt.maxDepth aU bU
    (tt.getPadding ⟨aIdx, r.1⟩, tt.getPadding ⟨bIdx, r.2⟩)

/-! ### fragmentsInfo (rocks-layout, `UnsimplifiedRocksLayoutResult`) -/

/-- Information about a positioned fragment (`layout-tree.ts`
`FragmentInfo`). -/
structure FragmentInfo where
  text : String
  rect : Rect
  lineNo : ℕ
deriving DecidableEq, Repr

/-- The recursive walk of `UnsimplifiedRocksLayoutResult.fragmentsInfo`:
atoms are emitted with the rectangle found in the backing at their
stack-ref index (abstracted here as the `lookup` function) and the
current line number; spacers are skipped; a JoinV bumps the line
number between its two sides.  Returns the emitted fragments and the
final line number. -/
def fragmentsInfoGo (lookup : ℕ → Rect) :
    RTreeR → ℕ → List FragmentInfo × ℕ
  | .atom t _ ref, ln => ([⟨t, lookup ref.index, ln⟩], ln)
  | .spacer _ _ _, ln => ([], ln)
  | .joinV l r _, ln =>
      let resL := fragmentsInfoGo lookup l ln
      let resR := fragmentsInfoGo lookup r (resL.2 + 1)
      (resL.1 ++ resR.1, resR.2)
  | .joinH l r _, ln =>
      let resL := fragmentsInfoGo lookup l ln
      let resR := fragmentsInfoGo lookup r resL.2
      (resL.1 ++ resR.1, resR.2)
  | .wrap c _ _ _ _, ln => fragmentsInfoGo lookup c ln

/-- `UnsimplifiedRocksLayoutResult.fragmentsInfo`, starting with line
number 0. -/
def fragmentsInfo (lookup : ℕ → Rect) (t : RTreeR) : List FragmentInfo :=
  (fragmentsInfoGo lookup t 0).1

/-- One item of the left-to-right flattening of an annotated
reassociated tree: a line break (JoinV), an atom, or a spacer. -/
inductive FlatItem where
  | nl
  | atomI (text : String) (index : ℕ)
  | spacerI
deriving DecidableEq, Repr

/-- The left-to-right flattening of an annotated reassociated tree:
each JoinV contributes one line break between the flattenings of its
two sides. -/
def flattenItems : RTreeR → List FlatItem
  | .atom t _ ref => [.atomI t ref.index]
  | .spacer _ _ _ => [.spacerI]
  | .joinH l r _ => flattenItems l ++ flattenItems r
  | .joinV l r _ => flattenItems l ++ .nl :: flattenItems r
  | .wrap c _ _ _ _ => flattenItems c

/-- The fragments determined by a flattening: each atom is emitted
with a line number equal to the number of line breaks before it. -/
def fragsOfItems (lookup : ℕ → Rect) : List FlatItem → ℕ → List FragmentInfo
  | [], _ => []
  | .nl :: rest, ln => fragsOfItems lookup rest (ln + 1)
  | .atomI t i :: rest, ln => ⟨t, lookup i, ln⟩ :: fragsOfItems lookup rest ln
  | .spacerI :: rest, ln => fragsOfItems lookup rest ln

/-- The number of line breaks in a flattening. -/
def nlCount : List FlatItem → ℕ
  | [] => 0
  | .nl :: rest => nlCount rest + 1
  | .atomI _ _ :: rest => nlCount rest
  | .spacerI :: rest => nlCount rest

/-- The texts of the atoms of a flattening, in order. -/
def itemTexts : List FlatItem → List String
  | [] => []
  | .nl :: rest => itemTexts rest
  | .atomI t _ :: rest => t :: itemTexts rest
  | .spacerI :: rest => itemTexts rest

/-! ### Structural facts about columns -/

theorem cellAt_zero (col : Column) : cellAt col 0 = BASE_CELL := rfl

theorem cellAt_mem (col : Column) (d : ℕ) :
    cellAt col d = BASE_CELL ∨ cellAt col d ∈ col := by
  rw [cellAt]
  split_ifs
  · exact Or.inl rfl
  · rcases Nat.lt_or_ge (d - 1) col.length with h | h
    · right
      rw [List.getD_eq_getElem col BASE_CELL h]
      exact List.getElem_mem h
    · left
      exact List.getD_eq_default _ _ h

theorem topOfColumn_eq_cellAt (col : Column) :
    topOfColumn col = cellAt col col.length := by
  cases col with
  | nil => rfl
  | cons x xs =>
      rw [topOfColumn, cellAt, if_neg (by simp)]
      rw [List.getLastD_eq_getLast?, List.getLast?_eq_getElem?]
      simp [List.getD_eq_getElem?_getD]

theorem cellAt_append_le (col l : List Cell) (d : ℕ) (h : d ≤ col.length) :
    cellAt (col ++ l) d = cellAt col d := by
  rw [cellAt, cellAt]
  split_ifs with h0
  · rfl
  · rw [List.getD_eq_getElem?_getD, List.getD_eq_getElem?_getD,
      List.getElem?_append_left (by omega)]

theorem length_fillColumn (col : Column) (d : ℕ) :
    (fillColumn col d).length = max col.length d := by
  simp [fillColumn]
  omega

theorem cellAt_fillColumn_le (col : Column) (d m : ℕ) (h : m ≤ col.length) :
    cellAt (fillColumn col d) m = cellAt col m :=
  cellAt_append_le col _ m h

theorem cellAt_fillColumn_top (col : Column) (d m : ℕ)
    (h1 : col.length ≤ m) (h2 : m ≤ d) :
    cellAt (fillColumn col d) m = topOfColumn col := by
  rcases Nat.eq_or_lt_of_le h1 with h | h
  · rw [← h, cellAt_fillColumn_le col d _ (le_refl _), topOfColumn_eq_cellAt]
  · rw [cellAt, if_neg (by omega), fillColumn, List.getD_eq_getElem?_getD,
      List.getElem?_append_right (by omega)]
    rw [List.getElem?_replicate]
    rw [if_pos (by omega)]
    rfl

theorem fillColumn_self (col : Column) (h : col.length = d) :
    fillColumn col d = col := by
  simp [fillColumn, h]

theorem mem_fillColumn (col : Column) (d : ℕ) (c : Cell)
    (h : c ∈ fillColumn col d) : c ∈ col ∨ c = BASE_CELL := by
  rw [fillColumn] at h
  rcases List.mem_append.mp h with h | h
  · exact Or.inl h
  · have : c = topOfColumn col := List.eq_of_mem_replicate h
    subst this
    rcases cellAt_mem col col.length with h | h
    · rw [topOfColumn_eq_cellAt]
      exact Or.inr h
    · rw [topOfColumn_eq_cellAt]
      exact Or.inl h

theorem length_wrapColumn (col : Column) (p : ℚ) (u : ℕ) :
    (wrapColumn col p u).length = col.length + 1 := by
  simp [wrapColumn]

theorem cellAt_wrapColumn_le (col : Column) (p : ℚ) (u : ℕ) (m : ℕ)
    (h : m ≤ col.length) :
    cellAt (wrapColumn col p u) m = cellAt col m :=
  cellAt_append_le col _ m h

theorem cellAt_wrapColumn_top (col : Column) (p : ℚ) (u : ℕ) :
    cellAt (wrapColumn col p u) (col.length + 1)
      = ⟨u, p + (topOfColumn col).padding⟩ := by
  rw [cellAt, if_neg (by omega), wrapColumn, List.getD_eq_getElem?_getD,
    List.getElem?_append_right (by omega)]
  simp

theorem mem_wrapColumn (col : Column) (p : ℚ) (u : ℕ) (c : Cell)
    (h : c ∈ wrapColumn col p u) :
    c ∈ col ∨ c = ⟨u, p + (topOfColumn col).padding⟩ := by
  rw [wrapColumn] at h
  rcases List.mem_append.mp h with h | h
  · exact Or.inl h
  · exact Or.inr (List.mem_singleton.mp h)

/-! ### Column invariants -/

/-- Going up a column, each cell is either a copy of the cell below
(a synthetic fill) or carries a nonzero uid different from every uid
below it in the column (a strictly new wrap). -/
def ColCells (col : Column) : Prop :=
  ∀ d, d + 1 ≤ col.length →
    cellAt col (d + 1) = cellAt col d ∨
      ((cellAt col (d + 1)).uid ≠ 0 ∧
        ∀ m, m ≤ d → (cellAt col (d + 1)).uid ≠ uidAt col m)

/-- Cells with the base uid carry zero padding. -/
def ColZeroPad (col : Column) : Prop :=
  ∀ c ∈ col, c.uid = 0 → c.padding = 0

/-- Every uid in the column is the base uid or lies in `[n₀, n₁)`. -/
def ColUidsIn (n₀ n₁ : ℕ) (col : Column) : Prop :=
  ∀ c ∈ col, c.uid = 0 ∨ (n₀ ≤ c.uid ∧ c.uid < n₁)

/-- Cumulative padding is monotone in depth. -/
def ColMono (col : Column) : Prop :=
  ∀ d, d + 1 ≤ col.length → padAt col d ≤ padAt col (d + 1)

/-- A nonzero uid common to two columns occurs at matching depths and
forces uid agreement everywhere above. -/
def PairOk (H : ℕ) (colA colB : Column) : Prop :=
  ∀ j k, 1 ≤ j → j ≤ H → 1 ≤ k → k ≤ H →
    uidAt colA j = uidAt colB k → uidAt colA j ≠ 0 →
    ∀ m, max j k ≤ m → m ≤ H → uidAt colA m = uidAt colB m

/-- All wrap paddings of a reassociated tree are non-negative (the
input invariant `padding ≥ 0` of the data model). -/
def padsNonneg : RTree → Prop
  | .atom _ _ => True
  | .spacer _ _ => True
  | .joinH l r => padsNonneg l ∧ padsNonneg r
  | .joinV l r => padsNonneg l ∧ padsNonneg r
  | .wrap c p _ => 0 ≤ p ∧ padsNonneg c

/-! ### Derived column facts -/

theorem cells_eq_of_uid_eq (col : Column) (h : ColCells col) (d : ℕ)
    (hd : d + 1 ≤ col.length)
    (hu : uidAt col (d + 1) = uidAt col d) :
    cellAt col (d + 1) = cellAt col d := by
  rcases h d hd with heq | ⟨_, hnew⟩
  · exact heq
  · exact absurd hu (hnew d (le_refl d))

theorem zero_below (col : Column) (h : ColCells col) :
    ∀ d, d ≤ col.length → uidAt col d = 0 → ∀ m, m ≤ d → uidAt col m = 0 := by
  intro d
  induction d with
  | zero =>
      intro _ h0 m hm
      have : m = 0 := Nat.le_zero.mp hm
      subst this
      exact h0
  | succ e ih =>
      intro hd h0 m hm
      have hcell : cellAt col (e + 1) = cellAt col e := by
        rcases h e hd with heq | ⟨hne, _⟩
        · exact heq
        · exact absurd h0 hne
      have h0' : uidAt col e = 0 := by
        rw [uidAt, ← hcell]
        exact h0
      rcases Nat.lt_or_ge m (e + 1) with hlt | hge
      · exact ih (by omega) h0' m (by omega)
      · have : m = e + 1 := by omega
        subst this
        exact h0

theorem padAt_zero (col : Column) (h : ColZeroPad col) (d : ℕ)
    (h0 : uidAt col d = 0) : padAt col d = 0 := by
  rcases cellAt_mem col d with hb | hm
  · rw [padAt, hb]; rfl
  · exact h _ hm h0

/-! ### Preservation of the column invariants by fill and wrap -/

theorem uidAt_fillColumn (col : Column) (d x : ℕ) (hx : x ≤ d) :
    uidAt (fillColumn col d) x = uidAt col (min x col.length) := by
  rcases le_or_lt x col.length with h | h
  · rw [uidAt, cellAt_fillColumn_le col d x h, Nat.min_eq_left h]
    rfl
  · rw [uidAt, cellAt_fillColumn_top col d x (by omega) hx,
      Nat.min_eq_right (by omega), topOfColumn_eq_cellAt]
    rfl

theorem colCells_fillColumn (col : Column) (d : ℕ) (h : ColCells col) :
    ColCells (fillColumn col d) := by
  intro e he
  rw [length_fillColumn] at he
  rcases le_or_lt (e + 1) col.length with hle | hgt
  · rw [cellAt_fillColumn_le col d _ hle, cellAt_fillColumn_le col d _ (by omega)]
    rcases h e hle with heq | ⟨hne, hm⟩
    · exact Or.inl heq
    · refine Or.inr ⟨hne, fun m hm' => ?_⟩
      rw [uidAt, cellAt_fillColumn_le col d m (by omega)]
      exact hm m hm'
  · left
    have hed : e + 1 ≤ d := by omega
    rw [cellAt_fillColumn_top col d _ (by omega) hed]
    rcases le_or_lt e col.length with h2 | h2
    · have : e = col.length := by omega
      subst this
      rw [cellAt_fillColumn_le col d _ (le_refl _), topOfColumn_eq_cellAt]
    · rw [cellAt_fillColumn_top col d _ (by omega) (by omega)]

theorem colZeroPad_fillColumn (col : Column) (d : ℕ) (h : ColZeroPad col) :
    ColZeroPad (fillColumn col d) := by
  intro c hc h0
  rcases mem_fillColumn col d c hc with hm | hb
  · exact h c hm h0
  · rw [hb]; rfl

theorem colUidsIn_fillColumn (col : Column) (d : ℕ) (n₀ n₁ : ℕ)
    (h : ColUidsIn n₀ n₁ col) : ColUidsIn n₀ n₁ (fillColumn col d) := by
  intro c hc
  rcases mem_fillColumn col d c hc with hm | hb
  · exact h c hm
  · rw [hb]; exact Or.inl rfl

theorem colMono_fillColumn (col : Column) (d : ℕ) (h : ColMono col) :
    ColMono (fillColumn col d) := by
  intro e he
  rw [length_fillColumn] at he
  rcases le_or_lt (e + 1) col.length with hle | hgt
  · rw [padAt, padAt, cellAt_fillColumn_le col d _ hle,
      cellAt_fillColumn_le col d _ (by omega)]
    exact h e hle
  · have hed : e + 1 ≤ d := by omega
    rw [padAt, padAt, cellAt_fillColumn_top col d _ (by omega) hed]
    rcases le_or_lt e col.length with h2 | h2
    · have : e = col.length := by omega
      subst this
      rw [cellAt_fillColumn_le col d _ (le_refl _), topOfColumn_eq_cellAt]
    · rw [cellAt_fillColumn_top col d _ (by omega) (by omega)]

theorem colCells_wrapColumn (col : Column) (p : ℚ) (u : ℕ) (h : ColCells col)
    (hu : u ≠ 0) (hnotin : ∀ c ∈ col, c.uid ≠ u) :
    ColCells (wrapColumn col p u) := by
  intro e he
  rw [length_wrapColumn] at he
  rcases le_or_lt (e + 1) col.length with hle | hgt
  · rw [cellAt_wrapColumn_le col p u _ hle, cellAt_wrapColumn_le col p u _ (by omega)]
    rcases h e hle with heq | ⟨hne, hm⟩
    · exact Or.inl heq
    · refine Or.inr ⟨hne, fun m hm' => ?_⟩
      rw [uidAt, cellAt_wrapColumn_le col p u m (by omega)]
      exact hm m hm'
  · have : e = col.length := by omega
    subst this
    rw [cellAt_wrapColumn_top col p u]
    refine Or.inr ⟨hu, fun m hm' => ?_⟩
    rw [uidAt, cellAt_wrapColumn_le col p u m hm']
    rcases cellAt_mem col m with hb | hmem
    · rw [hb]
      exact fun hh => hu hh
    · exact fun hh => hnotin _ hmem hh.symm

theorem colZeroPad_wrapColumn (col : Column) (p : ℚ) (u : ℕ)
    (h : ColZeroPad col) (hu : u ≠ 0) : ColZeroPad (wrapColumn col p u) := by
  intro c hc h0
  rcases mem_wrapColumn col p u c hc with hm | hb
  · exact h c hm h0
  · rw [hb] at h0
    exact absurd h0 hu

theorem colUidsIn_wrapColumn (col : Column) (p : ℚ) (u : ℕ) (a b a' : ℕ)
    (h : ColUidsIn a b col) (ha : a' ≤ a) (hu : a' ≤ u ∧ u < b) :
    ColUidsIn a' b (wrapColumn col p u) := by
  intro c hc
  rcases mem_wrapColumn col p u c hc with hm | hb
  · rcases h c hm with h0 | ⟨h1, h2⟩
    · exact Or.inl h0
    · exact Or.inr ⟨le_trans ha h1, h2⟩
  · rw [hb]
    exact Or.inr hu

theorem colMono_wrapColumn (col : Column) (p : ℚ) (u : ℕ) (h : ColMono col)
    (hp : 0 ≤ p) : ColMono (wrapColumn col p u) := by
  intro e he
  rw [length_wrapColumn] at he
  rcases le_or_lt (e + 1) col.length with hle | hgt
  · rw [padAt, padAt, cellAt_wrapColumn_le col p u _ hle,
      cellAt_wrapColumn_le col p u _ (by omega)]
    exact h e hle
  · have : e = col.length := by omega
    subst this
    rw [padAt, padAt, cellAt_wrapColumn_top col p u,
      cellAt_wrapColumn_le col p u _ (le_refl _), topOfColumn_eq_cellAt]
    simpa using hp

theorem uidAt_cases (col : Column) (a b : ℕ) (h : ColUidsIn a b col) (d : ℕ) :
    uidAt col d = 0 ∨ (a ≤ uidAt col d ∧ uidAt col d < b) := by
  rcases cellAt_mem col d with hb | hm
  · left; rw [uidAt, hb]; rfl
  · exact h _ hm

theorem pairOk_fill (H d : ℕ) (colA colB : Column) (hA : colA.length = H)
    (hB : colB.length = H) (h : PairOk H colA colB) (_hd : H ≤ d) :
    PairOk d (fillColumn colA d) (fillColumn colB d) := by
  intro j k hj1 hjd hk1 hkd hequ hne m hm1 hm2
  have huA : ∀ x, x ≤ d → uidAt (fillColumn colA d) x = uidAt colA (min x H) := by
    intro x hx
    rw [uidAt_fillColumn colA d x hx, hA]
  have huB : ∀ x, x ≤ d → uidAt (fillColumn colB d) x = uidAt colB (min x H) := by
    intro x hx
    rw [uidAt_fillColumn colB d x hx, hB]
  rcases Nat.eq_zero_or_pos H with h0 | hH
  · exfalso
    apply hne
    rw [huA j hjd, h0, Nat.min_zero]
    rfl
  · have hj₀ : 1 ≤ min j H := by omega
    have hk₀ : 1 ≤ min k H := by omega
    have hagree := h (min j H) (min k H) hj₀ (by omega) hk₀ (by omega)
      (by rw [← huA j hjd, ← huB k hkd]; exact hequ)
      (by rw [← huA j hjd]; exact hne)
    rw [huA m hm2, huB m hm2]
    rcases le_or_lt m H with hmH | hmH
    · rw [Nat.min_eq_left hmH]
      exact hagree m (by omega) hmH
    · rw [Nat.min_eq_right (by omega)]
      exact hagree H (by omega) (le_refl H)

theorem pairOk_wrap (H : ℕ) (colA colB : Column) (p : ℚ) (u : ℕ)
    (hA : colA.length = H) (hB : colB.length = H) (h : PairOk H colA colB)
    (hu : u ≠ 0)
    (hnotinA : ∀ c ∈ colA, c.uid ≠ u) (hnotinB : ∀ c ∈ colB, c.uid ≠ u) :
    PairOk (H + 1) (wrapColumn colA p u) (wrapColumn colB p u) := by
  have huAtop : uidAt (wrapColumn colA p u) (H + 1) = u := by
    rw [uidAt, ← hA, cellAt_wrapColumn_top]
  have huBtop : uidAt (wrapColumn colB p u) (H + 1) = u := by
    rw [uidAt, ← hB, cellAt_wrapColumn_top]
  have huA : ∀ x, x ≤ H → uidAt (wrapColumn colA p u) x = uidAt colA x := by
    intro x hx
    rw [uidAt, uidAt, cellAt_wrapColumn_le colA p u x (hA ▸ hx)]
  have huB : ∀ x, x ≤ H → uidAt (wrapColumn colB p u) x = uidAt colB x := by
    intro x hx
    rw [uidAt, uidAt, cellAt_wrapColumn_le colB p u x (hB ▸ hx)]
  have hAu : ∀ x, x ≤ H → uidAt colA x ≠ u := by
    intro x hx
    rcases cellAt_mem colA x with hb | hm
    · rw [uidAt, hb]
      exact fun hh => hu hh.symm
    · exact hnotinA _ hm
  have hBu : ∀ x, x ≤ H → uidAt colB x ≠ u := by
    intro x hx
    rcases cellAt_mem colB x with hb | hm
    · rw [uidAt, hb]
      exact fun hh => hu hh.symm
    · exact hnotinB _ hm
  intro j k hj1 hjd hk1 hkd hequ hne m hm1 hm2
  rcases le_or_lt j H with hjH | hjH
  · rcases le_or_lt k H with hkH | hkH
    · -- both within the old column
      have hagree := h j k hj1 hjH hk1 hkH
        (by rw [← huA j hjH, ← huB k hkH]; exact hequ)
        (by rw [← huA j hjH]; exact hne)
      rcases le_or_lt m H with hmH | hmH
      · rw [huA m hmH, huB m hmH]
        exact hagree m hm1 hmH
      · have : m = H + 1 := by omega
        subst this
        rw [huAtop, huBtop]
    · -- k = H + 1 : the old column of A would contain u
      exfalso
      have : k = H + 1 := by omega
      subst this
      rw [huA j hjH, huBtop] at hequ
      exact hAu j hjH hequ
  · have : j = H + 1 := by omega
    subst this
    rcases le_or_lt k H with hkH | hkH
    · exfalso
      rw [huAtop, huB k hkH] at hequ
      exact hBu k hkH hequ.symm
    · have : k = H + 1 := by omega
      subst this
      have : m = H + 1 := by omega
      subst this
      rw [huAtop, huBtop]

theorem pairOk_of_disjoint_ranges (H : ℕ) (colA colB : Column)
    (a₁ b₁ a₂ b₂ : ℕ) (hA : ColUidsIn a₁ b₁ colA) (hB : ColUidsIn a₂ b₂ colB)
    (hsep : b₁ ≤ a₂ ∨ b₂ ≤ a₁) : PairOk H colA colB := by
  intro j k _ _ _ _ hequ hne m _ _
  exfalso
  rcases uidAt_cases colA a₁ b₁ hA j with h0 | ⟨hl1, hr1⟩
  · exact hne h0
  · rcases uidAt_cases colB a₂ b₂ hB k with h0 | ⟨hl2, hr2⟩
    · rw [hequ] at hne
      exact hne h0
    · rw [hequ] at hl1 hr1
      rcases hsep with hs | hs <;> omega

/-! ### The guarded range maps of `fromLayoutTree` -/

theorem fillRangeGo_append (b e d i : ℕ) (xs ys : List (Option Column)) :
    fillRangeGo b e d i (xs ++ ys)
      = fillRangeGo b e d i xs ++ fillRangeGo b e d (i + xs.length) ys := by
  induction xs generalizing i with
  | nil => simp [fillRangeGo]
  | cons x xs ih =>
      simp only [List.cons_append, fillRangeGo, List.length_cons, List.append_eq]
      rw [show i + (xs.length + 1) = i + 1 + xs.length by omega, ih (i + 1)]

theorem fillRangeGo_below (b e d i : ℕ) (xs : List (Option Column))
    (h : i + xs.length ≤ b) : fillRangeGo b e d i xs = xs := by
  induction xs generalizing i with
  | nil => rfl
  | cons x xs ih =>
      simp only [List.length_cons] at h
      rw [fillRangeGo, if_neg (by omega), ih (i + 1) (by omega)]

theorem fillRangeGo_inside (b e d i : ℕ) (xs : List (Option Column))
    (h1 : b ≤ i) (h2 : i + xs.length ≤ e) :
    fillRangeGo b e d i xs = xs.map (Option.map (fun col => fillColumn col d)) := by
  induction xs generalizing i with
  | nil => rfl
  | cons x xs ih =>
      simp only [List.length_cons] at h2
      rw [fillRangeGo, if_pos (by omega), ih (i + 1) (by omega) (by omega),
        List.map_cons]

theorem wrapRangeGo_append (b e : ℕ) (p : ℚ) (u d i : ℕ)
    (xs ys : List (Option Column)) :
    wrapRangeGo b e p u d i (xs ++ ys)
      = wrapRangeGo b e p u d i xs ++ wrapRangeGo b e p u d (i + xs.length) ys := by
  induction xs generalizing i with
  | nil => simp [wrapRangeGo]
  | cons x xs ih =>
      simp only [List.cons_append, wrapRangeGo, List.length_cons, List.append_eq]
      rw [show i + (xs.length + 1) = i + 1 + xs.length by omega, ih (i + 1)]

theorem wrapRangeGo_below (b e : ℕ) (p : ℚ) (u d i : ℕ)
    (xs : List (Option Column)) (h : i + xs.length ≤ b) :
    wrapRangeGo b e p u d i xs = xs := by
  induction xs generalizing i with
  | nil => rfl
  | cons x xs ih =>
      simp only [List.length_cons] at h
      rw [wrapRangeGo, if_neg (by omega), ih (i + 1) (by omega)]

theorem wrapRangeGo_inside (b e : ℕ) (p : ℚ) (u d i : ℕ)
    (xs : List (Option Column)) (h1 : b ≤ i) (h2 : i + xs.length ≤ e) :
    wrapRangeGo b e p u d i xs
      = xs.map (Option.map (fun col => wrapColumn (fillColumn col d) p u)) := by
  induction xs generalizing i with
  | nil => rfl
  | cons x xs ih =>
      simp only [List.length_cons] at h2
      rw [wrapRangeGo, if_pos (by omega), ih (i + 1) (by omega) (by omega),
        List.map_cons]

theorem getD_map_opt (f : Column → Column) (l : List (Option Column)) (i : ℕ) :
    (l.map (Option.map f)).getD i none = Option.map f (l.getD i none) := by
  induction l generalizing i with
  | nil => simp
  | cons x xs ih =>
      cases i with
      | zero => simp
      | succ j => simpa using ih j

theorem mem_of_getD_some (l : List (Option Column)) (i : ℕ) (x : Column)
    (h : l.getD i none = some x) : some x ∈ l := by
  rcases Nat.lt_or_ge i l.length with hlt | hge
  · rw [List.getD_eq_getElem l none hlt] at h
    rw [← h]
    exact List.getElem_mem hlt
  · rw [List.getD_eq_default l none hge] at h
    exact absurd h (by simp)

theorem getD_append_left' (l l' : List (Option Column)) (i : ℕ)
    (h : i < l.length) : (l ++ l').getD i none = l.getD i none := by
  rw [List.getD_eq_getElem?_getD, List.getD_eq_getElem?_getD,
    List.getElem?_append_left h]

theorem getD_append_right' (l l' : List (Option Column)) (i : ℕ)
    (h : l.length ≤ i) : (l ++ l').getD i none = l'.getD (i - l.length) none := by
  rw [List.getD_eq_getElem?_getD, List.getD_eq_getElem?_getD,
    List.getElem?_append_right h]

/-! ### The inductive specification of `fromLayoutTree`'s walk -/

theorem colUidsIn_mono (col : Column) (a b a' b' : ℕ) (h : ColUidsIn a b col)
    (ha : a' ≤ a) (hb : b ≤ b') : ColUidsIn a' b' col := by
  intro c hc
  rcases h c hc with h0 | ⟨h1, h2⟩
  · exact Or.inl h0
  · exact Or.inr ⟨le_trans ha h1, lt_of_lt_of_le h2 hb⟩

/-- The invariants of the columns appended by processing one subtree:
every non-spacer column has the subtree's height, satisfies the
per-column invariants with uids drawn from `[n₀, n₁)`, is
padding-monotone whenever `P` (the paddings of the subtree are
non-negative) holds; and every pair of distinct non-spacer columns
satisfies the shared-wrap alignment invariant. -/
def ColsOk (d n₀ n₁ : ℕ) (P : Prop) (new : List (Option Column)) : Prop :=
  (∀ col, some col ∈ new → col.length = d ∧ ColCells col ∧ ColZeroPad col ∧
    ColUidsIn n₀ n₁ col ∧ (P → ColMono col)) ∧
  (∀ i j colA colB, i ≠ j → new.getD i none = some colA →
    new.getD j none = some colB → PairOk d colA colB)

theorem colsOk_atom (n₀ n₁ : ℕ) (P : Prop) : ColsOk 0 n₀ n₁ P [some []] := by
  constructor
  · intro col hcol
    have : col = [] := by simpa using hcol
    subst this
    refine ⟨rfl, ?_, ?_, ?_, ?_⟩
    · intro d hd; simp at hd
    · intro c hc; simp at hc
    · intro c hc; simp at hc
    · intro _ d hd; simp at hd
  · intro i j colA colB hij hA hB
    exfalso
    have hi : i = 0 := by
      by_contra h
      rcases Nat.exists_eq_succ_of_ne_zero h with ⟨i', rfl⟩
      simp [List.getD] at hA
    have hj : j = 0 := by
      by_contra h
      rcases Nat.exists_eq_succ_of_ne_zero h with ⟨j', rfl⟩
      simp [List.getD] at hB
    exact hij (hi.trans hj.symm)

theorem colsOk_spacer (n₀ n₁ : ℕ) (P : Prop) : ColsOk 0 n₀ n₁ P [none] := by
  constructor
  · intro col hcol
    simp at hcol
  · intro i j colA colB _ hA _
    exfalso
    cases i with
    | zero => simp at hA
    | succ i' => simp [List.getD] at hA

theorem colsOk_join (dl dr n₀ n₁ n₂ : ℕ) (Pl Pr : Prop)
    (newL newR : List (Option Column))
    (hL : ColsOk dl n₀ n₁ Pl newL) (hR : ColsOk dr n₁ n₂ Pr newR)
    (hn1 : n₀ ≤ n₁) (hn2 : n₁ ≤ n₂) :
    ColsOk (max dl dr) n₀ n₂ (Pl ∧ Pr)
      ((newL ++ newR).map
        (Option.map (fun col => fillColumn col (max dl dr)))) := by
  set d := max dl dr with hd
  constructor
  · intro col hcol
    obtain ⟨x, hx, hxe⟩ := List.mem_map.mp hcol
    obtain ⟨col₀, rfl, hfill⟩ := Option.map_eq_some'.mp hxe
    subst hfill
    rcases List.mem_append.mp hx with hmem | hmem
    · obtain ⟨hlen, hc, hz, hu, hm⟩ := hL.1 col₀ hmem
      refine ⟨by rw [length_fillColumn, hlen]; omega,
        colCells_fillColumn _ _ hc, colZeroPad_fillColumn _ _ hz,
        colUidsIn_mono _ _ _ _ _ (colUidsIn_fillColumn _ _ _ _ hu)
          (le_refl _) hn2,
        fun hP => colMono_fillColumn _ _ (hm hP.1)⟩
    · obtain ⟨hlen, hc, hz, hu, hm⟩ := hR.1 col₀ hmem
      refine ⟨by rw [length_fillColumn, hlen]; omega,
        colCells_fillColumn _ _ hc, colZeroPad_fillColumn _ _ hz,
        colUidsIn_mono _ _ _ _ _ (colUidsIn_fillColumn _ _ _ _ hu)
          (by omega) (le_refl _),
        fun hP => colMono_fillColumn _ _ (hm hP.2)⟩
  · intro i j colA colB hij hA hB
    rw [getD_map_opt] at hA hB
    obtain ⟨colA₀, hA₀, rfl⟩ := Option.map_eq_some'.mp hA
    obtain ⟨colB₀, hB₀, rfl⟩ := Option.map_eq_some'.mp hB
    rcases Nat.lt_or_ge i newL.length with hi | hi
    · rw [getD_append_left' _ _ _ hi] at hA₀
      rcases Nat.lt_or_ge j newL.length with hj | hj
      · rw [getD_append_left' _ _ _ hj] at hB₀
        have hp := hL.2 i j _ _ hij hA₀ hB₀
        exact pairOk_fill dl d _ _
          ((hL.1 _ (mem_of_getD_some _ _ _ hA₀)).1)
          ((hL.1 _ (mem_of_getD_some _ _ _ hB₀)).1) hp (by omega)
      · rw [getD_append_right' _ _ _ hj] at hB₀
        exact pairOk_of_disjoint_ranges d _ _ n₀ n₁ n₁ n₂
          (colUidsIn_fillColumn _ _ _ _
            ((hL.1 _ (mem_of_getD_some _ _ _ hA₀)).2.2.2.1))
          (colUidsIn_fillColumn _ _ _ _
            ((hR.1 _ (mem_of_getD_some _ _ _ hB₀)).2.2.2.1))
          (Or.inl (le_refl _))
    · rw [getD_append_right' _ _ _ hi] at hA₀
      rcases Nat.lt_or_ge j newL.length with hj | hj
      · rw [getD_append_left' _ _ _ hj] at hB₀
        exact pairOk_of_disjoint_ranges d _ _ n₁ n₂ n₀ n₁
          (colUidsIn_fillColumn _ _ _ _
            ((hR.1 _ (mem_of_getD_some _ _ _ hA₀)).2.2.2.1))
          (colUidsIn_fillColumn _ _ _ _
            ((hL.1 _ (mem_of_getD_some _ _ _ hB₀)).2.2.2.1))
          (Or.inr (le_refl _))
      · rw [getD_append_right' _ _ _ hj] at hB₀
        have hp := hR.2 (i - newL.length) (j - newL.length) _ _
          (by omega) hA₀ hB₀
        exact pairOk_fill dr d _ _
          ((hR.1 _ (mem_of_getD_some _ _ _ hA₀)).1)
          ((hR.1 _ (mem_of_getD_some _ _ _ hB₀)).1) hp (by omega)

theorem colsOk_wrap (d n₀ n₁ : ℕ) (P : Prop) (p : ℚ)
    (newC : List (Option Column)) (h : ColsOk d (n₀ + 1) n₁ P newC)
    (h0 : 1 ≤ n₀) (hn : n₀ + 1 ≤ n₁) :
    ColsOk (d + 1) n₀ n₁ (0 ≤ p ∧ P)
      (newC.map (Option.map (fun col => wrapColumn (fillColumn col d) p n₀))) := by
  have hnotin : ∀ col₀, some col₀ ∈ newC → ∀ c ∈ col₀, c.uid ≠ n₀ := by
    intro col₀ hmem c hc
    rcases (h.1 col₀ hmem).2.2.2.1 c hc with h0' | ⟨h1, _⟩
    · omega
    · omega
  constructor
  · intro col hcol
    obtain ⟨x, hx, hxe⟩ := List.mem_map.mp hcol
    obtain ⟨col₀, rfl, hfill⟩ := Option.map_eq_some'.mp hxe
    obtain ⟨hlen, hc, hz, hu, hm⟩ := h.1 col₀ hx
    rw [fillColumn_self col₀ hlen] at hfill
    subst hfill
    refine ⟨by rw [length_wrapColumn, hlen],
      colCells_wrapColumn _ _ _ hc (by omega) (hnotin col₀ hx),
      colZeroPad_wrapColumn _ _ _ hz (by omega),
      colUidsIn_wrapColumn _ _ _ _ _ _ hu (by omega) ⟨le_refl _, by omega⟩,
      fun hP => colMono_wrapColumn _ _ _ (hm hP.2) hP.1⟩
  · intro i j colA colB hij hA hB
    rw [getD_map_opt] at hA hB
    obtain ⟨colA₀, hA₀, rfl⟩ := Option.map_eq_some'.mp hA
    obtain ⟨colB₀, hB₀, rfl⟩ := Option.map_eq_some'.mp hB
    have hmemA := mem_of_getD_some _ _ _ hA₀
    have hmemB := mem_of_getD_some _ _ _ hB₀
    have hlenA := (h.1 _ hmemA).1
    have hlenB := (h.1 _ hmemB).1
    rw [fillColumn_self colA₀ hlenA, fillColumn_self colB₀ hlenB]
    exact pairOk_wrap d _ _ p n₀ hlenA hlenB (h.2 i j _ _ hij hA₀ hB₀)
      (by omega) (hnotin _ hmemA) (hnotin _ hmemB)

/-- The walk of `fromLayoutTree` appends columns for the processed
subtree, never touches existing columns, advances the uid counter, and
the new columns satisfy all the per-column and pairwise invariants. -/
theorem ttGo_spec : ∀ (t : RTree) (n₀ : ℕ) (cols₀ : List (Option Column)),
    1 ≤ n₀ →
    ∃ new, (ttGo t n₀ cols₀).columns = cols₀ ++ new ∧
      n₀ ≤ (ttGo t n₀ cols₀).nextId ∧
      ColsOk (ttGo t n₀ cols₀).depth n₀ (ttGo t n₀ cols₀).nextId
        (padsNonneg t) new := by
  intro t
  induction t with
  | atom tx r =>
      intro n₀ cols₀ _
      exact ⟨[some []], rfl, le_refl _, colsOk_atom n₀ n₀ _⟩
  | spacer tx w =>
      intro n₀ cols₀ _
      exact ⟨[none], rfl, le_refl _, colsOk_spacer n₀ n₀ _⟩
  | joinH l r ihl ihr =>
      intro n₀ cols₀ h1
      obtain ⟨newL, hL1, hL2, hL3⟩ := ihl n₀ cols₀ h1
      obtain ⟨newR, hR1, hR2, hR3⟩ :=
        ihr (ttGo l n₀ cols₀).nextId (ttGo l n₀ cols₀).columns
          (le_trans h1 hL2)
      have hsplit : (ttGo r (ttGo l n₀ cols₀).nextId (ttGo l n₀ cols₀).columns).columns
          = cols₀ ++ (newL ++ newR) := by
        rw [hR1, hL1, List.append_assoc]
      have hlen := congrArg List.length hsplit
      simp only [List.length_append] at hlen
      refine ⟨(newL ++ newR).map (Option.map (fun col => fillColumn col
        (max (ttGo l n₀ cols₀).depth
          (ttGo r (ttGo l n₀ cols₀).nextId (ttGo l n₀ cols₀).columns).depth))),
        ?_, ?_, ?_⟩
      · simp only [ttGo]
        rw [hsplit, fillRangeGo_append,
          fillRangeGo_below _ _ _ _ _ (by omega),
          fillRangeGo_inside _ _ _ _ _ (by omega)
            (by simp only [List.length_append]; omega)]
      · simp only [ttGo]
        exact le_trans hL2 hR2
      · simp only [ttGo]
        exact colsOk_join _ _ n₀ _ _ _ _ newL newR hL3 hR3 hL2 hR2
  | joinV l r ihl ihr =>
      intro n₀ cols₀ h1
      obtain ⟨newL, hL1, hL2, hL3⟩ := ihl n₀ cols₀ h1
      obtain ⟨newR, hR1, hR2, hR3⟩ :=
        ihr (ttGo l n₀ cols₀).nextId (ttGo l n₀ cols₀).columns
          (le_trans h1 hL2)
      have hsplit : (ttGo r (ttGo l n₀ cols₀).nextId (ttGo l n₀ cols₀).columns).columns
          = cols₀ ++ (newL ++ newR) := by
        rw [hR1, hL1, List.append_assoc]
      have hlen := congrArg List.length hsplit
      simp only [List.length_append] at hlen
      refine ⟨(newL ++ newR).map (Option.map (fun col => fillColumn col
        (max (ttGo l n₀ cols₀).depth
          (ttGo r (ttGo l n₀ cols₀).nextId (ttGo l n₀ cols₀).columns).depth))),
        ?_, ?_, ?_⟩
      · simp only [ttGo]
        rw [hsplit, fillRangeGo_append,
          fillRangeGo_below _ _ _ _ _ (by omega),
          fillRangeGo_inside _ _ _ _ _ (by omega)
            (by simp only [List.length_append]; omega)]
      · simp only [ttGo]
        exact le_trans hL2 hR2
      · simp only [ttGo]
        exact colsOk_join _ _ n₀ _ _ _ _ newL newR hL3 hR3 hL2 hR2
  | wrap c p s ihc =>
      intro n₀ cols₀ h1
      obtain ⟨newC, hC1, hC2, hC3⟩ := ihc (n₀ + 1) cols₀ (by omega)
      have hlen := congrArg List.length hC1
      simp only [List.length_append] at hlen
      refine ⟨newC.map (Option.map (fun col =>
        wrapColumn (fillColumn col (ttGo c (n₀ + 1) cols₀).depth) p n₀)),
        ?_, ?_, ?_⟩
      · simp only [ttGo]
        rw [hC1, wrapRangeGo_append,
          wrapRangeGo_below _ _ _ _ _ _ _ (by omega),
          wrapRangeGo_inside _ _ _ _ _ _ _ (by omega)
            (by simp only [List.length_append]; omega)]
      · simp only [ttGo]
        omega
      · simp only [ttGo]
        exact colsOk_wrap _ n₀ _ _ p newC hC3 h1 hC2

theorem map_opt_fill_id (cols : List (Option Column)) (d : ℕ)
    (h : ∀ col, some col ∈ cols → col.length = d) :
    cols.map (Option.map (fun col => fillColumn col d)) = cols := by
  induction cols with
  | nil => rfl
  | cons x xs ih =>
      rw [List.map_cons, ih (fun col hc => h col (List.mem_cons_of_mem _ hc))]
      congr 1
      cases x with
      | none => rfl
      | some col =>
          rw [Option.map_some', fillColumn_self col (h col (List.mem_cons_self _ _))]

/-- The final fill of `fromLayoutTree` is a no-op (all columns already
have the global height), so the table's columns are the walk's columns
and its `maxDepth` is the walk's depth; every non-spacer column
satisfies the per-column invariants at height `maxDepth`, and every
pair of distinct non-spacer columns satisfies the alignment
invariant. -/
theorem table_spec (t : RTree) :
    (Timetable.fromLayoutTree t).1.maxDepth = (ttGo t 1 []).depth ∧
    (∀ i col, (Timetable.fromLayoutTree t).1.col i = some col →
      col.length = (Timetable.fromLayoutTree t).1.maxDepth ∧ ColCells col ∧
        ColZeroPad col ∧ (padsNonneg t → ColMono col)) ∧
    (∀ i j colA colB, i ≠ j →
      (Timetable.fromLayoutTree t).1.col i = some colA →
      (Timetable.fromLayoutTree t).1.col j = some colB →
      PairOk (Timetable.fromLayoutTree t).1.maxDepth colA colB) := by
  obtain ⟨new, h1, _, h3, h4⟩ := ttGo_spec t 1 [] (le_refl 1)
  simp only [List.nil_append] at h1
  have hcols : (Timetable.fromLayoutTree t).1.columns = (ttGo t 1 []).columns := by
    show ((ttGo t 1 []).columns.map _ ) = _
    rw [h1]
    rw [map_opt_fill_id new (ttGo t 1 []).depth (fun col hc => (h3 col hc).1)]
  have hmd : (Timetable.fromLayoutTree t).1.maxDepth = (ttGo t 1 []).depth := rfl
  refine ⟨hmd, ?_, ?_⟩
  · intro i col hcol
    rw [Timetable.col, hcols, h1] at hcol
    obtain ⟨hlen, hc, hz, _, hm⟩ := h3 col (mem_of_getD_some _ _ _ hcol)
    exact ⟨by rw [hmd, hlen], hc, hz, hm⟩
  · intro i j colA colB hij hcolA hcolB
    rw [Timetable.col, hcols, h1] at hcolA hcolB
    rw [hmd]
    exact h4 i j colA colB hij hcolA hcolB

/-! ### The `spaceBetween` loop -/

theorem getUid_bridge (tt : Timetable) (idx : ℕ) (col : Column)
    (h : tt.col idx = some col) (d : ℕ) :
    tt.getUid ⟨idx, d⟩ = uidAt col d := by
  rw [Timetable.getUid, Timetable.getCell, h]
  rfl

theorem getPadding_bridge (tt : Timetable) (idx : ℕ) (col : Column)
    (h : tt.col idx = some col) (d : ℕ) :
    tt.getPadding ⟨idx, d⟩ = padAt col d := by
  rw [Timetable.getPadding, Timetable.getCell, h]
  rfl

/-- Phase 2 of the loop analysis: once both pointers are at or below
the divergence depth `δ`, the loop can only move a pointer across
synthetic fills or base cells, so the paddings at the final positions
are the paddings at `δ`. -/
theorem sbLoop_phase2 (tt : Timetable) (aIdx bIdx : ℕ) (colA colB : Column)
    (hA : tt.col aIdx = some colA) (hB : tt.col bIdx = some colB)
    (hlenA : colA.length = tt.maxDepth) (hlenB : colB.length = tt.maxDepth)
    (hcA : ColCells colA) (hcB : ColCells colB)
    (hzA : ColZeroPad colA) (hzB : ColZeroPad colB)
    (δ : ℕ) (hδ : δ ≤ tt.maxDepth)
    (hCross : ∀ j k, 1 ≤ j → j ≤ δ → 1 ≤ k → k ≤ δ →
      uidAt colA j = uidAt colB k → uidAt colA j = 0) :
    ∀ fuel aD bD,
      aD ≤ δ → bD ≤ δ →
      padAt colA aD = padAt colA δ → padAt colB bD = padAt colB δ →
      padAt colA (sbLoop tt aIdx bIdx fuel aD bD
          (uidAt colA aD) (uidAt colB bD)).1 = padAt colA δ ∧
      padAt colB (sbLoop tt aIdx bIdx fuel aD bD
          (uidAt colA aD) (uidAt colB bD)).2 = padAt colB δ := by
  intro fuel
  induction fuel with
  | zero =>
      intro aD bD _ _ hpA hpB
      exact ⟨hpA, hpB⟩
  | succ fuel ih =>
      intro aD bD haδ hbδ hpA hpB
      by_cases hpos : 0 < aD ∧ 0 < bD
      case neg =>
        rw [sbLoop, if_neg hpos]
        exact ⟨hpA, hpB⟩
      case pos =>
      rw [sbLoop, if_pos hpos]
      simp only [getUid_bridge tt aIdx colA hA, getUid_bridge tt bIdx colB hB]
      -- the padding of `a` is preserved when `a` descends across a fill
      have hstepA : uidAt colA aD = uidAt colA (aD - 1) →
          padAt colA (aD - 1) = padAt colA δ := by
        intro hc1
        have he : aD - 1 + 1 = aD := by omega
        have := cells_eq_of_uid_eq colA hcA (aD - 1)
          (by rw [he]; rw [hlenA]; omega) (by rw [he]; exact hc1)
        rw [he] at this
        rw [← hpA, padAt, padAt, this]
      -- all-zero descent on the `b` side
      have hstepB0 : uidAt colB bD = 0 →
          uidAt colB (bD - 1) = 0 ∧ padAt colB (bD - 1) = padAt colB δ := by
        intro h0
        have hb1 : uidAt colB (bD - 1) = 0 :=
          zero_below colB hcB bD (by rw [hlenB]; omega) h0 (bD - 1) (by omega)
        refine ⟨hb1, ?_⟩
        rw [padAt_zero colB hzB _ hb1, ← hpB, padAt_zero colB hzB _ h0]
      have hstepA0 : uidAt colA aD = 0 →
          uidAt colA (aD - 1) = 0 ∧ padAt colA (aD - 1) = padAt colA δ := by
        intro h0
        have ha1 : uidAt colA (aD - 1) = 0 :=
          zero_below colA hcA aD (by rw [hlenA]; omega) h0 (aD - 1) (by omega)
        refine ⟨ha1, ?_⟩
        rw [padAt_zero colA hzA _ ha1, ← hpA, padAt_zero colA hzA _ h0]
      -- if `b`'s uid matches `a`'s next uid, both must be zero
      have hbU0_of_c2 : uidAt colB bD = uidAt colA (aD - 1) →
          uidAt colB bD = 0 := by
        intro hc2
        rcases Nat.eq_zero_or_pos (aD - 1) with h0 | hpos1
        · rw [hc2, h0]
          rfl
        · exact hc2 ▸ hCross (aD - 1) bD hpos1 (by omega) (by omega) hbδ
            hc2.symm
      by_cases c1 : uidAt colA aD = uidAt colA (aD - 1)
      · by_cases c2 : uidAt colB bD = uidAt colA (aD - 1)
        · -- branches 1 and 2 both fire; the result is the same whether
          -- branch 3 fires or not
          have hb0 := hbU0_of_c2 c2
          obtain ⟨hbn0, hpB'⟩ := hstepB0 hb0
          have hrec := ih (aD - 1) (bD - 1) (by omega) (by omega)
            (hstepA c1) hpB'
          by_cases c3 : uidAt colA (aD - 1) = uidAt colB (bD - 1)
          · simpa [c1, c2, c3] using hrec
          · simpa [c1, c2, c3] using hrec
        · by_cases c3 : uidAt colA (aD - 1) = uidAt colB bD
          · exact absurd c3.symm c2
          · have hrec := ih (aD - 1) bD (by omega) hbδ (hstepA c1) hpB
            simpa [c1, c2, c3] using hrec
      · by_cases c2 : uidAt colB bD = uidAt colA (aD - 1)
        · have hb0 := hbU0_of_c2 c2
          obtain ⟨hbn0, hpB'⟩ := hstepB0 hb0
          have haNU0 : uidAt colA (aD - 1) = 0 := by rw [← c2]; exact hb0
          by_cases c3 : uidAt colA aD = uidAt colB (bD - 1)
          · exfalso
            apply c1
            rw [c3, hbn0, haNU0]
          · have hrec := ih aD (bD - 1) haδ (by omega) hpA hpB'
            simpa [c1, c2, c3] using hrec
        · by_cases c3 : uidAt colA aD = uidAt colB bD
          · -- both tracked uids agree: they must be zero
            have ha0 : uidAt colA aD = 0 :=
              hCross aD bD (by omega) haδ (by omega) hbδ c3
            have hb0 : uidAt colB bD = 0 := by rw [← c3]; exact ha0
            obtain ⟨_, hpA'⟩ := hstepA0 ha0
            obtain ⟨_, hpB'⟩ := hstepB0 hb0
            have hrec := ih (aD - 1) (bD - 1) (by omega) (by omega) hpA' hpB'
            simpa [c1, c2, c3] using hrec
          · -- stuck: the loop ends here
            simp only [c1, c2, c3, if_neg, if_false]
            simpa [c1, c2, c3] using ⟨hpA, hpB⟩

/-- Phase 1 of the loop analysis: above the divergence depth the two
pointers descend in lockstep, and the final paddings are those at the
divergence depth. -/
theorem sbLoop_phase1 (tt : Timetable) (aIdx bIdx : ℕ) (colA colB : Column)
    (hA : tt.col aIdx = some colA) (hB : tt.col bIdx = some colB)
    (hlenA : colA.length = tt.maxDepth) (hlenB : colB.length = tt.maxDepth)
    (hcA : ColCells colA) (hcB : ColCells colB)
    (hzA : ColZeroPad colA) (hzB : ColZeroPad colB)
    (δ : ℕ) (hδ : δ ≤ tt.maxDepth)
    (hCross : ∀ j k, 1 ≤ j → j ≤ δ → 1 ≤ k → k ≤ δ →
      uidAt colA j = uidAt colB k → uidAt colA j = 0)
    (hAgree : ∀ m, δ < m → m ≤ tt.maxDepth → uidAt colA m = uidAt colB m) :
    ∀ fuel k, δ ≤ k → k ≤ tt.maxDepth → k ≤ fuel →
      padAt colA (sbLoop tt aIdx bIdx fuel k k
          (uidAt colA k) (uidAt colB k)).1 = padAt colA δ ∧
      padAt colB (sbLoop tt aIdx bIdx fuel k k
          (uidAt colA k) (uidAt colB k)).2 = padAt colB δ := by
  intro fuel
  induction fuel with
  | zero =>
      intro k hk1 hk2 hk3
      have hk : k = 0 := by omega
      have hδ0 : δ = 0 := by omega
      subst hk
      subst hδ0
      exact ⟨rfl, rfl⟩
  | succ fuel ih =>
      intro k hk1 hk2 hk3
      rcases Nat.eq_or_lt_of_le hk1 with heq | hlt
      · -- at the divergence depth: phase 2 takes over
        exact sbLoop_phase2 tt aIdx bIdx colA colB hA hB hlenA hlenB hcA hcB
          hzA hzB δ hδ hCross (fuel + 1) k k (by omega) (by omega)
          (by rw [heq]) (by rw [heq])
      · have hpos : 0 < k ∧ 0 < k := ⟨by omega, by omega⟩
        rw [sbLoop, if_pos hpos]
        simp only [getUid_bridge tt aIdx colA hA, getUid_bridge tt bIdx colB hB]
        have hu := hAgree k hlt hk2
        have hrec := ih (k - 1) (by omega) (by omega) (by omega)
        by_cases c1 : uidAt colA k = uidAt colA (k - 1)
        · have c2 : uidAt colB k = uidAt colA (k - 1) := by rw [← hu]; exact c1
          by_cases c3 : uidAt colA (k - 1) = uidAt colB (k - 1)
          · simpa [c1, c2, c3] using hrec
          · simpa [c1, c2, c3] using hrec
        · have c2 : ¬(uidAt colB k = uidAt colA (k - 1)) := by
            rw [← hu]; exact c1
          simpa [c1, c2, hu] using hrec

/-- The descent described by the specification: starting at
`maxDepth`, both pointers stay in lockstep and peel a level exactly
when the two uids at the current depth agree; the stopping depth is
the topmost depth at which the uids differ (0 when they never do). -/
def sbSpecStop (colA colB : Column) : ℕ → ℕ
  | 0 => 0
  | d + 1 =>
      if uidAt colA (d + 1) = uidAt colB (d + 1) then sbSpecStop colA colB d
      else d + 1

/-- Modelled on the specification's description of `spaceBetween`:
"Starting from both columns at `maxDepth`, descend depth-by-depth: at
each step move the pointer(s) whose uid equals the partner's current
uid (i.e. peel shared wraps); stop when neither can peel.  Return the
paddings at the stopping cells.  If either column is a Spacer, the
result is `(0, 0)`." -/
def spaceBetweenSpec (tt : Timetable) (aIdx bIdx : ℕ) : ℚ × ℚ :=
  if tt.isSpacer ⟨aIdx, tt.maxDepth⟩ || tt.isSpacer ⟨bIdx, tt.maxDepth⟩ then
    (0, 0)
  else
    let d := sbSpecStop ((tt.col aIdx).getD []) ((tt.col bIdx).getD [])
      tt.maxDepth
    (tt.getPadding ⟨aIdx, d⟩, tt.getPadding ⟨bIdx, d⟩)

theorem sbSpecStop_eq_findGreatest (colA colB : Column) (n : ℕ) :
    sbSpecStop colA colB n
      = Nat.findGreatest (fun d => uidAt colA d ≠ uidAt colB d) n := by
  induction n with
  | zero => rfl
  | succ n ih =>
      rw [sbSpecStop, Nat.findGreatest_succ]
      by_cases h : uidAt colA (n + 1) = uidAt colB (n + 1)
      · rw [if_pos h, if_neg (by simpa using h), ih]
      · rw [if_neg h, if_pos h]

theorem findGreatest_congr' (P Q : ℕ → Prop) [DecidablePred P] [DecidablePred Q]
    (h : ∀ n, P n ↔ Q n) :
    ∀ n, Nat.findGreatest P n = Nat.findGreatest Q n := by
  intro n
  induction n with
  | zero => rfl
  | succ n ih =>
      rw [Nat.findGreatest_succ, Nat.findGreatest_succ, ih]
      by_cases hp : P (n + 1)
      · rw [if_pos hp, if_pos ((h (n + 1)).mp hp)]
      · rw [if_neg hp, if_neg (fun hq => hp ((h (n + 1)).mpr hq))]

/-- The central law: on a timetable built by `fromLayoutTree`, for two
non-spacer columns, both the source's `spaceBetween` and the
specification's lockstep descent return the paddings of the two
columns at the divergence depth — the largest depth at which the two
columns' uids differ (0 when they agree everywhere). -/
theorem spaceBetween_laws (t : RTree) (aIdx bIdx : ℕ) (colA colB : Column)
    (hA : (Timetable.fromLayoutTree t).1.col aIdx = some colA)
    (hB : (Timetable.fromLayoutTree t).1.col bIdx = some colB) :
    (Timetable.fromLayoutTree t).1.spaceBetween aIdx bIdx
        = (padAt colA (Nat.findGreatest
            (fun d => uidAt colA d ≠ uidAt colB d)
            (Timetable.fromLayoutTree t).1.maxDepth),
          padAt colB (Nat.findGreatest
            (fun d => uidAt colA d ≠ uidAt colB d)
            (Timetable.fromLayoutTree t).1.maxDepth)) ∧
    spaceBetweenSpec (Timetable.fromLayoutTree t).1 aIdx bIdx
        = (padAt colA (Nat.findGreatest
            (fun d => uidAt colA d ≠ uidAt colB d)
            (Timetable.fromLayoutTree t).1.maxDepth),
          padAt colB (Nat.findGreatest
            (fun d => uidAt colA d ≠ uidAt colB d)
            (Timetable.fromLayoutTree t).1.maxDepth)) := by
  obtain ⟨hmd, hper, hpair⟩ := table_spec t
  obtain ⟨hlenA, hcA, hzA, _⟩ := hper aIdx colA hA
  obtain ⟨hlenB, hcB, hzB, _⟩ := hper bIdx colB hB
  obtain ⟨hδ, hDis, hAgree'⟩ := Nat.findGreatest_eq_iff.1
    (rfl : Nat.findGreatest (fun d => uidAt colA d ≠ uidAt colB d)
      (Timetable.fromLayoutTree t).1.maxDepth = _)
  have hAgree : ∀ m,
      Nat.findGreatest (fun d => uidAt colA d ≠ uidAt colB d)
        (Timetable.fromLayoutTree t).1.maxDepth < m →
      m ≤ (Timetable.fromLayoutTree t).1.maxDepth →
      uidAt colA m = uidAt colB m := by
    intro m h1 h2
    have := hAgree' h1 h2
    simpa using this
  have hCross : ∀ j k, 1 ≤ j →
      j ≤ Nat.findGreatest (fun d => uidAt colA d ≠ uidAt colB d)
        (Timetable.fromLayoutTree t).1.maxDepth → 1 ≤ k →
      k ≤ Nat.findGreatest (fun d => uidAt colA d ≠ uidAt colB d)
        (Timetable.fromLayoutTree t).1.maxDepth →
      uidAt colA j = uidAt colB k → uidAt colA j = 0 := by
    intro j k hj1 hjδ hk1 hkδ hequ
    by_cases hij : aIdx = bIdx
    · -- same column: the divergence depth is 0, so this is vacuous
      exfalso
      subst hij
      rw [hA] at hB
      have hcc : colA = colB := Option.some_inj.mp hB
      subst hcc
      have h0 : Nat.findGreatest (fun d => uidAt colA d ≠ uidAt colA d)
          (Timetable.fromLayoutTree t).1.maxDepth = 0 :=
        Nat.findGreatest_eq_zero_iff.mpr (by intro n _ _ h; exact h rfl)
      omega
    · by_contra h0
      have := hpair aIdx bIdx colA colB hij hA hB j k hj1 (by omega) hk1
        (by omega) hequ h0
        (Nat.findGreatest (fun d => uidAt colA d ≠ uidAt colB d)
          (Timetable.fromLayoutTree t).1.maxDepth)
        (by omega) hδ
      exact hDis (by omega) this
  have hsA : (Timetable.fromLayoutTree t).1.isSpacer
      ⟨aIdx, (Timetable.fromLayoutTree t).1.maxDepth⟩ = false := by
    rw [Timetable.isSpacer]
    show ((Timetable.fromLayoutTree t).1.col aIdx).isNone = false
    rw [hA]
    rfl
  have hsB : (Timetable.fromLayoutTree t).1.isSpacer
      ⟨bIdx, (Timetable.fromLayoutTree t).1.maxDepth⟩ = false := by
    rw [Timetable.isSpacer]
    show ((Timetable.fromLayoutTree t).1.col bIdx).isNone = false
    rw [hB]
    rfl
  constructor
  · rw [Timetable.spaceBetween, hsA, hsB]
    simp only [Bool.or_self, Bool.false_eq_true, if_false,
      getUid_bridge _ _ _ hA, getUid_bridge _ _ _ hB,
      getPadding_bridge _ _ _ hA, getPadding_bridge _ _ _ hB]
    have := sbLoop_phase1 (Timetable.fromLayoutTree t).1 aIdx bIdx colA colB
      hA hB hlenA hlenB hcA hcB hzA hzB _ hδ hCross hAgree
      (2 * (Timetable.fromLayoutTree t).1.maxDepth)
      (Timetable.fromLayoutTree t).1.maxDepth (Nat.findGreatest_le _)
      (le_refl _) (by omega)
    rw [Prod.ext_iff]
    exact ⟨this.1, this.2⟩
  · rw [spaceBetweenSpec, hsA, hsB]
    simp only [Bool.or_self, Bool.false_eq_true, if_false]
    have hgA : ((Timetable.fromLayoutTree t).1.col aIdx).getD [] = colA := by
      rw [hA]; rfl
    have hgB : ((Timetable.fromLayoutTree t).1.col bIdx).getD [] = colB := by
      rw [hB]; rfl
    rw [hgA, hgB, sbSpecStop_eq_findGreatest,
      getPadding_bridge _ _ _ hA, getPadding_bridge _ _ _ hB]

/-! ### C2: fragmentsInfo document order and line numbers -/

theorem nlCount_append (xs ys : List FlatItem) :
    nlCount (xs ++ ys) = nlCount xs + nlCount ys := by
  induction xs with
  | nil => simp [nlCount]
  | cons x rest ih =>
      cases x with
      | nl =>
          simp only [List.cons_append, nlCount, List.append_eq, ih]
          omega
      | atomI t i =>
          simp only [List.cons_append, nlCount, List.append_eq, ih]
      | spacerI =>
          simp only [List.cons_append, nlCount, List.append_eq, ih]

theorem fragsOfItems_append (lookup : ℕ → Rect) (xs ys : List FlatItem)
    (ln : ℕ) :
    fragsOfItems lookup (xs ++ ys) ln
      = fragsOfItems lookup xs ln
          ++ fragsOfItems lookup ys (ln + nlCount xs) := by
  induction xs generalizing ln with
  | nil => simp [fragsOfItems, nlCount]
  | cons x rest ih =>
      cases x with
      | nl =>
          show fragsOfItems lookup (rest ++ ys) (ln + 1)
            = fragsOfItems lookup rest (ln + 1)
                ++ fragsOfItems lookup ys (ln + (nlCount rest + 1))
          rw [ih]
          congr 2
          omega
      | atomI t i =>
          show (⟨t, lookup i, ln⟩ : FragmentInfo)
                :: fragsOfItems lookup (rest ++ ys) ln
            = (⟨t, lookup i, ln⟩ : FragmentInfo)
                :: (fragsOfItems lookup rest ln
                    ++ fragsOfItems lookup ys (ln + nlCount rest))
          rw [ih]
      | spacerI => exact ih ln

theorem fragmentsInfoGo_eq (lookup : ℕ → Rect) (t : RTreeR) (ln : ℕ) :
    fragmentsInfoGo lookup t ln
      = (fragsOfItems lookup (flattenItems t) ln,
          ln + nlCount (flattenItems t)) := by
  induction t generalizing ln with
  | atom t r ref => simp [fragmentsInfoGo, flattenItems, fragsOfItems, nlCount]
  | spacer t w ref => simp [fragmentsInfoGo, flattenItems, fragsOfItems, nlCount]
  | joinH l r reg ihl ihr =>
      simp only [fragmentsInfoGo, flattenItems, ihl, ihr]
      rw [Prod.ext_iff]
      constructor
      · rw [fragsOfItems_append]
      · simp only [nlCount_append]
        omega
  | joinV l r reg ihl ihr =>
      simp only [fragmentsInfoGo, flattenItems, ihl, ihr]
      rw [Prod.ext_iff]
      constructor
      · rw [fragsOfItems_append]
        rfl
      · show ln + nlCount (flattenItems l) + 1 + nlCount (flattenItems r)
          = ln + nlCount (flattenItems l ++ .nl :: flattenItems r)
        rw [nlCount_append]
        show _ = ln + (nlCount (flattenItems l) + (nlCount (flattenItems r) + 1))
        omega
  | wrap c p s u reg ih => simp [fragmentsInfoGo, flattenItems, ih]

theorem map_text_fragsOfItems (lookup : ℕ → Rect) (xs : List FlatItem)
    (ln : ℕ) :
    (fragsOfItems lookup xs ln).map FragmentInfo.text = itemTexts xs := by
  induction xs generalizing ln with
  | nil => rfl
  | cons x rest ih => cases x <;> simp [fragsOfItems, itemTexts, ih]

theorem itemTexts_append (xs ys : List FlatItem) :
    itemTexts (xs ++ ys) = itemTexts xs ++ itemTexts ys := by
  induction xs with
  | nil => rfl
  | cons x rest ih => cases x <;> simp [itemTexts, ih]

theorem itemTexts_ttGo (t : RTree) (n : ℕ) (cols : List (Option Column)) :
    itemTexts (flattenItems (ttGo t n cols).tree) = atomTextsR t := by
  induction t generalizing n cols with
  | atom t r => rfl
  | spacer t w => rfl
  | joinH l r ihl ihr =>
      simp only [ttGo]
      simp only [flattenItems, atomTextsR, itemTexts_append, ihl, ihr]
  | joinV l r ihl ihr =>
      simp only [ttGo]
      simp only [flattenItems, atomTextsR, itemTexts_append, itemTexts,
        ihl, ihr]
  | wrap c p s ih =>
      simp only [ttGo]
      simp only [flattenItems, atomTextsR, ih]

theorem fragsOfItems_lineNo_ge (lookup : ℕ → Rect) (xs : List FlatItem)
    (ln : ℕ) :
    ∀ f ∈ fragsOfItems lookup xs ln, ln ≤ f.lineNo := by
  induction xs generalizing ln with
  | nil => intro f hf; simp [fragsOfItems] at hf
  | cons x rest ih =>
      cases x with
      | nl =>
          intro f hf
          have := ih (ln + 1) f hf
          omega
      | atomI t i =>
          intro f hf
          rcases List.mem_cons.mp hf with hf | hf
          · subst hf; exact le_refl _
          · exact ih ln f hf
      | spacerI => exact ih ln

theorem fragsOfItems_chain (lookup : ℕ → Rect) (xs : List FlatItem) (ln : ℕ) :
    List.Chain' (fun p q : FragmentInfo => p.lineNo ≤ q.lineNo)
      (fragsOfItems lookup xs ln) := by
  induction xs generalizing ln with
  | nil => simp [fragsOfItems]
  | cons x rest ih =>
      cases x with
      | nl => exact ih (ln + 1)
      | spacerI => exact ih ln
      | atomI t i =>
          refine List.chain'_cons'.mpr ⟨?_, ih ln⟩
          intro y hy
          exact fragsOfItems_lineNo_ge lookup rest ln y
            (List.mem_of_mem_head? hy)

/-- C2: for every input layout tree (excluding the top-level bare
Newline, an assertion failure in the source) and every atom-free empty
sentinel, reassociation succeeds and, on the annotated tree built by
`Timetable.fromLayoutTree`, `fragmentsInfo` enumerates exactly the
input tree's Atoms in left-to-right depth-first document order;
moreover the fragment list equals the fragments determined by the
reassociated tree's left-to-right flattening — each atom's `lineNo` is
the number of Newlines (JoinVs) before it, so the counter increments
exactly once at each Newline — and consequently the `lineNo` sequence
is non-decreasing. -/
theorem C2_fragmentsInfo_document_order (lookup : ℕ → Rect)
    (empty : RTree) (lt : ALayoutTree)
    (hne : lt ≠ .newline) (hA : atomTextsR empty = []) :
    ∃ t, reassocLayoutTree empty lt = some t ∧
      (fragmentsInfo lookup (Timetable.fromLayoutTree t).2).map
          FragmentInfo.text = atomTexts lt ∧
      fragmentsInfo lookup (Timetable.fromLayoutTree t).2
        = fragsOfItems lookup
            (flattenItems (Timetable.fromLayoutTree t).2) 0 ∧
      List.Chain' (fun p q => p.lineNo ≤ q.lineNo)
        (fragmentsInfo lookup (Timetable.fromLayoutTree t).2) := by
  obtain ⟨t, ht, _, hAt⟩ :=
    (reassoc_main empty (sizeOf lt)).1 lt (le_refl _) hne
  have htree : (Timetable.fromLayoutTree t).2 = (ttGo t 1 []).tree := rfl
  have h2 : fragmentsInfo lookup (Timetable.fromLayoutTree t).2
      = fragsOfItems lookup (flattenItems (Timetable.fromLayoutTree t).2) 0 := by
    rw [fragmentsInfo, fragmentsInfoGo_eq]
  refine ⟨t, ht, ?_, h2, ?_⟩
  · rw [h2, map_text_fragsOfItems, htree, itemTexts_ttGo]
    exact hAt hA
  · rw [h2]
    exact fragsOfItems_chain lookup _ 0

/-- Witness for C2: a concrete sentinel and a concrete tree containing
a newline between two atoms. -/
theorem C2_fragmentsInfo_document_order_witness :
    (ALayoutTree.node 0 none
        [.atom "a" ⟨0, 1, 0, 1⟩, .newline, .atom "b" ⟨0, 1, 0, 1⟩]
      ≠ .newline) ∧
    atomTextsR (RTree.spacer "" 0) = [] ∧
    ∃ t, reassocLayoutTree (RTree.spacer "" 0)
        (ALayoutTree.node 0 none
          [.atom "a" ⟨0, 1, 0, 1⟩, .newline, .atom "b" ⟨0, 1, 0, 1⟩])
        = some t ∧
      (fragmentsInfo (fun _ => (⟨0, 0, 0, 0⟩ : Rect)) (Timetable.fromLayoutTree t).2).map
          FragmentInfo.text
        = atomTexts (ALayoutTree.node 0 none
            [.atom "a" ⟨0, 1, 0, 1⟩, .newline, .atom "b" ⟨0, 1, 0, 1⟩]) ∧
      fragmentsInfo (fun _ => (⟨0, 0, 0, 0⟩ : Rect)) (Timetable.fromLayoutTree t).2
        = fragsOfItems (fun _ => (⟨0, 0, 0, 0⟩ : Rect))
            (flattenItems (Timetable.fromLayoutTree t).2) 0 ∧
      List.Chain' (fun p q => p.lineNo ≤ q.lineNo)
        (fragmentsInfo (fun _ => (⟨0, 0, 0, 0⟩ : Rect)) (Timetable.fromLayoutTree t).2) :=
  ⟨by simp, rfl,
    C2_fragmentsInfo_document_order (fun _ => (⟨0, 0, 0, 0⟩ : Rect)) (RTree.spacer "" 0)
      (ALayoutTree.node 0 none
        [.atom "a" ⟨0, 1, 0, 1⟩, .newline, .atom "b" ⟨0, 1, 0, 1⟩])
      (by simp) rfl⟩

/-- C1: on every timetable built by `Timetable.fromLayoutTree`, for
every pair of non-spacer fragment columns, `spaceBetween` computes
exactly the depth-by-depth peeling descent described by the
specification (`spaceBetweenSpec`), and the returned pair is the pair
of cumulative paddings of the two columns at the first divergence —
the greatest depth at which the two columns' wrap uids disagree (the
base, depth 0, when they never disagree), so that shared enclosing
wraps are peeled exactly. -/
theorem C1_spaceBetween_descent_and_first_divergence
    (t : RTree) (aIdx bIdx : ℕ) (colA colB : Column)
    (hA : (Timetable.fromLayoutTree t).1.col aIdx = some colA)
    (hB : (Timetable.fromLayoutTree t).1.col bIdx = some colB) :
    (Timetable.fromLayoutTree t).1.spaceBetween aIdx bIdx
        = spaceBetweenSpec (Timetable.fromLayoutTree t).1 aIdx bIdx ∧
    (Timetable.fromLayoutTree t).1.spaceBetween aIdx bIdx
        = (padAt colA (Nat.findGreatest
            (fun d => uidAt colA d ≠ uidAt colB d)
            (Timetable.fromLayoutTree t).1.maxDepth),
          padAt colB (Nat.findGreatest
            (fun d => uidAt colA d ≠ uidAt colB d)
            (Timetable.fromLayoutTree t).1.maxDepth)) := by
  obtain ⟨h1, h2⟩ := spaceBetween_laws t aIdx bIdx colA colB hA hB
  exact ⟨h1.trans h2.symm, h1⟩

/-- A concrete rectangle for witness layouts. -/
def rW : Rect := ⟨0, 0, 0, 0⟩

/-- A concrete layout tree: a wrap of padding 5 around a horizontal
join of (a wrap of padding 3 around an atom) and a second atom. -/
def tW : RTree :=
  .wrap (.joinH (.wrap (.atom "a" rW) 3 none) (.atom "b" rW)) 5 none

/-- The first column the walk builds for `tW`: inner wrap uid 2 with
cumulative padding 3, then outer wrap uid 1 with cumulative padding
8. -/
def cW0 : Column := [⟨2, 3⟩, ⟨1, 8⟩]

/-- The second column the walk builds for `tW`: a synthetic fill of
the base cell, then the outer wrap uid 1 with cumulative padding 5. -/
def cW1 : Column := [⟨0, 0⟩, ⟨1, 5⟩]

/-- Witness for C1 at the concrete tree `tW`. -/
theorem C1_spaceBetween_descent_and_first_divergence_witness :
    ((Timetable.fromLayoutTree tW).1.col 0 = some cW0 ∧
      (Timetable.fromLayoutTree tW).1.col 1 = some cW1) ∧
    ((Timetable.fromLayoutTree tW).1.spaceBetween 0 1
        = spaceBetweenSpec (Timetable.fromLayoutTree tW).1 0 1 ∧
      (Timetable.fromLayoutTree tW).1.spaceBetween 0 1
        = (padAt cW0 (Nat.findGreatest
            (fun d => uidAt cW0 d ≠ uidAt cW1 d)
            (Timetable.fromLayoutTree tW).1.maxDepth),
          padAt cW1 (Nat.findGreatest
            (fun d => uidAt cW0 d ≠ uidAt cW1 d)
            (Timetable.fromLayoutTree tW).1.maxDepth))) :=
  ⟨⟨by with_unfolding_all rfl, by with_unfolding_all rfl⟩,
    C1_spaceBetween_descent_and_first_divergence tW 0 1 cW0 cW1
      (by with_unfolding_all rfl) (by with_unfolding_all rfl)⟩

/-- C4: in every timetable built by `Timetable.fromLayoutTree`, every
non-spacer column has exactly `maxDepth` cells; within a column the
cumulative padding is monotonically non-decreasing with depth (given
the data-model invariant that wrap paddings are non-negative), and
each cell's uid is either equal to the uid one depth below (synthetic
fill) or a nonzero wrap uid that is strictly new for the column. -/
theorem C4_column_invariants (t : RTree) (idx : ℕ) (col : Column)
    (hcol : (Timetable.fromLayoutTree t).1.col idx = some col)
    (hpn : padsNonneg t) :
    col.length = (Timetable.fromLayoutTree t).1.maxDepth ∧
    (∀ d, d + 1 ≤ col.length → padAt col d ≤ padAt col (d + 1)) ∧
    (∀ d, d + 1 ≤ col.length →
      uidAt col (d + 1) = uidAt col d ∨
        (uidAt col (d + 1) ≠ 0 ∧
          ∀ m, m ≤ d → uidAt col (d + 1) ≠ uidAt col m)) := by
  obtain ⟨_, hper, _⟩ := table_spec t
  obtain ⟨hlen, hcells, _, hmono⟩ := hper idx col hcol
  refine ⟨hlen, hmono hpn, ?_⟩
  intro d hd
  rcases hcells d hd with heq | ⟨hne, hnew⟩
  · exact Or.inl (congrArg Cell.uid heq)
  · exact Or.inr ⟨hne, hnew⟩

/-- Witness for C4 at the concrete tree `tW` and its first column. -/
theorem C4_column_invariants_witness :
    ((Timetable.fromLayoutTree tW).1.col 0 = some cW0 ∧ padsNonneg tW) ∧
    (cW0.length = (Timetable.fromLayoutTree tW).1.maxDepth ∧
      (∀ d, d + 1 ≤ cW0.length → padAt cW0 d ≤ padAt cW0 (d + 1)) ∧
      (∀ d, d + 1 ≤ cW0.length →
        uidAt cW0 (d + 1) = uidAt cW0 d ∨
          (uidAt cW0 (d + 1) ≠ 0 ∧
            ∀ m, m ≤ d → uidAt cW0 (d + 1) ≠ uidAt cW0 m))) :=
  ⟨⟨by with_unfolding_all rfl, by norm_num [tW, padsNonneg]⟩,
    C4_column_invariants tW 0 cW0 (by with_unfolding_all rfl)
      (by norm_num [tW, padsNonneg])⟩

/-! ### Paths and rectilinear offsetting (polygon.ts) -/

/-- A path is a list of points, implicitly closed (`polygon.ts`
`Path`). -/
abbrev Path := List Point

/-- The counter-clockwise boundary path of a rectangle (`polygon.ts`
`pathOfRect`). -/
def pathOfRect (r : Rect) : Path :=
  [⟨r.left, r.top⟩, ⟨r.left, r.bottom⟩, ⟨r.right, r.bottom⟩, ⟨r.right, r.top⟩]

/-- The decision returned by an `eachTripleInPath` callback
(`polygon.ts` `EachTripleIterationDecision`); `delete` carries the
`deletePrev`, `deleteCurt` and `deleteNext` flags. -/
inductive TripleDecision where
  | keep
  | delete (deletePrev deleteCurt deleteNext : Bool)
  | stop
deriving DecidableEq, Repr

/-- Remove the elements of `path` at the given indices (already sorted
in descending order; `splice(idx, 1)` removes nothing when the index
is out of range, as does `List.eraseIdx`), decrementing the loop index
once for each removal below it (the `Delete` branch of
`eachTripleInPath`). -/
def spliceLoop : List ℕ → Path → ℕ → Path × ℕ
  | [], path, i => (path, i)
  | idx :: rest, path, i =>
      spliceLoop rest (path.eraseIdx idx) (if idx < i then i - 1 else i)

/-- The indices deleted by a `delete` decision, in the order the
source builds the list (next, curt, prev) and then sorted descending
(the JS sort with comparator `(a, b) => b - a`; JS sorts are
stable, as is `mergeSort`). -/
def deleteIdxs (dp dc dn : Bool) (i l : ℕ) : List ℕ :=
  (((if dn then [(i + 2) % l] else []) ++ (if dc then [(i + 1) % l] else []))
      ++ (if dp then [i] else [])).mergeSort (fun a b => decide (b ≤ a))

/-- The downward loop of `eachTripleInPath`, with the callback's
closure state made explicit.  The third argument encodes the loop
index plus one, so `0` means the loop has ended; the second is fuel,
one unit per iteration (the encoded index strictly decreases every
iteration, so `path.length` units always suffice). -/
def eachTripleGo (f : Point → Point → Point → σ → TripleDecision × σ) :
    ℕ → ℕ → Path → σ → Path × σ
  | 0, _, path, s => (path, s)
  | _ + 1, 0, path, s => (path, s)
  | fuel + 1, i + 1, path, s =>
      let l := path.length
      let prev := path.getD i ⟨0, 0⟩
      let curt := path.getD ((i + 1) % l) ⟨0, 0⟩
      let next := path.getD ((i + 2) % l) ⟨0, 0⟩
      match f prev curt next s with
      | (.keep, s') => eachTripleGo f fuel i path s'
      | (.stop, s') => (path, s')
      | (.delete dp dc dn, s') =>
          let r := spliceLoop (deleteIdxs dp dc dn i l) path i
          eachTripleGo f fuel r.2 r.1 s'

/-- `polygon.ts` `eachTripleInPath`: paths of length ≤ 2 are returned
unchanged, otherwise the loop starts at index `path.length - 1`. -/
def eachTripleInPath (f : Point → Point → Point → σ → TripleDecision × σ)
    (path : Path) (s : σ) : Path × σ :=
  if path.length ≤ 2 then (path, s)
  else eachTripleGo f path.length path.length path s

/-- `polygon.ts` `isTurnCW`. -/
def isTurnCW (a b c : Point) : Prop :=
  0 < cross (subPoints b a) (subPoints c b)

instance (a b c : Point) : Decidable (isTurnCW a b c) :=
  inferInstanceAs (Decidable (0 < cross (subPoints b a) (subPoints c b)))

/-- `x / Math.abs(x)` as the source writes the bisector normalisation
(for x ≠ 0 this is the sign of x). -/
def sgnQ (x : ℚ) : ℚ := x / |x|

/-- The point pushed for one corner by `offsetPath`'s callback. -/
def offsetCorner (amt : ℚ) (a b c : Point) : Point :=
  let ab := subPoints b a
  let cb := subPoints b c
  let s : ℚ := if isTurnCW a b c then -1 else 1
  ⟨b.x + sgnQ (ab.dx + cb.dx) * amt * s, b.y + sgnQ (ab.dy + cb.dy) * amt * s⟩

/-- `polygon.ts` `offsetPath`: walk the triples pushing one offset
corner per visited triple, then reverse the accumulated list. -/
def offsetPath (amt : ℚ) (path : Path) : Path :=
  (eachTripleInPath
      (fun a b c out => (.keep, out ++ [offsetCorner amt a b c]))
      path []).2.reverse

theorem eachTripleGo_offset (amt : ℚ) (path : Path) :
    ∀ e fuel, e ≤ fuel → ∀ out,
      eachTripleGo
          (fun a b c out => (.keep, out ++ [offsetCorner amt a b c]))
          fuel e path out
        = (path, out ++ ((List.range e).reverse.map (fun i =>
            offsetCorner amt (path.getD i ⟨0, 0⟩)
              (path.getD ((i + 1) % path.length) ⟨0, 0⟩)
              (path.getD ((i + 2) % path.length) ⟨0, 0⟩)))) := by
  intro e
  induction e with
  | zero =>
      intro fuel hf out
      cases fuel <;> simp [eachTripleGo]
  | succ i ih =>
      intro fuel hf out
      match fuel, hf with
      | fuel + 1, hf =>
          show eachTripleGo _ fuel i path
              (out ++ [offsetCorner amt (path.getD i ⟨0, 0⟩)
                (path.getD ((i + 1) % path.length) ⟨0, 0⟩)
                (path.getD ((i + 2) % path.length) ⟨0, 0⟩)]) = _
          rw [ih fuel (by omega)]
          simp [List.range_succ]

theorem offsetPath_eq_map (amt : ℚ) (path : Path) (h3 : 3 ≤ path.length) :
    offsetPath amt path
      = (List.range path.length).map (fun i =>
          offsetCorner amt (path.getD i ⟨0, 0⟩)
            (path.getD ((i + 1) % path.length) ⟨0, 0⟩)
            (path.getD ((i + 2) % path.length) ⟨0, 0⟩)) := by
  rw [offsetPath, eachTripleInPath, if_neg (by omega)]
  rw [eachTripleGo_offset amt path path.length path.length (le_refl _) []]
  simp [List.map_reverse]

/-- The i-th edge vector of an implicitly closed path (indices taken
cyclically). -/
def edgeVec (path : Path) (i : ℕ) : Vec :=
  subPoints (path.getD ((i + 1) % path.length) ⟨0, 0⟩)
    (path.getD (i % path.length) ⟨0, 0⟩)

/-- A horizontal nonzero vector. -/
def IsHorz (v : Vec) : Prop := v.dx ≠ 0 ∧ v.dy = 0

/-- A vertical nonzero vector. -/
def IsVert (v : Vec) : Prop := v.dx = 0 ∧ v.dy ≠ 0

instance (v : Vec) : Decidable (IsHorz v) :=
  inferInstanceAs (Decidable (v.dx ≠ 0 ∧ v.dy = 0))

instance (v : Vec) : Decidable (IsVert v) :=
  inferInstanceAs (Decidable (v.dx = 0 ∧ v.dy ≠ 0))

/-- A proper rectilinear closed path: at least four corners, every
edge axis-aligned and of nonzero length, consecutive edges alternating
between horizontal and vertical. -/
def ProperRecti (path : Path) : Prop :=
  4 ≤ path.length ∧
  ∀ i < path.length,
    (IsHorz (edgeVec path i) ∨ IsVert (edgeVec path i)) ∧
    (IsHorz (edgeVec path i) → IsVert (edgeVec path ((i + 1) % path.length))) ∧
    (IsVert (edgeVec path i) → IsHorz (edgeVec path ((i + 1) % path.length)))

instance (p : Path) : Decidable (ProperRecti p) :=
  inferInstanceAs (Decidable (_ ∧ ∀ i < p.length, _ ∧ _ ∧ _))

theorem edgeVec_congr (p : Path) (i j : ℕ)
    (h : i % p.length = j % p.length) : edgeVec p i = edgeVec p j := by
  have h1 : (i + 1) % p.length = (j + 1) % p.length := by
    rw [Nat.add_mod i, Nat.add_mod j, h]
  rw [edgeVec, edgeVec, h, h1]

/-- The unbounded form of `ProperRecti`'s alternation (indices
cyclic). -/
theorem properRecti_all (p : Path) (hp : ProperRecti p) : ∀ i,
    (IsHorz (edgeVec p i) ∨ IsVert (edgeVec p i)) ∧
    (IsHorz (edgeVec p i) → IsVert (edgeVec p (i + 1))) ∧
    (IsVert (edgeVec p i) → IsHorz (edgeVec p (i + 1))) := by
  intro i
  have hl : 0 < p.length := by have := hp.1; omega
  have hmem : i % p.length < p.length := Nat.mod_lt _ hl
  obtain ⟨h1, h2, h3⟩ := hp.2 (i % p.length) hmem
  have he : edgeVec p i = edgeVec p (i % p.length) :=
    edgeVec_congr p i (i % p.length) (by simp)
  have he1 : edgeVec p (i + 1) = edgeVec p ((i % p.length + 1) % p.length) :=
    edgeVec_congr p (i + 1) ((i % p.length + 1) % p.length)
      (by conv_lhs => rw [Nat.add_mod i]
          simp)
  rw [he, he1]
  exact ⟨h1, h2, h3⟩

theorem sgnQ_pos (x : ℚ) (h : 0 < x) : sgnQ x = 1 := by
  rw [sgnQ, abs_of_pos h, div_self (ne_of_gt h)]

theorem sgnQ_neg (x : ℚ) (h : x < 0) : sgnQ x = -1 := by
  rw [sgnQ, abs_of_neg h, div_neg, div_self (ne_of_lt h)]

/-- `sgnQ` of a negated argument. -/
theorem sgnQ_neg_arg (x : ℚ) : sgnQ (-x) = -sgnQ x := by
  rw [sgnQ, sgnQ, abs_neg, neg_div]

/-- The uniform corner formula: at a proper rectilinear corner, the
pushed point is the middle point moved by
`amt * (-sgn(vertical dy), sgn(horizontal dx))`, where the two
components are read off the incoming edge `b - a` and the outgoing
edge `c - b`. -/
theorem offsetCorner_formula (amt : ℚ) (a b c : Point)
    (h : (IsHorz (subPoints b a) ∧ IsVert (subPoints c b)) ∨
         (IsVert (subPoints b a) ∧ IsHorz (subPoints c b))) :
    offsetCorner amt a b c
      = addVector b
          ⟨-(amt * sgnQ ((subPoints b a).dy + (subPoints c b).dy)),
            amt * sgnQ ((subPoints b a).dx + (subPoints c b).dx)⟩ := by
  rcases h with ⟨⟨hh, hh0⟩, ⟨hv0, hv⟩⟩ | ⟨⟨hh0, hh⟩, ⟨hv, hv0⟩⟩
  · -- incoming horizontal, outgoing vertical
    simp only [subPoints] at hh hh0 hv hv0 ⊢
    have r1 : b.x - c.x = 0 := by linarith
    have r2 : b.y - c.y = -(c.y - b.y) := by ring
    simp only [offsetCorner, subPoints, addVector]
    rw [Point.mk.injEq, hh0, hv0, r1, r2]
    simp only [add_zero, zero_add, sgnQ_neg_arg]
    rcases lt_or_gt_of_ne hh with hneg | hpos
    · rcases lt_or_gt_of_ne hv with vneg | vpos
      · have hcross : isTurnCW a b c := by
          rw [isTurnCW, cross]
          simp only [subPoints]
          nlinarith
        rw [if_pos hcross, sgnQ_neg _ hneg, sgnQ_neg _ vneg]
        constructor <;> ring
      · have hcross : ¬ isTurnCW a b c := by
          rw [isTurnCW, cross]
          simp only [subPoints]
          push_neg
          nlinarith
        rw [if_neg hcross, sgnQ_neg _ hneg, sgnQ_pos _ vpos]
        constructor <;> ring
    · rcases lt_or_gt_of_ne hv with vneg | vpos
      · have hcross : ¬ isTurnCW a b c := by
          rw [isTurnCW, cross]
          simp only [subPoints]
          push_neg
          nlinarith
        rw [if_neg hcross, sgnQ_pos _ hpos, sgnQ_neg _ vneg]
        constructor <;> ring
      · have hcross : isTurnCW a b c := by
          rw [isTurnCW, cross]
          simp only [subPoints]
          nlinarith
        rw [if_pos hcross, sgnQ_pos _ hpos, sgnQ_pos _ vpos]
        constructor <;> ring
  · -- incoming vertical, outgoing horizontal
    simp only [subPoints] at hh hh0 hv hv0 ⊢
    have r1 : b.y - c.y = 0 := by linarith
    have r2 : b.x - c.x = -(c.x - b.x) := by ring
    simp only [offsetCorner, subPoints, addVector]
    rw [Point.mk.injEq, hh0, hv0, r1, r2]
    simp only [add_zero, zero_add, sgnQ_neg_arg]
    rcases lt_or_gt_of_ne hh with uneg | upos
    · rcases lt_or_gt_of_ne hv with gneg | gpos
      · have hcross : ¬ isTurnCW a b c := by
          rw [isTurnCW, cross]
          simp only [subPoints]
          push_neg
          nlinarith
        rw [if_neg hcross, sgnQ_neg _ uneg, sgnQ_neg _ gneg]
        constructor <;> ring
      · have hcross : isTurnCW a b c := by
          rw [isTurnCW, cross]
          simp only [subPoints]
          nlinarith
        rw [if_pos hcross, sgnQ_neg _ uneg, sgnQ_pos _ gpos]
        constructor <;> ring
    · rcases lt_or_gt_of_ne hv with gneg | gpos
      · have hcross : isTurnCW a b c := by
          rw [isTurnCW, cross]
          simp only [subPoints]
          nlinarith
        rw [if_pos hcross, sgnQ_pos _ upos, sgnQ_neg _ gneg]
        constructor <;> ring
      · have hcross : ¬ isTurnCW a b c := by
          rw [isTurnCW, cross]
          simp only [subPoints]
          push_neg
          nlinarith
        rw [if_neg hcross, sgnQ_pos _ upos, sgnQ_pos _ gpos]
        constructor <;> ring

/-- The move applied to vertex `j` by one `offsetPath` pass (read off
the corner formula): the incoming edge is edge `j - 1` (cyclically),
the outgoing edge is edge `j`. -/
def vmove (amt : ℚ) (p : Path) (j : ℕ) : Vec :=
  ⟨-(amt * sgnQ ((edgeVec p (j + p.length - 1)).dy + (edgeVec p j).dy)),
    amt * sgnQ ((edgeVec p (j + p.length - 1)).dx + (edgeVec p j).dx)⟩

theorem vmove_congr (amt : ℚ) (p : Path) (j k : ℕ)
    (h : j % p.length = k % p.length) (hl : 1 ≤ p.length) :
    vmove amt p j = vmove amt p k := by
  have h1 : (j + p.length - 1) % p.length
      = (k + p.length - 1) % p.length := by
    have e1 : j + p.length - 1 = j + (p.length - 1) := by omega
    have e2 : k + p.length - 1 = k + (p.length - 1) := by omega
    rw [e1, e2, Nat.add_mod j, Nat.add_mod k, h]
  rw [vmove, vmove, edgeVec_congr p _ _ h1, edgeVec_congr p _ _ h]

theorem offsetPath_length (amt : ℚ) (p : Path) (h3 : 3 ≤ p.length) :
    (offsetPath amt p).length = p.length := by
  rw [offsetPath_eq_map amt p h3]
  simp

/-- Vertex formula for `offsetPath` on a proper rectilinear path: the
k-th output point is vertex `k + 1` of the input moved by its
`vmove`. -/
theorem offsetPath_getD (amt : ℚ) (p : Path) (hp : ProperRecti p)
    (k : ℕ) (hk : k < p.length) :
    (offsetPath amt p).getD k ⟨0, 0⟩
      = addVector (p.getD ((k + 1) % p.length) ⟨0, 0⟩)
          (vmove amt p ((k + 1) % p.length)) := by
  have h3 : 3 ≤ p.length := by have := hp.1; omega
  rw [offsetPath_eq_map amt p h3]
  have hk' : k < ((List.range p.length).map (fun i =>
      offsetCorner amt (p.getD i ⟨0, 0⟩)
        (p.getD ((i + 1) % p.length) ⟨0, 0⟩)
        (p.getD ((i + 2) % p.length) ⟨0, 0⟩))).length := by
    simpa using hk
  rw [List.getD_eq_getElem _ _ hk']
  simp only [List.getElem_map, List.getElem_range]
  have ea : subPoints (p.getD ((k + 1) % p.length) ⟨0, 0⟩)
      (p.getD k ⟨0, 0⟩) = edgeVec p k := by
    rw [edgeVec, Nat.mod_eq_of_lt hk]
  have eb : subPoints (p.getD ((k + 2) % p.length) ⟨0, 0⟩)
      (p.getD ((k + 1) % p.length) ⟨0, 0⟩) = edgeVec p (k + 1) := by
    rw [edgeVec]
  obtain ⟨hor, halt1, halt2⟩ := properRecti_all p hp k
  have hcase : (IsHorz (subPoints (p.getD ((k + 1) % p.length) ⟨0, 0⟩)
        (p.getD k ⟨0, 0⟩)) ∧
      IsVert (subPoints (p.getD ((k + 2) % p.length) ⟨0, 0⟩)
        (p.getD ((k + 1) % p.length) ⟨0, 0⟩))) ∨
      (IsVert (subPoints (p.getD ((k + 1) % p.length) ⟨0, 0⟩)
        (p.getD k ⟨0, 0⟩)) ∧
      IsHorz (subPoints (p.getD ((k + 2) % p.length) ⟨0, 0⟩)
        (p.getD ((k + 1) % p.length) ⟨0, 0⟩))) := by
    rw [ea, eb]
    rcases hor with hH | hV
    · exact Or.inl ⟨hH, halt1 hH⟩
    · exact Or.inr ⟨hV, halt2 hV⟩
  rw [offsetCorner_formula amt _ _ _ hcase, ea, eb]
  have hin : edgeVec p ((k + 1) % p.length + p.length - 1) = edgeVec p k := by
    refine edgeVec_congr p _ _ ?_
    have e1 : (k + 1) % p.length + p.length - 1
        = (k + 1) % p.length + (p.length - 1) := by omega
    rw [e1, Nat.mod_add_mod]
    have e2 : k + 1 + (p.length - 1) = k + p.length := by omega
    rw [e2, Nat.add_mod_right]
  have hout : edgeVec p ((k + 1) % p.length) = edgeVec p (k + 1) :=
    edgeVec_congr p _ _ (by simp)
  rw [vmove, hin, hout]

theorem sgnQ_zero : sgnQ 0 = 0 := by rw [sgnQ, abs_zero, zero_div]

theorem sgnQ_abs_le (x : ℚ) : |sgnQ x| ≤ 1 := by
  rcases lt_trichotomy x 0 with hneg | hzero | hpos
  · rw [sgnQ_neg _ hneg]; norm_num
  · rw [hzero, sgnQ_zero]; norm_num
  · rw [sgnQ_pos _ hpos]; norm_num

/-- Adding a perturbation smaller than `|h|` does not change the sign
of `h` and cannot reach zero. -/
theorem sgnQ_add_small (h δ : ℚ) (hlt : |δ| < |h|) :
    sgnQ (h + δ) = sgnQ h ∧ h + δ ≠ 0 := by
  have habs := abs_lt.mp hlt
  rcases lt_trichotomy h 0 with hneg | hzero | hpos
  · have hs : h + δ < 0 := by
      rw [abs_of_neg hneg] at habs
      linarith [habs.2]
    exact ⟨by rw [sgnQ_neg _ hs, sgnQ_neg _ hneg], ne_of_lt hs⟩
  · exfalso
    rw [hzero, abs_zero] at hlt
    linarith [abs_nonneg δ]
  · have hs : 0 < h + δ := by
      rw [abs_of_pos hpos] at habs
      linarith [habs.1]
    exact ⟨by rw [sgnQ_pos _ hs, sgnQ_pos _ hpos], ne_of_gt hs⟩

theorem subPoints_addVector (x y : Point) (v w : Vec) :
    subPoints (addVector x v) (addVector y w)
      = ⟨(subPoints x y).dx + (v.dx - w.dx),
          (subPoints x y).dy + (v.dy - w.dy)⟩ := by
  simp only [subPoints, addVector, Vec.mk.injEq]
  constructor <;> ring

/-- Edge formula for `offsetPath` on a proper rectilinear path: edge
`k` of the offset path is edge `k + 1` of the input corrected by the
difference of the two endpoint moves. -/
theorem offsetPath_edgeVec (amt : ℚ) (p : Path) (hp : ProperRecti p)
    (k : ℕ) (hk : k < p.length) :
    edgeVec (offsetPath amt p) k
      = ⟨(edgeVec p (k + 1)).dx
            + ((vmove amt p (k + 2)).dx - (vmove amt p (k + 1)).dx),
          (edgeVec p (k + 1)).dy
            + ((vmove amt p (k + 2)).dy - (vmove amt p (k + 1)).dy)⟩ := by
  have h3 : 3 ≤ p.length := by have := hp.1; omega
  have hlen := offsetPath_length amt p h3
  rw [edgeVec, hlen]
  have hk1 : (k + 1) % p.length < p.length := Nat.mod_lt _ (by omega)
  rw [Nat.mod_eq_of_lt hk]
  rw [offsetPath_getD amt p hp ((k + 1) % p.length) hk1,
    offsetPath_getD amt p hp k hk]
  have e1 : ((k + 1) % p.length + 1) % p.length = (k + 2) % p.length := by
    rw [Nat.mod_add_mod]
  rw [e1, subPoints_addVector]
  have e2 : subPoints (p.getD ((k + 2) % p.length) ⟨0, 0⟩)
      (p.getD ((k + 1) % p.length) ⟨0, 0⟩) = edgeVec p (k + 1) := by
    rw [edgeVec]
  rw [e2, vmove_congr amt p ((k + 2) % p.length) (k + 2) (by simp) (by omega),
    vmove_congr amt p ((k + 1) % p.length) (k + 1) (by simp) (by omega)]

theorem sign_transfer_core (amt h δp δm : ℚ)
    (hp : |δp| ≤ 1) (hm : |δm| ≤ 1) (hb : 2 * |amt| < |h|) :
    sgnQ (h + (-(amt * δp) - -(amt * δm))) = sgnQ h ∧
    h + (-(amt * δp) - -(amt * δm)) ≠ 0 := by
  have e : -(amt * δp) - -(amt * δm) = amt * (δm - δp) := by ring
  rw [e]
  refine sgnQ_add_small h _ ?_
  rw [abs_mul]
  have h2 : |δm - δp| ≤ 2 := by
    calc |δm - δp| ≤ |δm| + |δp| := abs_sub _ _
    _ ≤ 2 := by linarith
  nlinarith [abs_nonneg amt]

theorem sign_transfer_core' (amt h δp δm : ℚ)
    (hp : |δp| ≤ 1) (hm : |δm| ≤ 1) (hb : 2 * |amt| < |h|) :
    sgnQ (h + (amt * δp - amt * δm)) = sgnQ h ∧
    h + (amt * δp - amt * δm) ≠ 0 := by
  have e : amt * δp - amt * δm = amt * (δp - δm) := by ring
  rw [e]
  refine sgnQ_add_small h _ ?_
  rw [abs_mul]
  have h2 : |δp - δm| ≤ 2 := by
    calc |δp - δm| ≤ |δp| + |δm| := abs_sub _ _
    _ ≤ 2 := by linarith
  nlinarith [abs_nonneg amt]

/-- Each edge of the offset path keeps the axis and the direction sign
of the corresponding (shifted by one) edge of the input, provided
twice the offset amount is below every edge length. -/
theorem offsetPath_edge_signs (amt : ℚ) (p : Path) (hp : ProperRecti p)
    (hmin : ∀ i < p.length,
      2 * |amt| < |(edgeVec p i).dx| + |(edgeVec p i).dy|)
    (k : ℕ) (hk : k < p.length) :
    sgnQ (edgeVec (offsetPath amt p) k).dx = sgnQ (edgeVec p (k + 1)).dx ∧
    sgnQ (edgeVec (offsetPath amt p) k).dy = sgnQ (edgeVec p (k + 1)).dy ∧
    ((edgeVec (offsetPath amt p) k).dx = 0 ↔ (edgeVec p (k + 1)).dx = 0) ∧
    ((edgeVec (offsetPath amt p) k).dy = 0 ↔ (edgeVec p (k + 1)).dy = 0) := by
  rw [offsetPath_edgeVec amt p hp k hk]
  obtain ⟨horK, haltK1, haltK2⟩ := properRecti_all p hp k
  obtain ⟨horK1, halt11, halt12⟩ := properRecti_all p hp (k + 1)
  have hinA : edgeVec p (k + 1 + p.length - 1) = edgeVec p k := by
    refine edgeVec_congr p _ _ ?_
    have e : k + 1 + p.length - 1 = k + p.length := by omega
    rw [e, Nat.add_mod_right]
  have hinB : edgeVec p (k + 2 + p.length - 1) = edgeVec p (k + 1) := by
    refine edgeVec_congr p _ _ ?_
    have e : k + 2 + p.length - 1 = (k + 1) + p.length := by omega
    rw [e, Nat.add_mod_right]
  have hbound : 2 * |amt|
      < |(edgeVec p (k + 1)).dx| + |(edgeVec p (k + 1)).dy| := by
    have h3 : 3 ≤ p.length := by have := hp.1; omega
    have hkm : (k + 1) % p.length < p.length := Nat.mod_lt _ (by omega)
    have hm := hmin ((k + 1) % p.length) hkm
    rw [edgeVec_congr p ((k + 1) % p.length) (k + 1) (by simp)] at hm
    exact hm
  rcases horK1 with hH | hV
  · -- edge (k+1) horizontal; edges k and (k+2) vertical
    have hV2 : IsVert (edgeVec p (k + 2)) := halt11 hH
    have hVK : IsVert (edgeVec p k) := by
      rcases horK with hHK | hVK
      · exact absurd (haltK1 hHK).1 hH.1
      · exact hVK
    simp only [vmove, hinA, hinB]
    simp only [hH.2, hVK.1, hV2.1, add_zero, zero_add, sub_self]
    have hb : 2 * |amt| < |(edgeVec p (k + 1)).dx| := by
      rw [hH.2, abs_zero, add_zero] at hbound
      exact hbound
    obtain ⟨hsgn, hne⟩ := sign_transfer_core amt ((edgeVec p (k + 1)).dx)
      (sgnQ (edgeVec p (k + 2)).dy) (sgnQ (edgeVec p k).dy)
      (sgnQ_abs_le _) (sgnQ_abs_le _) hb
    refine ⟨hsgn, ?_, ?_, ?_⟩
    · trivial
    · exact iff_of_false hne hH.1
    · trivial
  · -- edge (k+1) vertical; edges k and (k+2) horizontal
    have hH2 : IsHorz (edgeVec p (k + 2)) := halt12 hV
    have hHK : IsHorz (edgeVec p k) := by
      rcases horK with hHK | hVK
      · exact hHK
      · exact absurd (haltK2 hVK).2 hV.2
    simp only [vmove, hinA, hinB]
    simp only [hV.1, hHK.2, hH2.2, add_zero, zero_add, sub_self, neg_sub_neg]
    have hb : 2 * |amt| < |(edgeVec p (k + 1)).dy| := by
      rw [hV.1, abs_zero, zero_add] at hbound
      exact hbound
    obtain ⟨hsgn, hne⟩ := sign_transfer_core' amt ((edgeVec p (k + 1)).dy)
      (sgnQ (edgeVec p (k + 2)).dx) (sgnQ (edgeVec p k).dx)
      (sgnQ_abs_le _) (sgnQ_abs_le _) hb
    refine ⟨?_, hsgn, ?_, ?_⟩
    · trivial
    · trivial
    · exact iff_of_false hne hV.2

/-- Offsetting preserves proper rectilinearity when twice the offset
amount is below every edge length. -/
theorem offsetPath_proper (amt : ℚ) (p : Path) (hp : ProperRecti p)
    (hmin : ∀ i < p.length,
      2 * |amt| < |(edgeVec p i).dx| + |(edgeVec p i).dy|) :
    ProperRecti (offsetPath amt p) := by
  have h3 : 3 ≤ p.length := by have := hp.1; omega
  have hlen := offsetPath_length amt p h3
  refine ⟨by rw [hlen]; exact hp.1, ?_⟩
  intro i hi
  rw [hlen] at hi ⊢
  obtain ⟨_, _, hzx, hzy⟩ := offsetPath_edge_signs amt p hp hmin i hi
  have hi1 : (i + 1) % p.length < p.length := Nat.mod_lt _ (by omega)
  obtain ⟨_, _, hzx1, hzy1⟩ := offsetPath_edge_signs amt p hp hmin
    ((i + 1) % p.length) hi1
  have hcongr : edgeVec p ((i + 1) % p.length + 1) = edgeVec p (i + 2) := by
    refine edgeVec_congr p _ _ ?_
    rw [Nat.mod_add_mod]
  rw [hcongr] at hzx1 hzy1
  have hHi : IsHorz (edgeVec (offsetPath amt p) i)
      ↔ IsHorz (edgeVec p (i + 1)) := and_congr (not_congr hzx) hzy
  have hVi : IsVert (edgeVec (offsetPath amt p) i)
      ↔ IsVert (edgeVec p (i + 1)) := and_congr hzx (not_congr hzy)
  have hH1 : IsHorz (edgeVec (offsetPath amt p) ((i + 1) % p.length))
      ↔ IsHorz (edgeVec p (i + 2)) := and_congr (not_congr hzx1) hzy1
  have hV1 : IsVert (edgeVec (offsetPath amt p) ((i + 1) % p.length))
      ↔ IsVert (edgeVec p (i + 2)) := and_congr hzx1 (not_congr hzy1)
  obtain ⟨hor1, halt1, halt2⟩ := properRecti_all p hp (i + 1)
  refine ⟨?_, ?_, ?_⟩
  · rcases hor1 with h | h
    · exact Or.inl (hHi.mpr h)
    · exact Or.inr (hVi.mpr h)
  · intro h
    exact hV1.mpr (halt1 (hHi.mp h))
  · intro h
    exact hH1.mpr (halt2 (hVi.mp h))

/-- The corner moves of the offset path are the corner moves of the
input at the next vertex: offsetting rotates the vertex labelling by
one while keeping every corner's move direction. -/
theorem vmove_offset (amt d' : ℚ) (p : Path) (hp : ProperRecti p)
    (hmin : ∀ i < p.length,
      2 * |amt| < |(edgeVec p i).dx| + |(edgeVec p i).dy|)
    (j : ℕ) :
    vmove d' (offsetPath amt p) j = vmove d' p (j + 1) := by
  have h3 : 3 ≤ p.length := by have := hp.1; omega
  have hl0 : 0 < p.length := by omega
  have hlen := offsetPath_length amt p h3
  have hmlt : (j + p.length - 1) % p.length < p.length := Nat.mod_lt _ hl0
  have hjlt : j % p.length < p.length := Nat.mod_lt _ hl0
  obtain ⟨hsx1, hsy1, hzx1, hzy1⟩ := offsetPath_edge_signs amt p hp hmin
    ((j + p.length - 1) % p.length) hmlt
  obtain ⟨hsx2, hsy2, hzx2, hzy2⟩ := offsetPath_edge_signs amt p hp hmin
    (j % p.length) hjlt
  have cq1 : edgeVec (offsetPath amt p) (j + (offsetPath amt p).length - 1)
      = edgeVec (offsetPath amt p) ((j + p.length - 1) % p.length) := by
    refine edgeVec_congr _ _ _ ?_
    rw [hlen]
    simp
  have cq2 : edgeVec (offsetPath amt p) j
      = edgeVec (offsetPath amt p) (j % p.length) := by
    refine edgeVec_congr _ _ _ ?_
    rw [hlen]
    simp
  have cp1 : edgeVec p ((j + p.length - 1) % p.length + 1)
      = edgeVec p (j + p.length) := by
    refine edgeVec_congr p _ _ ?_
    rw [Nat.mod_add_mod]
    have e : j + p.length - 1 + 1 = j + p.length := by omega
    rw [e]
  have cp1' : edgeVec p (j + p.length) = edgeVec p j :=
    edgeVec_congr p _ _ (Nat.add_mod_right j _)
  have cp2 : edgeVec p (j % p.length + 1) = edgeVec p (j + 1) := by
    refine edgeVec_congr p _ _ ?_
    rw [Nat.mod_add_mod]
  rw [cp1, cp1'] at hsx1 hsy1 hzx1 hzy1
  rw [cp2] at hsx2 hsy2 hzx2 hzy2
  have hinP : edgeVec p (j + 1 + p.length - 1) = edgeVec p j := by
    refine edgeVec_congr p _ _ ?_
    have e : j + 1 + p.length - 1 = j + p.length := by omega
    rw [e, Nat.add_mod_right]
  rw [vmove, vmove, cq1, cq2, hinP]
  obtain ⟨horJ, haltJ1, haltJ2⟩ := properRecti_all p hp j
  rcases horJ with hHj | hVj
  · have hVj1 : IsVert (edgeVec p (j + 1)) := haltJ1 hHj
    have z1 : (edgeVec (offsetPath amt p)
        ((j + p.length - 1) % p.length)).dy = 0 := hzy1.mpr hHj.2
    have z2 : (edgeVec (offsetPath amt p) (j % p.length)).dx = 0 :=
      hzx2.mpr hVj1.1
    rw [Vec.mk.injEq]
    constructor
    · rw [z1, hHj.2, zero_add, zero_add, hsy2]
    · rw [z2, hVj1.1, add_zero, add_zero, hsx1]
  · have hHj1 : IsHorz (edgeVec p (j + 1)) := haltJ2 hVj
    have z1 : (edgeVec (offsetPath amt p)
        ((j + p.length - 1) % p.length)).dx = 0 := hzx1.mpr hVj.1
    have z2 : (edgeVec (offsetPath amt p) (j % p.length)).dy = 0 :=
      hzy2.mpr hHj1.2
    rw [Vec.mk.injEq]
    constructor
    · rw [z2, hHj1.2, add_zero, add_zero, hsy1]
    · rw [z1, hVj.1, zero_add, zero_add, hsx2]

theorem addVector_vmove_cancel (x : Point) (d : ℚ) (p : Path) (j : ℕ) :
    addVector (addVector x (vmove (-d) p j)) (vmove d p j) = x := by
  obtain ⟨xx, xy⟩ := x
  simp only [addVector, vmove, Point.mk.injEq]
  constructor <;> ring

/-- Round trip: offsetting a proper rectilinear path by `-d` and then
by `d` (with `2|d|` below every edge length) returns the same closed
path, with the vertex labelling rotated by two positions. -/
theorem offsetPath_roundtrip (d : ℚ) (p : Path) (hp : ProperRecti p)
    (hmin : ∀ i < p.length,
      2 * |d| < |(edgeVec p i).dx| + |(edgeVec p i).dy|) :
    offsetPath d (offsetPath (-d) p) = p.rotate 2 := by
  have h3 : 3 ≤ p.length := by have := hp.1; omega
  have hl0 : 0 < p.length := by omega
  have hmin' : ∀ i < p.length,
      2 * |(-d : ℚ)| < |(edgeVec p i).dx| + |(edgeVec p i).dy| := by
    intro i hi
    rw [abs_neg]
    exact hmin i hi
  have hq : ProperRecti (offsetPath (-d) p) := offsetPath_proper (-d) p hp hmin'
  have hlq := offsetPath_length (-d) p h3
  have hlr := offsetPath_length d (offsetPath (-d) p) (by rw [hlq]; omega)
  have hlenr : (offsetPath d (offsetPath (-d) p)).length = p.length := by
    rw [hlr, hlq]
  apply List.ext_getElem
  · rw [hlenr, List.length_rotate]
  · intro k hk1 hk2
    have hkl : k < p.length := by rw [hlenr] at hk1; exact hk1
    have hk1' : (k + 1) % p.length < p.length := Nat.mod_lt _ hl0
    have hk2' : (k + 2) % p.length < p.length := Nat.mod_lt _ hl0
    have step1 := offsetPath_getD d (offsetPath (-d) p) hq k
      (by rw [hlq]; exact hkl)
    rw [hlq] at step1
    have step2 := offsetPath_getD (-d) p hp ((k + 1) % p.length) hk1'
    have e1 : ((k + 1) % p.length + 1) % p.length = (k + 2) % p.length := by
      rw [Nat.mod_add_mod]
    rw [e1] at step2
    have step3 := vmove_offset (-d) d p hp hmin' ((k + 1) % p.length)
    have e2 : vmove d p ((k + 1) % p.length + 1)
        = vmove d p ((k + 2) % p.length) := by
      refine vmove_congr d p _ _ ?_ (by omega)
      rw [Nat.mod_add_mod]
      simp
    rw [e2] at step3
    have hgetD : (offsetPath d (offsetPath (-d) p)).getD k ⟨0, 0⟩
        = p.getD ((k + 2) % p.length) ⟨0, 0⟩ := by
      rw [step1, step2, step3, addVector_vmove_cancel]
    rw [List.getElem_rotate]
    have hL : (offsetPath d (offsetPath (-d) p))[k]
        = (offsetPath d (offsetPath (-d) p)).getD k ⟨0, 0⟩ :=
      (List.getD_eq_getElem _ _ hk1).symm
    have hR : p.get ⟨(k + 2) % p.length, hk2'⟩
        = p.getD ((k + 2) % p.length) ⟨0, 0⟩ :=
      (List.getD_eq_getElem _ _ hk2').symm
    rw [hL, hgetD]
    exact hR.symm

/-- The boundary path of the axis square `[0, 10] × [0, 10]`. -/
def sq10 : Path := pathOfRect ⟨0, 10, 0, 10⟩

/-- C8 (amended): for every proper rectilinear path `p` and offset
amount `d` with `2|d|` smaller than the minimum edge length of `p`,
`offsetPath(d, offsetPath(-d, p))` returns the same points in the same
cyclic order — it equals `p` with the vertex labelling rotated by two
positions.  (The original bound `|d| < min edge length` is not
sufficient; see the counterexample.) -/
theorem C8_offsetPath_roundtrip (d : ℚ) (p : Path) (hp : ProperRecti p)
    (hmin : ∀ i < p.length,
      2 * |d| < |(edgeVec p i).dx| + |(edgeVec p i).dy|) :
    offsetPath d (offsetPath (-d) p) = p.rotate 2 :=
  offsetPath_roundtrip d p hp hmin

/-- Witness for the amended C8 at the square of side 10 and `d = 2`. -/
theorem C8_offsetPath_roundtrip_witness :
    ProperRecti sq10 ∧
    (∀ i < sq10.length,
      2 * |(2 : ℚ)| < |(edgeVec sq10 i).dx| + |(edgeVec sq10 i).dy|) ∧
    offsetPath 2 (offsetPath (-2) sq10) = sq10.rotate 2 :=
  ⟨by with_unfolding_all decide, by with_unfolding_all decide,
    C8_offsetPath_roundtrip 2 sq10 (by with_unfolding_all decide)
      (by with_unfolding_all decide)⟩

/-- Counterexample to C8 as stated: on the square of side 10 (minimum
edge length 10) with `d = 6 < 10`, the round trip produces the point
`(12, 12)`, which is not a point of the square, so the result is not
the original path in any cyclic rotation. -/
theorem C8_offsetPath_roundtrip_counterexample :
    ProperRecti sq10 ∧
    (∀ i < sq10.length,
      (6 : ℚ) < |(edgeVec sq10 i).dx| + |(edgeVec sq10 i).dy|) ∧
    (∀ k : ℕ, offsetPath 6 (offsetPath (-6) sq10) ≠ sq10.rotate k) := by
  refine ⟨by with_unfolding_all decide, by with_unfolding_all decide, ?_⟩
  intro k h
  have hmem : (⟨12, 12⟩ : Point) ∈ offsetPath 6 (offsetPath (-6) sq10) := by
    with_unfolding_all decide
  rw [h, List.mem_rotate] at hmem
  have : (⟨12, 12⟩ : Point) ∉ sq10 := by with_unfolding_all decide
  exact this hmem

/-! ### fromRectangles (polygon/from-rectangles.ts) -/

/-- A polygon is a list of paths (`polygon.ts` `Polygon`). -/
abbrev Polygon := List Path

/-- An interval of coordinates (`from-rectangles.ts` `Interval`). -/
abbrev Interval := ℚ × ℚ

/-- `from-rectangles.ts` `intervalsIntersect`. -/
def intervalsIntersect (a b : Interval) : Bool :=
  decide (a.1 ≤ b.2 ∧ b.1 ≤ a.2)

/-- `from-rectangles.ts` `subIntervalInterval`. -/
def subIntervalInterval (a b : Interval) : List Interval :=
  if ¬ (intervalsIntersect a b = true) then [a]
  else if b.1 ≤ a.1 ∧ b.2 ≥ a.2 then []
  else if b.2 ≥ a.2 then [(a.1, b.1)]
  else if b.1 ≤ a.1 then [(b.2, a.2)]
  else [(a.1, b.1), (b.2, a.2)]

/-- `from-rectangles.ts` `subIntervalsInterval`. -/
def subIntervalsInterval (as' : List Interval) (b : Interval) : List Interval :=
  as'.flatMap (fun a => subIntervalInterval a b)

/-- `from-rectangles.ts` `subIntervalIntervals` (a left fold, as
`reduce`). -/
def subIntervalIntervals (a : Interval) (bs : List Interval) : List Interval :=
  bs.foldl subIntervalsInterval [a]

/-- A JS `Map` from rectangle index to interval, modelled as an
insertion-ordered association list (JS `Map`s iterate in insertion
order; `set` of an existing key updates in place). -/
abbrev IntervalSet := List (ℕ × Interval)

def isetValues (s : IntervalSet) : List Interval := s.map Prod.snd

def isetSet (k : ℕ) (v : Interval) (s : IntervalSet) : IntervalSet :=
  if s.any (fun p => p.1 = k) then
    s.map (fun p => if p.1 = k then (k, v) else p)
  else s ++ [(k, v)]

def isetGet (k : ℕ) (s : IntervalSet) : Option Interval :=
  (s.find? (fun p => p.1 = k)).map Prod.snd

def isetDelete (k : ℕ) (s : IntervalSet) : IntervalSet :=
  s.filter (fun p => decide ¬(p.1 = k))

/-- `from-rectangles.ts` `addInterval`: the uncovered parts and the
updated set. -/
def addInterval (interval : Interval) (index : ℕ) (s : IntervalSet) :
    List Interval × IntervalSet :=
  (subIntervalIntervals interval (isetValues s), isetSet index interval s)

/-- `from-rectangles.ts` `deleteInterval`; the assert on a missing
index is `none`. -/
def deleteInterval (index : ℕ) (s : IntervalSet) :
    Option (List Interval × IntervalSet) :=
  match isetGet index s with
  | none => none
  | some ival =>
      let s' := isetDelete index s
      some (subIntervalIntervals ival (isetValues s'), s')

/-- Entering or exiting a rectangle (`from-rectangles.ts` `Side`). -/
inductive Side where
  | inE
  | outE
deriving DecidableEq, Repr

/-- `from-rectangles.ts` `SweepEvent`. -/
structure SweepEvent where
  side : Side
  rectIndex : ℕ
  sideCoordinate : ℚ
  interval : Interval
deriving DecidableEq, Repr

/-- `cmpEvents a b ≤ 0`: the ordering used to sort sweep events (by
side coordinate; on ties, In events first). -/
def eventLE (a b : SweepEvent) : Bool :=
  if a.sideCoordinate = b.sideCoordinate then
    if a.side = b.side then true
    else if a.side = Side.inE then true
    else false
  else decide (a.sideCoordinate < b.sideCoordinate)

/-- Stable insertion into a sorted list: `x` goes in front of the
first element it compares `≤` to. -/
def insertSorted (le : α → α → Bool) (x : α) : List α → List α
  | [] => [x]
  | y :: ys => if le x y then x :: y :: ys else y :: insertSorted le x ys

/-- A stable sort (insertion sort); JS `Array.prototype.sort` is
stable, so any stable sort with the same comparator produces the same
list. -/
def sortBy (le : α → α → Bool) : List α → List α
  | [] => []
  | x :: xs => insertSorted le x (sortBy le xs)

/-- The unsorted event lists for an indexed rectangle list (the loop
of `compileSweepEvents`); rectangles of zero width or height are
skipped. -/
def sweepEventsOf : List (ℕ × Rect) → List SweepEvent × List SweepEvent
  | [] => ([], [])
  | (i, rect) :: rest =>
      let r := sweepEventsOf rest
      if rect.width = 0 ∨ rect.height = 0 then r
      else
        (⟨.inE, i, rect.top, (rect.left, rect.right)⟩ ::
            ⟨.outE, i, rect.bottom, (rect.left, rect.right)⟩ :: r.1,
          ⟨.inE, i, rect.left, (rect.top, rect.bottom)⟩ ::
            ⟨.outE, i, rect.right, (rect.top, rect.bottom)⟩ :: r.2)

/-- `from-rectangles.ts` `compileSweepEvents`: vertical and horizontal
sweep events, sorted. -/
def compileSweepEvents (rs : List Rect) :
    List SweepEvent × List SweepEvent :=
  let r := sweepEventsOf rs.enum
  (sortBy eventLE r.1, sortBy eventLE r.2)

/-- The `IntervalTree` of segments, modelled as an association list
from interval to the (insertion-ordered, duplicate-free) set of
coordinates normal to the interval; `search` returns the entries
intersecting the query in list order.  (The source's `Segment` record
also repeats the interval; that copy is the key here.) -/
abbrev Segments := List (Interval × List ℚ)

def segSearch (q : Interval) (segs : Segments) : Segments :=
  segs.filter (fun s => intervalsIntersect s.1 q)

def segGet (ival : Interval) (segs : Segments) : Option (List ℚ) :=
  (segs.find? (fun s => s.1 = ival)).map Prod.snd

def segsSet (ival : Interval) (coords : List ℚ) (segs : Segments) :
    Segments :=
  if segs.any (fun s => s.1 = ival) then
    segs.map (fun s => if s.1 = ival then (ival, coords) else s)
  else segs ++ [(ival, coords)]

def segsDelete (ival : Interval) (segs : Segments) : Segments :=
  segs.filter (fun s => decide ¬(s.1 = ival))

/-- `from-rectangles.ts` `deleteSegment`. -/
def deleteSegment (ival : Interval) (segCoordinate : ℚ)
    (segs : Segments) : Segments :=
  match segGet ival segs with
  | none => segs
  | some coords =>
      let coords' := coords.filter (fun c => decide ¬(c = segCoordinate))
      if coords' = [] then segsDelete ival segs
      else segsSet ival coords' segs

/-- `from-rectangles.ts` `addSegment`.  The source's single loop over
the merge candidates both extends `min`/`max` and deletes the
candidate; the two folds here read and delete the same data. -/
def addSegment (interval : Interval) (segCoordinate : ℚ)
    (segs : Segments) : Segments :=
  let merge1 := (segSearch (interval.1, interval.1) segs).filter
    (fun s => decide (segCoordinate ∈ s.2) &&
      decide (s.1.1 = interval.1 ∨ s.1.2 = interval.1))
  let merge2 := (segSearch (interval.2, interval.2) segs).filter
    (fun s => decide (segCoordinate ∈ s.2) &&
      decide (s.1.1 = interval.2 ∨ s.1.2 = interval.2))
  let merge := merge1 ++ merge2
  let mn := merge.foldl (fun acc s => min acc s.1.1) interval.1
  let mx := merge.foldl (fun acc s => max acc s.1.2) interval.2
  let segs1 := merge.foldl
    (fun acc s => deleteSegment s.1 segCoordinate acc) segs
  match segGet (mn, mx) segs1 with
  | none => segsSet (mn, mx) [segCoordinate] segs1
  | some coords =>
      segsSet (mn, mx)
        (if segCoordinate ∈ coords then coords else coords ++ [segCoordinate])
        segs1

/-- `from-rectangles.ts` `notEqual`; the error case is `none`. -/
def notEqual (a b x : ℚ) : Option ℚ :=
  if a = x then some b else if b = x then some a else none

/-- Which segment store the walk is looking in. -/
inductive SegDir where
  | vert
  | horz
deriving DecidableEq, Repr

/-- `from-rectangles.ts` `findAndRemoveSegmentTouchingPoint`; the
"no segment at point" error is `none`. -/
def findAndRemoveSegmentTouchingPoint (dir : SegDir) (point : Point)
    (segs : Segments) : Option (Point × Segments) :=
  match dir with
  | .vert =>
      match (segSearch (point.y, point.y) segs).find?
          (fun s => decide (point.x ∈ s.2)) with
      | none => none
      | some s =>
          match notEqual s.1.1 s.1.2 point.y with
          | none => none
          | some y' => some (⟨point.x, y'⟩, deleteSegment s.1 point.x segs)
  | .horz =>
      match (segSearch (point.x, point.x) segs).find?
          (fun s => decide (point.y ∈ s.2)) with
      | none => none
      | some s =>
          match notEqual s.1.1 s.1.2 point.x with
          | none => none
          | some x' => some (⟨x', point.y⟩, deleteSegment s.1 point.y segs)

/-- `from-rectangles.ts` `topLeftPoint`. -/
def topLeftPoint (horzSegments : Segments) : Option Point :=
  horzSegments.foldl (fun mn s =>
    let x := min s.1.1 s.1.2
    s.2.foldl (fun mn y =>
      match mn with
      | none => some (⟨x, y⟩ : Point)
      | some m =>
          if y < m.y then some ⟨x, y⟩
          else if y = m.y ∧ x < m.x then some ⟨x, y⟩
          else some m) mn) none

/-- Total number of stored segment coordinates, used as loop fuel:
every walk step deletes one coordinate. -/
def segsSize (segs : Segments) : ℕ := (segs.map (fun s => s.2.length)).sum

/-- The inner do/while loop of `fromRectangles`: push the current
point, follow (and delete) the touching segment, stop when back at the
first point. -/
def walkPath (first : Point) : ℕ → SegDir → Point → Segments → Segments →
    Path → Option (Path × Segments × Segments)
  | 0, _, _, _, _, _ => none
  | fuel + 1, dir, cur, vs, hs, path =>
      match dir with
      | .vert =>
          match findAndRemoveSegmentTouchingPoint .vert cur vs with
          | none => none
          | some (next, vs') =>
              if next = first then some (path ++ [cur], vs', hs)
              else walkPath first fuel .horz next vs' hs (path ++ [cur])
      | .horz =>
          match findAndRemoveSegmentTouchingPoint .horz cur hs with
          | none => none
          | some (next, hs') =>
              if next = first then some (path ++ [cur], vs, hs')
              else walkPath first fuel .vert next vs hs' (path ++ [cur])

/-- The outer loop of `fromRectangles`: start a new path at the
top-left-most remaining point until no horizontal segments remain. -/
def buildPaths : ℕ → Segments → Segments → Polygon → Option Polygon
  | 0, _, _, _ => none
  | fuel + 1, vs, hs, acc =>
      match topLeftPoint hs with
      | none => some acc
      | some first =>
          match walkPath first (segsSize vs + segsSize hs + 1)
              .vert first vs hs [] with
          | none => none
          | some (path, vs', hs') => buildPaths fuel vs' hs' (acc ++ [path])

/-- Process one sorted event list, threading the active interval set
and the target segment store (the two `for(const event of ...)` loops
of `fromRectangles`). -/
def processEvents : List SweepEvent → IntervalSet → Segments →
    Option (IntervalSet × Segments)
  | [], s, segs => some (s, segs)
  | ev :: rest, s, segs =>
      match (match ev.side with
              | .inE => some (addInterval ev.interval ev.rectIndex s)
              | .outE => deleteInterval ev.rectIndex s) with
      | none => none
      | some (uncovered, s') =>
          processEvents rest s'
            (uncovered.foldl
              (fun acc ival => addSegment ival ev.sideCoordinate acc) segs)

/-- `from-rectangles.ts` `fromRectangles`. -/
def fromRectangles (rs : List Rect) : Option Polygon :=
  let ev := compileSweepEvents rs
  match processEvents ev.1 [] [] with
  | none => none
  | some (s1, horzSegments) =>
      match processEvents ev.2 s1 [] with
      | none => none
      | some (_, vertSegments) =>
          buildPaths (segsSize vertSegments + segsSize horzSegments + 1)
            vertSegments horzSegments []

/-- C7: for a single rectangle of positive width and height,
`fromRectangles` succeeds and produces exactly one path, equal to
`pathOfRect R` (here literally, i.e. up to the trivial cyclic
rotation). -/
theorem C7_fromRectangles_single (R : Rect)
    (hw : R.left < R.right) (hh : R.top < R.bottom) :
    fromRectangles [R] = some [pathOfRect R] := by
  obtain ⟨l, r, t, b⟩ := R
  simp only at hw hh
  have hrl : r - l ≠ 0 := sub_ne_zero.mpr (ne_of_gt hw)
  have hbt : b - t ≠ 0 := sub_ne_zero.mpr (ne_of_gt hh)
  have hlr : l ≠ r := ne_of_lt hw
  have hrl' : r ≠ l := ne_of_gt hw
  have htb : t ≠ b := ne_of_lt hh
  have hbt' : b ≠ t := ne_of_gt hh
  have hle1 : l ≤ r := le_of_lt hw
  have hle2 : t ≤ b := le_of_lt hh
  have hnlt1 : ¬ r < l := not_lt.mpr hle1
  have hnlt2 : ¬ b < t := not_lt.mpr hle2
  have hmin : min l r = l := min_eq_left hle1
  simp [fromRectangles, compileSweepEvents, sweepEventsOf, List.enum,
    List.enumFrom, sortBy, insertSorted, eventLE, processEvents,
    addInterval, deleteInterval, isetSet, isetGet, isetDelete, isetValues,
    subIntervalIntervals, subIntervalsInterval, subIntervalInterval,
    intervalsIntersect, addSegment, deleteSegment, segSearch, segGet,
    segsSet, segsDelete, segsSize, buildPaths, walkPath,
    findAndRemoveSegmentTouchingPoint, notEqual, topLeftPoint, pathOfRect,
    Rect.width, Rect.height, hrl, hbt, hlr, hrl', htb, hbt', hle1, hle2,
    hnlt1, hnlt2, hmin, hw, hh]

/-- Witness for C7 at the square of side 10. -/
theorem C7_fromRectangles_single_witness :
    ((0 : ℚ) < 10 ∧ (0 : ℚ) < 10) ∧
    fromRectangles [(⟨0, 10, 0, 10⟩ : Rect)]
      = some [pathOfRect ⟨0, 10, 0, 10⟩] :=
  ⟨⟨by norm_num, by norm_num⟩,
    C7_fromRectangles_single ⟨0, 10, 0, 10⟩ (by norm_num) (by norm_num)⟩

/-! ### C10: degenerate rectangles are removable -/

/-- Relabel the rectangle index of a sweep event. -/
def evMap (f : ℕ → ℕ) (e : SweepEvent) : SweepEvent :=
  ⟨e.side, f e.rectIndex, e.sideCoordinate, e.interval⟩

/-- Relabel the keys of an interval set. -/
def isetMap (f : ℕ → ℕ) (s : IntervalSet) : IntervalSet :=
  s.map (fun p => (f p.1, p.2))

theorem isetValues_map (f : ℕ → ℕ) (s : IntervalSet) :
    isetValues (isetMap f s) = isetValues s := by
  induction s with
  | nil => rfl
  | cons p rest ih => simp [isetValues, isetMap] at ih ⊢

theorem isetGet_map (f : ℕ → ℕ) (hf : Function.Injective f)
    (k : ℕ) (s : IntervalSet) :
    isetGet (f k) (isetMap f s) = isetGet k s := by
  induction s with
  | nil => rfl
  | cons p rest ih =>
      by_cases h : p.1 = k
      · simp [isetGet, isetMap, List.find?, h]
      · have h' : ¬ f p.1 = f k := fun hc => h (hf hc)
        simp only [isetGet, isetMap, List.map_cons, List.find?] at ih ⊢
        rw [decide_eq_false h', decide_eq_false h]
        exact ih

theorem isetSet_map (f : ℕ → ℕ) (hf : Function.Injective f)
    (k : ℕ) (v : Interval) (s : IntervalSet) :
    isetMap f (isetSet k v s) = isetSet (f k) v (isetMap f s) := by
  have hany : (isetMap f s).any (fun p => p.1 = f k)
      = s.any (fun p => p.1 = k) := by
    induction s with
    | nil => rfl
    | cons p rest ih =>
        by_cases h : p.1 = k
        · simp [isetMap, h]
        · have h' : ¬ f p.1 = f k := fun hc => h (hf hc)
          simp [isetMap, h, h'] at ih ⊢
          exact ih
  rw [isetSet, isetSet, hany]
  by_cases h : s.any (fun p => p.1 = k)
  · rw [if_pos h, if_pos h, isetMap, isetMap, List.map_map, List.map_map]
    apply List.map_congr_left
    intro p _
    by_cases hp : p.1 = k
    · simp [hp]
    · have hp' : ¬ f p.1 = f k := fun hc => hp (hf hc)
      simp [hp, hp']
  · rw [if_neg h, if_neg h, isetMap, isetMap, List.map_append]
    rfl

theorem isetDelete_map (f : ℕ → ℕ) (hf : Function.Injective f)
    (k : ℕ) (s : IntervalSet) :
    isetMap f (isetDelete k s) = isetDelete (f k) (isetMap f s) := by
  induction s with
  | nil => rfl
  | cons p rest ih =>
      by_cases h : p.1 = k
      · have h' : f p.1 = f k := congrArg f h
        simp only [isetDelete, isetMap, List.map_cons, List.filter_cons] at ih ⊢
        rw [decide_eq_false (by simpa using h),
          decide_eq_false (by simpa using h')]
        exact ih
      · have h' : ¬ f p.1 = f k := fun hc => h (hf hc)
        simp only [isetDelete, isetMap, List.map_cons, List.filter_cons] at ih ⊢
        rw [decide_eq_true (by simpa using h),
          decide_eq_true (by simpa using h')]
        simp only [if_true, List.map_cons]
        rw [ih]

theorem addInterval_map (f : ℕ → ℕ) (hf : Function.Injective f)
    (ival : Interval) (k : ℕ) (s : IntervalSet) :
    addInterval ival (f k) (isetMap f s)
      = ((addInterval ival k s).1, isetMap f (addInterval ival k s).2) := by
  rw [addInterval, addInterval, isetValues_map, isetSet_map f hf]

theorem deleteInterval_map (f : ℕ → ℕ) (hf : Function.Injective f)
    (k : ℕ) (s : IntervalSet) :
    deleteInterval (f k) (isetMap f s)
      = (deleteInterval k s).map (fun r => (r.1, isetMap f r.2)) := by
  rw [deleteInterval, deleteInterval, isetGet_map f hf]
  cases isetGet k s with
  | none => rfl
  | some ival =>
      simp only [← isetDelete_map f hf, isetValues_map]
      rfl

theorem processEvents_map (f : ℕ → ℕ) (hf : Function.Injective f) :
    ∀ (evs : List SweepEvent) (s : IntervalSet) (segs : Segments),
    processEvents (evs.map (evMap f)) (isetMap f s) segs
      = (processEvents evs s segs).map (fun r => (isetMap f r.1, r.2)) := by
  intro evs
  induction evs with
  | nil => intro s segs; rfl
  | cons ev rest ih =>
      intro s segs
      obtain ⟨side, k, coord, ival⟩ := ev
      cases side with
      | inE =>
          show processEvents (rest.map (evMap f))
              (isetSet (f k) ival (isetMap f s))
              ((subIntervalIntervals ival (isetValues (isetMap f s))).foldl
                (fun acc i => addSegment i coord acc) segs)
            = Option.map (fun r => (isetMap f r.1, r.2))
                (processEvents rest (isetSet k ival s)
                  ((subIntervalIntervals ival (isetValues s)).foldl
                    (fun acc i => addSegment i coord acc) segs))
          rw [isetValues_map, ← isetSet_map f hf]
          exact ih _ _
      | outE =>
          show (match deleteInterval (f k) (isetMap f s) with
              | none => none
              | some (uncovered, s') => processEvents (rest.map (evMap f)) s'
                  (uncovered.foldl (fun acc i => addSegment i coord acc) segs))
            = Option.map (fun r => (isetMap f r.1, r.2))
                (match deleteInterval k s with
                  | none => none
                  | some (uncovered, s') => processEvents rest s'
                      (uncovered.foldl (fun acc i => addSegment i coord acc) segs))
          rw [deleteInterval_map f hf]
          cases deleteInterval k s with
          | none => rfl
          | some r =>
              obtain ⟨unc, s2⟩ := r
              exact ih s2 (unc.foldl (fun acc i => addSegment i coord acc) segs)

theorem insertSorted_map (g : α → β) (le : β → β → Bool)
    (le' : α → α → Bool) (hle : ∀ a b, le (g a) (g b) = le' a b)
    (x : α) (l : List α) :
    insertSorted le (g x) (l.map g) = (insertSorted le' x l).map g := by
  induction l with
  | nil => rfl
  | cons y ys ih =>
      simp only [List.map_cons, insertSorted, hle x y]
      by_cases h : le' x y
      · rw [if_pos h, if_pos h, List.map_cons, List.map_cons]
      · rw [if_neg h, if_neg h, List.map_cons, ih]

theorem sortBy_map (g : α → β) (le : β → β → Bool)
    (le' : α → α → Bool) (hle : ∀ a b, le (g a) (g b) = le' a b)
    (l : List α) :
    sortBy le (l.map g) = (sortBy le' l).map g := by
  induction l with
  | nil => rfl
  | cons x xs ih =>
      simp only [List.map_cons, sortBy, ih,
        insertSorted_map g le le' hle]

theorem eventLE_evMap (f : ℕ → ℕ) (a b : SweepEvent) :
    eventLE (evMap f a) (evMap f b) = eventLE a b := rfl

/-- The keep predicate: rectangles of nonzero width and height. -/
def keepB (r : Rect) : Bool := decide (¬ (r.width = 0 ∨ r.height = 0))

/-- The original index of the j-th kept element, extended past the end
of the list so that the map is globally strictly monotone. -/
def posToIdx (keep : Rect → Bool) : List Rect → ℕ → ℕ
  | [], j => j
  | r :: rs, 0 => if keep r then 0 else posToIdx keep rs 0 + 1
  | r :: rs, j + 1 =>
      if keep r then posToIdx keep rs j + 1
      else posToIdx keep rs (j + 1) + 1

theorem posToIdx_false (keep : Rect → Bool) (r : Rect) (rs : List Rect)
    (j : ℕ) (hk : keep r = false) :
    posToIdx keep (r :: rs) j = posToIdx keep rs j + 1 := by
  cases j with
  | zero => rw [posToIdx, if_neg (by simp [hk])]
  | succ j => rw [posToIdx, if_neg (by simp [hk])]

theorem posToIdx_strictMono (keep : Rect → Bool) (rs : List Rect) :
    ∀ j1 j2, j1 < j2 → posToIdx keep rs j1 < posToIdx keep rs j2 := by
  induction rs with
  | nil => intro j1 j2 h; exact h
  | cons r rest ih =>
      intro j1 j2 h
      cases hk : keep r with
      | false =>
          rw [posToIdx_false keep r rest j1 hk, posToIdx_false keep r rest j2 hk]
          have := ih j1 j2 h
          omega
      | true =>
          match j1, j2, h with
          | 0, j2 + 1, _ =>
              rw [posToIdx, if_pos hk, posToIdx, if_pos hk]
              omega
          | j1 + 1, j2 + 1, h =>
              rw [posToIdx, if_pos hk, posToIdx, if_pos hk]
              have := ih j1 j2 (by omega)
              omega

/-- Degenerate rectangles contribute no sweep events: filtering them
out first leaves the event lists unchanged. -/
theorem sweepEventsOf_filter (irs : List (ℕ × Rect)) :
    sweepEventsOf (irs.filter (fun p => keepB p.2)) = sweepEventsOf irs := by
  induction irs with
  | nil => rfl
  | cons p rest ih =>
      obtain ⟨i, rect⟩ := p
      by_cases h : rect.width = 0 ∨ rect.height = 0
      · rw [List.filter_cons, if_neg (by simp [keepB, h]), ih]
        rw [sweepEventsOf, if_pos h]
      · rw [List.filter_cons, if_pos (by simp [keepB, h])]
        rw [sweepEventsOf, sweepEventsOf, if_neg h, if_neg h, ih]

/-- Relabelling the indices relabels the events. -/
theorem sweepEventsOf_map (f : ℕ → ℕ) (irs : List (ℕ × Rect)) :
    sweepEventsOf (irs.map (fun p => (f p.1, p.2)))
      = ((sweepEventsOf irs).1.map (evMap f),
          (sweepEventsOf irs).2.map (evMap f)) := by
  induction irs with
  | nil => rfl
  | cons p rest ih =>
      obtain ⟨i, rect⟩ := p
      rw [List.map_cons]
      by_cases h : rect.width = 0 ∨ rect.height = 0
      · rw [sweepEventsOf, sweepEventsOf, if_pos h, if_pos h, ih]
      · rw [sweepEventsOf, sweepEventsOf, if_neg h, if_neg h, ih]
        rfl

/-- The enumerated kept pairs of `rs` are the enumerated pairs of the
filtered list, with each position relabelled to its original index. -/
theorem enumFrom_filter_eq (keep : Rect → Bool) (rs : List Rect) :
    ∀ n m, (List.enumFrom n rs).filter (fun p => keep p.2)
      = (List.enumFrom m (rs.filter keep)).map
          (fun p => (n + posToIdx keep rs (p.1 - m), p.2)) := by
  induction rs with
  | nil => intro n m; rfl
  | cons r rest ih =>
      intro n m
      rw [List.enumFrom_cons, List.filter_cons]
      cases hk : keep r with
      | false =>
          rw [if_neg (by simp [hk])]
          rw [List.filter_cons, hk, if_neg (by simp), ih (n + 1) m]
          apply List.map_congr_left
          intro p _
          rw [posToIdx_false keep r rest _ hk]
          rw [Prod.mk.injEq]
          constructor
          · omega
          · rfl
      | true =>
          rw [if_pos (by simp [hk])]
          rw [List.filter_cons, hk, if_pos rfl, List.enumFrom_cons,
            List.map_cons]
          congr 1
          · rw [Prod.mk.injEq]
            refine ⟨?_, rfl⟩
            rw [Nat.sub_self, posToIdx, if_pos hk]
            omega
          · rw [ih (n + 1) (m + 1)]
            apply List.map_congr_left
            intro p hp
            obtain ⟨h1, _, _⟩ := List.mem_enumFrom hp
            have e : p.1 - m = (p.1 - (m + 1)) + 1 := by omega
            rw [Prod.mk.injEq]
            refine ⟨?_, rfl⟩
            rw [e, posToIdx, if_pos hk]
            omega

/-- C10: `fromRectangles` gives the same polygon when every rectangle
of zero width or zero height is removed first: degenerate rectangles
contribute no sweep events, so no boundary segments; the only trace
they leave is the numbering of the remaining rectangles, which the
algorithm only ever compares for equality. -/
theorem C10_degenerate_rects_removable (rs : List Rect) :
    fromRectangles rs = fromRectangles (rs.filter keepB) := by
  have hf : Function.Injective (fun j => posToIdx keepB rs j) := by
    intro j1 j2 h
    by_contra hne
    rcases lt_or_gt_of_ne hne with hlt | hlt
    · exact absurd h (ne_of_lt (posToIdx_strictMono keepB rs _ _ hlt))
    · exact absurd h.symm (ne_of_lt (posToIdx_strictMono keepB rs _ _ hlt))
  have henum : (rs.enum).filter (fun p => keepB p.2)
      = ((rs.filter keepB).enum).map
          (fun p => ((fun j => posToIdx keepB rs j) p.1, p.2)) := by
    have h0 := enumFrom_filter_eq keepB rs 0 0
    rw [show List.enum rs = List.enumFrom 0 rs from rfl,
      show List.enum (rs.filter keepB) = List.enumFrom 0 (rs.filter keepB)
        from rfl, h0]
    apply List.map_congr_left
    intro p _
    simp
  have hev : sweepEventsOf rs.enum
      = ((sweepEventsOf (rs.filter keepB).enum).1.map
            (evMap (fun j => posToIdx keepB rs j)),
          (sweepEventsOf (rs.filter keepB).enum).2.map
            (evMap (fun j => posToIdx keepB rs j))) := by
    rw [← sweepEventsOf_filter rs.enum, henum, sweepEventsOf_map]
  have hV : sortBy eventLE (sweepEventsOf rs.enum).1
      = (sortBy eventLE (sweepEventsOf (rs.filter keepB).enum).1).map
          (evMap (fun j => posToIdx keepB rs j)) := by
    rw [hev]
    exact sortBy_map _ eventLE eventLE (eventLE_evMap _) _
  have hH : sortBy eventLE (sweepEventsOf rs.enum).2
      = (sortBy eventLE (sweepEventsOf (rs.filter keepB).enum).2).map
          (evMap (fun j => posToIdx keepB rs j)) := by
    rw [hev]
    exact sortBy_map _ eventLE eventLE (eventLE_evMap _) _
  show (match processEvents (sortBy eventLE (sweepEventsOf rs.enum).1) [] []
      with
    | none => none
    | some (s1, horzSegments) =>
        match processEvents (sortBy eventLE (sweepEventsOf rs.enum).2)
            s1 [] with
        | none => none
        | some (_, vertSegments) =>
            buildPaths (segsSize vertSegments + segsSize horzSegments + 1)
              vertSegments horzSegments [])
    = (match processEvents
          (sortBy eventLE (sweepEventsOf (rs.filter keepB).enum).1) [] [] with
      | none => none
      | some (s1, horzSegments) =>
          match processEvents
              (sortBy eventLE (sweepEventsOf (rs.filter keepB).enum).2)
              s1 [] with
          | none => none
          | some (_, vertSegments) =>
              buildPaths (segsSize vertSegments + segsSize horzSegments + 1)
                vertSegments horzSegments [])
  rw [hV, hH]
  have hP1 := processEvents_map (fun j => posToIdx keepB rs j) hf
    (sortBy eventLE (sweepEventsOf (rs.filter keepB).enum).1) [] []
  rw [show isetMap (fun j => posToIdx keepB rs j) [] = [] from rfl] at hP1
  rw [hP1]
  cases hc1 : processEvents
      (sortBy eventLE (sweepEventsOf (rs.filter keepB).enum).1) [] [] with
  | none => rfl
  | some r1 =>
      obtain ⟨s1, hsegs⟩ := r1
      have hP2 := processEvents_map (fun j => posToIdx keepB rs j) hf
        (sortBy eventLE (sweepEventsOf (rs.filter keepB).enum).2) s1 []
      show (match processEvents
            ((sortBy eventLE (sweepEventsOf (rs.filter keepB).enum).2).map
              (evMap (fun j => posToIdx keepB rs j)))
            (isetMap (fun j => posToIdx keepB rs j) s1) [] with
        | none => none
        | some (_, vertSegments) =>
            buildPaths (segsSize vertSegments + segsSize hsegs + 1)
              vertSegments hsegs [])
        = (match processEvents
              (sortBy eventLE (sweepEventsOf (rs.filter keepB).enum).2)
              s1 [] with
          | none => none
          | some (_, vertSegments) =>
              buildPaths (segsSize vertSegments + segsSize hsegs + 1)
                vertSegments hsegs [])
      rw [hP2]
      cases processEvents
          (sortBy eventLE (sweepEventsOf (rs.filter keepB).enum).2) s1 [] with
      | none => rfl
      | some r2 => rfl

/-! ### Path simplification (polygon.ts) -/

/-- An axis-aligned segment (`polygon.ts` `RectiSegment`): begin/end
coordinates along the axis, and the cross-axis coordinate `seg`.  (The
source also stores pointers to the two endpoints, used only to mutate
the path; the loops below apply those mutations through the path
index instead.) -/
structure RectiSegment where
  dir : SegDir
  begin' : ℚ
  end' : ℚ
  seg : ℚ
deriving DecidableEq, Repr

/-- `polygon.ts` `mkRectiSegment`; the non-axis-aligned error is
`none`. -/
def mkRectiSegment (a b : Point) : Option RectiSegment :=
  let dx := |a.x - b.x|
  let dy := |a.y - b.y|
  if dx > 1 / 1000 ∧ dy > 1 / 1000 then none
  else if dx < dy then some ⟨.vert, a.y, b.y, a.x⟩
  else some ⟨.horz, a.x, b.x, a.y⟩

/-- `polygon.ts` `Direction`. -/
inductive Dir4 where
  | east
  | north
  | west
  | south
deriving DecidableEq, Repr

/-- `polygon.ts` `directionOfSegment`. -/
def directionOfSegment (s : RectiSegment) : Dir4 :=
  if s.dir = .horz then (if s.begin' < s.end' then .east else .west)
  else (if s.begin' < s.end' then .south else .north)

/-- `polygon.ts` `Corner`. -/
inductive Corner where
  | eastSouth
  | southWest
  | westNorth
  | northEast
  | southEast
  | westSouth
  | northWest
  | eastNorth
deriving DecidableEq, Repr

/-- `polygon.ts` `cornerFromDirections`; the invalid-corner error is
`none`. -/
def cornerFromDirections : Dir4 → Dir4 → Option Corner
  | .east, .south => some .eastSouth
  | .east, .north => some .eastNorth
  | .north, .east => some .northEast
  | .north, .west => some .northWest
  | .west, .north => some .westNorth
  | .west, .south => some .westSouth
  | .south, .west => some .southWest
  | .south, .east => some .southEast
  | _, _ => none

/-- `polygon.ts` `antiknobDirection`. -/
def antiknobDirection : Corner → Corner → Option Dir4
  | .westNorth, .northEast => some .east
  | .southWest, .westNorth => some .north
  | .eastSouth, .southWest => some .west
  | .northEast, .eastSouth => some .south
  | _, _ => none

/-- `polygon.ts` `valueAlongDirection`. -/
def valueAlongDirection (d : Dir4) (seg : RectiSegment) : ℚ :=
  match d with
  | .east => if seg.dir = .horz then max seg.begin' seg.end' else seg.seg
  | .west => if seg.dir = .horz then min seg.begin' seg.end' else seg.seg
  | .north => if seg.dir = .horz then seg.seg else min seg.begin' seg.end'
  | .south => if seg.dir = .horz then seg.seg else max seg.begin' seg.end'

/-- `polygon.ts` `rectOfRectiSegments`; the two asserts are `none`. -/
def rectOfRectiSegments (a b : RectiSegment) : Option Rect :=
  if a.dir = .horz then
    if b.dir = .vert then
      some ⟨min a.begin' a.end', max a.begin' a.end',
            min b.begin' b.end', max b.begin' b.end'⟩
    else none
  else
    if b.dir = .horz then
      some ⟨min b.begin' b.end', max b.begin' b.end',
            min a.begin' a.end', max a.begin' a.end'⟩
    else none

/-- The recti-segments of a path, in order (`polygon.ts`
`eachRectiSegment`). -/
def rectiSegments (path : Path) : Option (List RectiSegment) :=
  if path.length < 2 then some []
  else (List.range path.length).mapM (fun i =>
    mkRectiSegment (path.getD i ⟨0, 0⟩)
      (path.getD ((i + 1) % path.length) ⟨0, 0⟩))

/-- `polygon.ts` `horzSegmentOverlaps` / `vertSegmentOverlaps` (the
same arithmetic for either axis coordinate). -/
def segmentOverlaps (v : ℚ) (seg : RectiSegment) : Bool :=
  decide (min seg.begin' seg.end' ≤ v ∧ v ≤ max seg.begin' seg.end')

/-- `polygon.ts` `vertSegmentToRightOfP`. -/
def vertSegmentToRightOfP (p : Point) (seg : RectiSegment) : Bool :=
  segmentOverlaps p.y seg && decide (p.x < seg.seg)

/-- `polygon.ts` `pointOnRectiSegmentEdge`. -/
def pointOnRectiSegmentEdge (p : Point) (seg : RectiSegment) : Bool :=
  if seg.dir = .horz then decide (p.y = seg.seg) && segmentOverlaps p.x seg
  else decide (p.x = seg.seg) && segmentOverlaps p.y seg

/-- `polygon.ts` `pointOnPathEdge`. -/
def pointOnPathEdge (p : Point) (path : Path) : Option Bool :=
  (rectiSegments path).map (fun segs =>
    segs.any (fun seg => pointOnRectiSegmentEdge p seg))

/-- One triple step of `countHorzRayPathIntersections`'s callback. -/
def rayTripleCount (p : Point) (a b c : RectiSegment) : Option ℤ :=
  if a.dir = .vert ∧ b.dir = .horz ∧ c.dir = .vert then
    let base : ℤ := if vertSegmentToRightOfP p a then 1 else 0
    if p.x < min b.begin' b.end' ∧ b.seg = p.y then
      match notEqual a.begin' a.end' p.y, notEqual c.begin' c.end' p.y with
      | some aEx, some cEx =>
          let aSide := decide (aEx < p.y)
          let cSide := decide (cEx < p.y)
          some (base + (if aSide = cSide then -2 else -1))
      | _, _ => none
    else some base
  else if a.dir = .vert ∧ vertSegmentToRightOfP p a = true then some 1
  else some 0

/-- `polygon.ts` `countHorzRayPathIntersections`: iterate the triples
of segments `(path[i] → path[i+1] → path[i+2] → path[i+3])` for `i`
from `path.length - 1` down to `0` (the pure, non-deleting use of
`eachRectiSegmentTriple`), summing the callback's adjustments. -/
def countHorzRayGo (p : Point) (path : Path) : ℕ → Option ℤ
  | 0 => some 0
  | i + 1 =>
      let l := path.length
      match mkRectiSegment (path.getD i ⟨0, 0⟩)
              (path.getD ((i + 1) % l) ⟨0, 0⟩),
            mkRectiSegment (path.getD ((i + 1) % l) ⟨0, 0⟩)
              (path.getD ((i + 2) % l) ⟨0, 0⟩),
            mkRectiSegment (path.getD ((i + 2) % l) ⟨0, 0⟩)
              (path.getD ((i + 3) % l) ⟨0, 0⟩) with
      | some a, some b, some c =>
          match rayTripleCount p a b c, countHorzRayGo p path i with
          | some n, some m => some (n + m)
          | _, _ => none
      | _, _, _ => none

def countHorzRayPathIntersections (p : Point) (path : Path) : Option ℤ :=
  if path.length ≤ 2 then some 0
  else countHorzRayGo p path path.length

/-- `polygon.ts` `isOdd`. -/
def isOdd (n : ℤ) : Bool := decide (n % 2 ≠ 0)

/-- The `includeEdges` flag of `pointInPath`. -/
inductive EdgeMode where
  | includeEdges
  | excludeEdges
deriving DecidableEq, Repr

/-- `polygon.ts` `pointInPath`. -/
def pointInPath (p : Point) (path : Path) (mode : EdgeMode) :
    Option Bool :=
  match countHorzRayPathIntersections p path, pointOnPathEdge p path with
  | some n, some onEdge =>
      some (if mode = .includeEdges then onEdge || isOdd n
            else !onEdge && isOdd n)
  | _, _ => none

/-- A sweep event of `rectPathIntersectionArea` (side: `true` = Top). -/
structure AreaEvent where
  top : Bool
  yCoordinate : ℚ
  interval : Interval
deriving DecidableEq, Repr

/-- `cmpEvents a b ≤ 0` for the area sweep (Top first on ties). -/
def areaEventLE (a b : AreaEvent) : Bool :=
  if a.yCoordinate = b.yCoordinate then
    if a.top = b.top then true
    else if a.top then true
    else false
  else decide (a.yCoordinate < b.yCoordinate)

/-- `polygon.ts` `rectPathIntersectionArea`, exactly in ℚ. -/
def rectPathIntersectionArea (rect : Rect) (path : Path) : Option ℚ :=
  (rectiSegments path).map (fun segs =>
    let events := segs.foldr (fun seg acc =>
      let ival : Interval := (min seg.begin' seg.end', max seg.begin' seg.end')
      if seg.dir = .vert ∨
          ¬ (intervalsIntersect (rect.left, rect.right) ival = true) then acc
      else
        ⟨directionOfSegment seg = .west, seg.seg,
          (max ival.1 rect.left, min ival.2 rect.right)⟩ :: acc) []
    let sorted := sortBy areaEventLE events
    sorted.foldl (fun area ev =>
      let y := max rect.top (min rect.bottom ev.yCoordinate)
      let intervalArea := |ev.interval.1 - ev.interval.2| * |rect.bottom - y|
      if ev.top then area + intervalArea else area - intervalArea) 0)

/-- `polygon.ts` `rectIntersectsPath` (tolerance `0.0001`, written
exactly as `1/10000`). -/
def rectIntersectsPath (rect : Rect) (path : Path) : Option Bool :=
  (rectPathIntersectionArea rect path).map (fun a =>
    decide (a > 1 / 10000))

/-- `polygon.ts` `rectContainedWithinPath`. -/
def rectContainedWithinPath (rect : Rect) (path : Path) : Option Bool :=
  (rectPathIntersectionArea rect path).map (fun a =>
    decide (|rect.width * rect.height - a| < 1 / 10000))

/-- `polygon.ts` `rectIntersectsAnyPath`. -/
def rectIntersectsAnyPath (rect : Rect) (polygon : Polygon) :
    Option Bool :=
  (polygon.mapM (fun path => rectIntersectsPath rect path)).map
    (fun bs => bs.any id)

/-- `polygon.ts` `rectContainedWithinSome`. -/
def rectContainedWithinSome (rect : Rect) (polygon : Polygon) :
    Option Bool :=
  (polygon.mapM (fun path => rectContainedWithinPath rect path)).map
    (fun bs => bs.any id)

/-- The deleted indices of an `eachRectiSegmentTriple` `Delete`
decision, in the order the source builds them (d, c, b, a), sorted
descending. -/
def deleteIdxs4 (da db dc dd : Bool) (i l : ℕ) : List ℕ :=
  ((((if dd then [(i + 3) % l] else []) ++ (if dc then [(i + 2) % l] else []))
      ++ (if db then [(i + 1) % l] else [])) ++ (if da then [i] else []))
    |>.mergeSort (fun a b => decide (b ≤ a))

/-- The decision of `tryToRemoveAntiknobs`' callback: skip, remove the
whole antiknob, or shrink it from the near/far side.  The remove
decisions carry the rectangle that the removal fills, which has passed
the three area checks. -/
inductive AkDecision where
  | skip
  | removeAll (newArea : Rect)
  | shrinkNear (newArea : Rect)
  | shrinkFar (newArea : Rect)
deriving DecidableEq, Repr

/-- The body of `tryToRemoveAntiknobs`' callback (given the three
consecutive segments `a`, `b`, `c`): fallible sub-computations give
`none`; otherwise the returned decision says how the loop proceeds. -/
def antiknobDecide (path : Path) (keepInside keepOutside : Polygon)
    (a b c : RectiSegment) : Option AkDecision :=
  match cornerFromDirections (directionOfSegment a) (directionOfSegment b),
        cornerFromDirections (directionOfSegment b) (directionOfSegment c)
      with
  | none, _ => none
  | some _, none => none
  | some ab, some bc =>
      match antiknobDirection ab bc with
      | none => some .skip
      | some backDir =>
          let nearValue := valueAlongDirection backDir a
          let backValue := valueAlongDirection backDir b
          let farValue := valueAlongDirection backDir c
          let dNearBack := |backValue - nearValue|
          let dFarBack := |backValue - farValue|
          match (if dNearBack < dFarBack then rectOfRectiSegments a b
                 else rectOfRectiSegments b c) with
          | none => none
          | some newArea =>
              match rectIntersectsPath newArea path with
              | none => none
              | some true => some .skip
              | some false =>
                  match rectIntersectsAnyPath newArea keepOutside with
                  | none => none
                  | some true => some .skip
                  | some false =>
                      match rectContainedWithinSome newArea keepInside with
                      | none => none
                      | some false => some .skip
                      | some true =>
                          if dNearBack = dFarBack then
                            some (.removeAll newArea)
                          else if dNearBack < dFarBack then
                            some (.shrinkNear newArea)
                          else some (.shrinkFar newArea)

/-- The loop of `tryToRemoveAntiknobs` (the deleting use of
`eachRectiSegmentTriple`), with the segment-pointer mutations applied
at the corresponding path indices.  The second argument encodes the
loop index plus one; the first is fuel (one unit per iteration). -/
def antiknobGo (keepInside keepOutside : Polygon) :
    ℕ → ℕ → Path → Bool → Option (Path × Bool)
  | 0, _, _, _ => none
  | _ + 1, 0, path, flag => some (path, flag)
  | fuel + 1, i + 1, path, flag =>
      let l := path.length
      let pa := path.getD i ⟨0, 0⟩
      let pb := path.getD ((i + 1) % l) ⟨0, 0⟩
      let pc := path.getD ((i + 2) % l) ⟨0, 0⟩
      let pd := path.getD ((i + 3) % l) ⟨0, 0⟩
      match mkRectiSegment pa pb, mkRectiSegment pb pc,
          mkRectiSegment pc pd with
      | some a, some b, some c =>
          match antiknobDecide path keepInside keepOutside a b c with
          | none => none
          | some .skip => antiknobGo keepInside keepOutside fuel i path flag
          | some (.removeAll _) =>
              let r := spliceLoop (deleteIdxs4 true true true true i l) path i
              antiknobGo keepInside keepOutside fuel r.2 r.1 true
          | some (.shrinkNear _) =>
              let pa' : Point :=
                if a.dir = .horz then ⟨pa.x, c.seg⟩ else ⟨c.seg, pa.y⟩
              let path₁ := path.set i pa'
              let r := spliceLoop (deleteIdxs4 false true true false i l)
                path₁ i
              antiknobGo keepInside keepOutside fuel r.2 r.1 true
          | some (.shrinkFar _) =>
              let pd' : Point :=
                if c.dir = .horz then ⟨pd.x, a.seg⟩ else ⟨a.seg, pd.y⟩
              let path₁ := path.set ((i + 3) % l) pd'
              let r := spliceLoop (deleteIdxs4 false true true false i l)
                path₁ i
              antiknobGo keepInside keepOutside fuel r.2 r.1 true
      | _, _, _ => none

/-- `polygon.ts` `tryToRemoveAntiknobs`, returning the new path and
the `atLeastOneRemoved` flag. -/
def tryToRemoveAntiknobs (path : Path) (keepInside keepOutside : Polygon) :
    Option (Path × Bool) :=
  if path.length ≤ 2 then some (path, false)
  else antiknobGo keepInside keepOutside (path.length + 1)
    path.length path false

/-- The decision of `tryToRemoveClockwiseCorners`' callback: skip, or
move `b` by `(dx, dy)` and delete its neighbours; the remove decision
carries the filled rectangle, which has passed the three checks. -/
inductive CwDecision where
  | skip
  | remove (newArea : Rect) (dx dy : ℚ)
deriving DecidableEq, Repr

/-- The body of `tryToRemoveClockwiseCorners`' callback, given the
three consecutive points. -/
def cwCornerDecide (path : Path) (keepInside keepOutside : Polygon)
    (pa pb pc : Point) : Option CwDecision :=
  if ¬ isTurnCW pa pb pc then some .skip
  else
    match mkRectiSegment pa pb, mkRectiSegment pb pc with
    | some ab, some bc =>
        match rectOfRectiSegments ab bc with
        | none => none
        | some newArea =>
            match rectIntersectsPath newArea path with
            | none => none
            | some true => some .skip
            | some false =>
                match rectIntersectsAnyPath newArea keepOutside with
                | none => none
                | some true => some .skip
                | some false =>
                    match rectContainedWithinSome newArea keepInside with
                    | none => none
                    | some false => some .skip
                    | some true =>
                        if ab.dir = .horz then
                          if bc.dir = .vert then
                            some (.remove newArea (ab.begin' - ab.end')
                              (bc.end' - bc.begin'))
                          else none
                        else
                          if bc.dir = .horz then
                            some (.remove newArea (bc.end' - bc.begin')
                              (ab.begin' - ab.end'))
                          else none
    | _, _ => none

/-- The loop of `tryToRemoveClockwiseCorners` (the deleting use of
`eachTripleInPath`), with the mutation of `b` applied at its path
index before the deletions. -/
def cwGo (keepInside keepOutside : Polygon) :
    ℕ → ℕ → Path → Bool → Option (Path × Bool)
  | 0, _, _, _ => none
  | _ + 1, 0, path, flag => some (path, flag)
  | fuel + 1, i + 1, path, flag =>
      let l := path.length
      let pa := path.getD i ⟨0, 0⟩
      let pb := path.getD ((i + 1) % l) ⟨0, 0⟩
      let pc := path.getD ((i + 2) % l) ⟨0, 0⟩
      match cwCornerDecide path keepInside keepOutside pa pb pc with
      | none => none
      | some .skip => cwGo keepInside keepOutside fuel i path flag
      | some (.remove _ dx dy) =>
          let path₁ := path.set ((i + 1) % l) ⟨pb.x + dx, pb.y + dy⟩
          let r := spliceLoop (deleteIdxs true false true i l) path₁ i
          cwGo keepInside keepOutside fuel r.2 r.1 true

/-- `polygon.ts` `tryToRemoveClockwiseCorners`. -/
def tryToRemoveClockwiseCorners (path : Path)
    (keepInside keepOutside : Polygon) : Option (Path × Bool) :=
  if path.length ≤ 2 then some (path, false)
  else cwGo keepInside keepOutside (path.length + 1) path.length path false

/-- The `while` loop of `simplifyPath` (JS `||` short-circuits: the
corner pass runs only when the antiknob pass removed nothing). -/
def simplifyPathGo (keepInside keepOutside : Polygon) :
    ℕ → Path → Option Path
  | 0, _ => none
  | fuel + 1, path =>
      match tryToRemoveAntiknobs path keepInside keepOutside with
      | none => none
      | some (path₁, r1) =>
          if r1 then simplifyPathGo keepInside keepOutside fuel path₁
          else
            match tryToRemoveClockwiseCorners path₁ keepInside keepOutside
                with
            | none => none
            | some (path₂, r2) =>
                if r2 then simplifyPathGo keepInside keepOutside fuel path₂
                else some path₂

/-- `polygon.ts` `simplifyPath`; every continuing iteration deletes at
least two points, so `path.length + 1` units of fuel always suffice. -/
def simplifyPath (keepInside keepOutside : Polygon) (path : Path) :
    Option Path :=
  simplifyPathGo keepInside keepOutside (path.length + 1) path

/-- The loop of `simplifyPolygons`: simplify the i-th path against all
the others (in their current, already-simplified state). -/
def spGo (keepInside : Polygon) : ℕ → ℕ → List Path → Option (List Path)
  | 0, _, paths => some paths
  | fuel + 1, i, paths =>
      if i < paths.length then
        let keepOutside := (paths.enum.filter
          (fun p => decide ¬(p.1 = i))).map Prod.snd
        match simplifyPath keepInside keepOutside (paths.getD i []) with
        | none => none
        | some path' => spGo keepInside fuel (i + 1) (paths.set i path')
      else some paths

/-- `polygon.ts` `simplifyPolygons`, returning the flattened list of
simplified paths (the source simplifies the paths in place). -/
def simplifyPolygons (keepInside : Polygon) (polygons : List Polygon) :
    Option (List Path) :=
  let allPaths := polygons.flatten
  spGo keepInside allPaths.length 0 allPaths

/-- The rectangle a non-skip antiknob decision fills. -/
def akRemoves : AkDecision → Option Rect
  | .skip => none
  | .removeAll r => some r
  | .shrinkNear r => some r
  | .shrinkFar r => some r

theorem ak_guard (path : Path) (keepInside keepOutside : Polygon)
    (a b c : RectiSegment) (d : AkDecision) (nr : Rect)
    (h1 : antiknobDecide path keepInside keepOutside a b c = some d)
    (h2 : akRemoves d = some nr) :
    rectIntersectsPath nr path = some false ∧
    rectIntersectsAnyPath nr keepOutside = some false ∧
    rectContainedWithinSome nr keepInside = some true := by
  rw [antiknobDecide] at h1
  cases hAB : cornerFromDirections (directionOfSegment a)
      (directionOfSegment b) with
  | none => rw [hAB] at h1; exact absurd h1 (by simp)
  | some ab =>
  rw [hAB] at h1
  cases hBC : cornerFromDirections (directionOfSegment b)
      (directionOfSegment c) with
  | none => rw [hBC] at h1; exact absurd h1 (by simp)
  | some bc =>
  rw [hBC] at h1
  simp only [] at h1
  cases hBD : antiknobDirection ab bc with
  | none =>
      rw [hBD] at h1
      simp only [Option.some_inj] at h1
      rw [← h1] at h2
      simp [akRemoves] at h2
  | some backDir =>
  rw [hBD] at h1
  simp only [] at h1
  cases hNA : (if |valueAlongDirection backDir b - valueAlongDirection backDir a| <
      |valueAlongDirection backDir b - valueAlongDirection backDir c| then
        rectOfRectiSegments a b else rectOfRectiSegments b c) with
  | none => rw [hNA] at h1; exact absurd h1 (by simp)
  | some newArea =>
  rw [hNA] at h1
  simp only [] at h1
  cases hI : rectIntersectsPath newArea path with
  | none => rw [hI] at h1; exact absurd h1 (by simp)
  | some bI =>
  rw [hI] at h1
  cases bI with
  | true =>
      simp only [Option.some_inj] at h1
      rw [← h1] at h2
      simp [akRemoves] at h2
  | false =>
  simp only [] at h1
  cases hO : rectIntersectsAnyPath newArea keepOutside with
  | none => rw [hO] at h1; exact absurd h1 (by simp)
  | some bO =>
  rw [hO] at h1
  cases bO with
  | true =>
      simp only [Option.some_inj] at h1
      rw [← h1] at h2
      simp [akRemoves] at h2
  | false =>
  simp only [] at h1
  cases hC : rectContainedWithinSome newArea keepInside with
  | none => rw [hC] at h1; exact absurd h1 (by simp)
  | some bC =>
  rw [hC] at h1
  cases bC with
  | false =>
      simp only [Option.some_inj] at h1
      rw [← h1] at h2
      simp [akRemoves] at h2
  | true =>
  simp only [] at h1
  have hd : akRemoves d = some newArea := by
    (repeat' split at h1) <;> (obtain rfl := Option.some_inj.mp h1; rfl)
  rw [hd] at h2
  have he : newArea = nr := Option.some_inj.mp h2
  subst he
  exact ⟨hI, hO, hC⟩

theorem cw_guard (path : Path) (keepInside keepOutside : Polygon)
    (pa pb pc : Point) (nr : Rect) (dx dy : ℚ)
    (h1 : cwCornerDecide path keepInside keepOutside pa pb pc
      = some (CwDecision.remove nr dx dy)) :
    rectIntersectsPath nr path = some false ∧
    rectIntersectsAnyPath nr keepOutside = some false ∧
    rectContainedWithinSome nr keepInside = some true := by
  rw [cwCornerDecide] at h1
  by_cases hT : ¬ isTurnCW pa pb pc
  · rw [if_pos hT] at h1
    exact absurd (Option.some_inj.mp h1) (by simp)
  · rw [if_neg hT] at h1
    cases hab : mkRectiSegment pa pb with
    | none => rw [hab] at h1; simp at h1
    | some ab =>
    rw [hab] at h1
    cases hbc : mkRectiSegment pb pc with
    | none => rw [hbc] at h1; simp at h1
    | some bc =>
    rw [hbc] at h1
    simp only [] at h1
    cases hNA : rectOfRectiSegments ab bc with
    | none => rw [hNA] at h1; exact absurd h1 (by simp)
    | some newArea =>
    rw [hNA] at h1
    simp only [] at h1
    cases hI : rectIntersectsPath newArea path with
    | none => rw [hI] at h1; exact absurd h1 (by simp)
    | some bI =>
    rw [hI] at h1
    cases bI with
    | true => simp at h1
    | false =>
    simp only [] at h1
    cases hO : rectIntersectsAnyPath newArea keepOutside with
    | none => rw [hO] at h1; exact absurd h1 (by simp)
    | some bO =>
    rw [hO] at h1
    cases bO with
    | true => simp at h1
    | false =>
    simp only [] at h1
    cases hC : rectContainedWithinSome newArea keepInside with
    | none => rw [hC] at h1; exact absurd h1 (by simp)
    | some bC =>
    rw [hC] at h1
    cases bC with
    | false => simp at h1
    | true =>
    simp only [] at h1
    (repeat' split at h1) <;>
      first
        | (simp only [Option.some_inj, CwDecision.remove.injEq] at h1
           obtain ⟨rfl, -, -⟩ := h1
           exact ⟨hI, hO, hC⟩)
        | exact absurd h1 (by simp)

/-- A counterclockwise square with a rectangular notch (an antiknob) cut
into its right edge: the rectangle with corners (0,0) and (10,10) minus
the notch x in [8,10], y in [4,6]. -/
def notched : Path :=
  [⟨0, 0⟩, ⟨0, 10⟩, ⟨10, 10⟩, ⟨10, 6⟩, ⟨8, 6⟩, ⟨8, 4⟩, ⟨10, 4⟩, ⟨10, 0⟩]

/-- C3 (amended): whenever an antiknob step (`antiknobDecide`, the
decision kernel of `tryToRemoveAntiknobs`) or a clockwise-corner step
(`cwCornerDecide`, the decision kernel of `tryToRemoveClockwiseCorners`)
decides to modify the path, the rectangle `nr` being filled in satisfies
the three guards checked by the source: its intersection area with the
path being simplified is at most the tolerance 1/10000, likewise for
every `keepOutside` path, and it is contained (up to the tolerance)
within some `keepInside` path. Neither direction of the original
membership-preservation claim holds: because the intersection check
tolerates overlap area up to 1/10000, a point strictly inside the
original path can end up strictly outside the simplified path, and a
point strictly outside can end up strictly inside (both failures are
exhibited by `C3_simplification_counterexample`). -/
theorem C3_simplification_area_checks
    (path : Path) (keepInside keepOutside : Polygon) :
    (∀ a b c d nr,
        antiknobDecide path keepInside keepOutside a b c = some d →
        akRemoves d = some nr →
        rectIntersectsPath nr path = some false ∧
        rectIntersectsAnyPath nr keepOutside = some false ∧
        rectContainedWithinSome nr keepInside = some true) ∧
    (∀ pa pb pc nr dx dy,
        cwCornerDecide path keepInside keepOutside pa pb pc
          = some (CwDecision.remove nr dx dy) →
        rectIntersectsPath nr path = some false ∧
        rectIntersectsAnyPath nr keepOutside = some false ∧
        rectContainedWithinSome nr keepInside = some true) :=
  ⟨fun a b c d nr h1 h2 =>
      ak_guard path keepInside keepOutside a b c d nr h1 h2,
    fun pa pb pc nr dx dy h1 =>
      cw_guard path keepInside keepOutside pa pb pc nr dx dy h1⟩

/-- Witness for C3: on the notched square the antiknob decision kernel
fires (it decides to fill the notch rectangle [8,10] x [4,6]), and the
three area guards indeed hold of that rectangle. -/
theorem C3_simplification_area_checks_witness :
    antiknobDecide notched [sq10] [] ⟨.horz, 10, 8, 6⟩ ⟨.vert, 6, 4, 8⟩
        ⟨.horz, 8, 10, 4⟩ = some (AkDecision.removeAll ⟨8, 10, 4, 6⟩) ∧
    (rectIntersectsPath ⟨8, 10, 4, 6⟩ notched = some false ∧
      rectIntersectsAnyPath ⟨8, 10, 4, 6⟩ [] = some false ∧
      rectContainedWithinSome ⟨8, 10, 4, 6⟩ [sq10] = some true) :=
  ⟨by with_unfolding_all rfl,
    (C3_simplification_area_checks notched [sq10] []).1
      ⟨.horz, 10, 8, 6⟩ ⟨.vert, 6, 4, 8⟩ ⟨.horz, 8, 10, 4⟩
      (AkDecision.removeAll ⟨8, 10, 4, 6⟩) ⟨8, 10, 4, 6⟩
      (by with_unfolding_all rfl) rfl⟩

/-- A rectilinear path (given rotated so that the chamber is scanned
first) tracing the rectangle with corners (0,0) and (20,10), with a
chamber x in [8,10], y in [4,6] carved out of it, reached from outside
through a corridor x in [10,20], y in [4.8,5]; a thin region sliver
x in [9.5,10], y in [4.2,4.2001] protrudes into the chamber through
its mouth. The sliver's area, 1/20000, is below the tolerance 1/10000
of `rectIntersectsPath`, so the antiknob pass is allowed to fill the
chamber rectangle even though the sliver overlaps it. -/
def pocketR : Path :=
  [⟨8, 6⟩, ⟨8, 4⟩, ⟨10, 4⟩, ⟨10, 21/5⟩, ⟨19/2, 21/5⟩, ⟨19/2, 42001/10000⟩,
   ⟨10, 42001/10000⟩, ⟨10, 24/5⟩, ⟨20, 24/5⟩, ⟨20, 0⟩, ⟨0, 0⟩, ⟨0, 10⟩,
   ⟨20, 10⟩, ⟨20, 5⟩, ⟨10, 5⟩, ⟨10, 6⟩]

/-- The boundary path of the axis rectangle `[0, 20] × [0, 10]`. -/
def bigSq20 : Path := pathOfRect ⟨0, 20, 0, 10⟩

/-- The path `simplifyPolygons` produces from `pocketR`: the chamber's
four corner points are deleted, which encloses the region sliver as an
unreachable slit inside the filled chamber. -/
def pocketSimp : Path :=
  [⟨10, 21/5⟩, ⟨19/2, 21/5⟩, ⟨19/2, 42001/10000⟩, ⟨10, 42001/10000⟩,
   ⟨10, 24/5⟩, ⟨20, 24/5⟩, ⟨20, 0⟩, ⟨0, 0⟩, ⟨0, 10⟩, ⟨20, 10⟩,
   ⟨20, 5⟩, ⟨10, 5⟩]

/-- Counterexample to C3 as stated, refuting both directions of the
membership-preservation claim. Backward direction: simplifying the
notched square (with the full square as `keepInside` and no siblings)
fills the notch, producing the full square; the point (9,5) lies
strictly outside the original path - not inside it and not on its
edge - yet strictly inside the simplified path. Forward direction:
simplifying `pocketR` (with the enclosing rectangle as `keepInside` and
no siblings) fills the chamber, whose rectangle overlaps the region in
a sliver of area 1/20000, below the 1/10000 tolerance of the
intersection guard; the point (97/10, 420005/100000) lies strictly
inside the original path - inside even with edges excluded - yet after
simplification it is not inside the simplified path even with edges
included. -/
theorem C3_simplification_counterexample :
    (simplifyPolygons [sq10] [[notched]] = some [sq10] ∧
      pointOnPathEdge ⟨9, 5⟩ notched = some false ∧
      pointInPath ⟨9, 5⟩ notched EdgeMode.excludeEdges = some false ∧
      pointInPath ⟨9, 5⟩ sq10 EdgeMode.excludeEdges = some true) ∧
    (simplifyPolygons [bigSq20] [[pocketR]] = some [pocketSimp] ∧
      pointInPath ⟨97/10, 420005/100000⟩ pocketR
        EdgeMode.excludeEdges = some true ∧
      pointInPath ⟨97/10, 420005/100000⟩ pocketSimp
        EdgeMode.includeEdges = some false) :=
  ⟨⟨by with_unfolding_all rfl, by with_unfolding_all rfl,
    by with_unfolding_all rfl, by with_unfolding_all rfl⟩,
    ⟨by with_unfolding_all rfl, by with_unfolding_all rfl,
    by with_unfolding_all rfl⟩⟩

end RB
